import Mathlib

/-!
# Rate limiter engines: a shallow embedding and its properties

The four engines of `src/ratelimiter` (fixed window, sliding window log,
sliding window counter, token bucket) are translated function by function.

* The clock is an explicit argument: every `time.Now()` of the source becomes
  a parameter of the embedded function.
* A goroutine started with `go` is a separate step of the engine; the mutex of
  each engine makes every step atomic, so an execution is a list of steps.
* Go maps are finite partial functions; the outer maps are iterated only to
  apply a per-key test, which is embedded pointwise.
* A run-time panic (integer division by zero) is the result `none`.
* `float64` arithmetic is embedded exactly: every operation computes the exact
  rational result and rounds it to the nearest binary64 value, ties to even.
* Go's `int` and `int64` are mathematical integers. The refill of the token
  bucket multiplies and adds the parameters chosen by the caller, so its
  arithmetic is wrapped to 64 bits (`wrap64`). Clock readings, window lengths
  and counts that a limit bounds stay far from the ends of `int64`, and their
  arithmetic is written without wrap-around.
-/

namespace RateLimiter

/-! ## Go strings and the `fmt` / `strings` functions the fixed window uses -/

/-- Go strings, as the list of their characters. -/
abbrev GoString := List Char

/-- Decimal digits of a natural number, most significant first. The first
argument bounds the number of digits produced. -/
def natDigits : Nat → Nat → List Char
  | 0, _ => []
  | fuel + 1, n =>
    if n < 10 then [Nat.digitChar n]
    else natDigits fuel (n / 10) ++ [Nat.digitChar (n % 10)]

/-- The text `%d` prints for an integer. -/
def formatInt (n : Int) : GoString :=
  if n < 0 then '-' :: natDigits (n.natAbs + 1) n.natAbs
  else natDigits (n.natAbs + 1) n.natAbs

/-- The composite key `fmt.Sprintf("%s-%d", userID, idx)`. -/
def sprintfKey (userID : GoString) (idx : Int) : GoString :=
  userID ++ '-' :: formatInt idx

/-- The function `strings.Split(s, sep)` for a one-character separator. -/
def stringsSplit (sep : Char) : GoString → List GoString
  | [] => [[]]
  | c :: cs =>
    if c = sep then [] :: stringsSplit sep cs
    else
      match stringsSplit sep cs with
      | [] => [[c]]
      | p :: ps => (c :: p) :: ps

/-- The space characters of package `fmt` (its `isSpace` table). -/
def isSpace (c : Char) : Bool :=
  let n := c.toNat
  (9 ≤ n && n ≤ 13) || n = 32 || n = 133 || n = 160 || n = 5760 ||
    (8192 ≤ n && n ≤ 8202) || n = 8232 || n = 8233 || n = 8239 || n = 8287 || n = 12288

/-- The scanner method `SkipSpace` as `Sscanf` runs it: a newline is an error. -/
def skipSpace : GoString → Option GoString
  | [] => some []
  | c :: cs =>
    if c = '\n' then none
    else if isSpace c then skipSpace cs
    else some (c :: cs)

/-- Value of a run of decimal digits read left to right, starting from `acc`. -/
def digitsValue (acc : Nat) : List Char → Nat
  | [] => acc
  | c :: cs => digitsValue (acc * 10 + (c.toNat - 48)) cs

/-- What `fmt.Sscanf(s, "%d", &v)` leaves in an `int64` variable `v` that was
zero before: leading spaces are skipped, one sign is accepted, then at least
one decimal digit is required and the longest run of digits is read. On any
error (also a value outside `int64`) the variable keeps its zero. -/
def sscanfInt (s : GoString) : Int :=
  match skipSpace s with
  | none => 0
  | some [] => 0
  | some (c :: cs) =>
    let neg := c = '-'
    let body := if c = '-' ∨ c = '+' then cs else c :: cs
    let digs := body.takeWhile Char.isDigit
    if digs.isEmpty then 0
    else
      let v : Int := if neg then -(digitsValue 0 digs : Int) else (digitsValue 0 digs : Int)
      if -9223372036854775808 ≤ v ∧ v ≤ 9223372036854775807 then v else 0

/-! ## Machine integers -/

/-- Wrap-around of a mathematical integer into the range of Go's 64-bit `int`. -/
def wrap64 (x : Int) : Int :=
  (x + 9223372036854775808) % 18446744073709551616 - 9223372036854775808

/-! ## binary64 arithmetic -/

/-- Floor of the binary logarithm by repeated halving. The first argument
bounds the number of halvings. -/
def log2Fuel : Nat → Nat → Nat
  | 0, _ => 0
  | fuel + 1, n => if n < 2 then 0 else log2Fuel fuel (n / 2) + 1

/-- Floor of the binary logarithm of a positive number. -/
def ilog2 (n : Nat) : Nat := log2Fuel n n

/-- A finite binary64 value `man * 2 ^ exp`. The exponent range is not
bounded: the operands of this program are 64-bit integers and quotients of
them, whose results stay inside the normal range of binary64. -/
structure F64 where
  man : Int
  exp : Int
deriving DecidableEq, Repr

namespace F64

/-- Numerator of the value written as a fraction over a power of two. -/
def num (a : F64) : Int := a.man * 2 ^ a.exp.toNat

/-- Denominator of the value written as a fraction over a power of two. -/
def den (a : F64) : Nat := 2 ^ (-a.exp).toNat

/-- Nearest integer to `n / d`, a tie going to the even neighbour. -/
def roundHalfEven (n d : Nat) : Nat :=
  let q := n / d
  let r := n % d
  if 2 * r < d then q else if d < 2 * r then q + 1 else if q % 2 = 0 then q else q + 1

/-- Exponent of the binary64 value nearest to `N / D`: the `e` with
`2 ^ 52 ≤ (N / D) / 2 ^ e < 2 ^ 53`, found from the binary logarithms of `N`
and `D` and one comparison. -/
def roundExp (N D : Nat) : Int :=
  let e0 : Int := (ilog2 N : Int) - (ilog2 D : Int) - 52
  if N * 2 ^ (-e0).toNat < 2 ^ 52 * (D * 2 ^ e0.toNat) then e0 - 1 else e0

/-- Nearest binary64 value to the fraction `N / D` of naturals, `D > 0`:
53 significant bits, ties to the even significand. -/
def roundNat (N D : Nat) : F64 :=
  if N = 0 then ⟨0, 0⟩
  else
    let e := roundExp N D
    ⟨(roundHalfEven (N * 2 ^ (-e).toNat) (D * 2 ^ e.toNat) : Nat), e⟩

/-- The opposite value. -/
def neg (a : F64) : F64 := ⟨-a.man, a.exp⟩

/-- Nearest binary64 value to `n / D` for an integer numerator: rounding is
symmetric about zero. -/
def roundRat (n : Int) (D : Nat) : F64 :=
  if n < 0 then neg (roundNat n.natAbs D) else roundNat n.natAbs D

/-- The conversion `float64(n)`. -/
def ofInt (n : Int) : F64 := roundRat n 1

/-- The product `a * b`. -/
def mul (a b : F64) : F64 := roundRat (a.num * b.num) (a.den * b.den)

/-- The sum `a + b`. -/
def add (a b : F64) : F64 := roundRat (a.num * b.den + b.num * a.den) (a.den * b.den)

/-- The quotient `a / b` for a non-zero divisor (infinities and NaN are not
represented; both divisions of the program have a non-zero divisor). -/
def div (a b : F64) : F64 :=
  roundRat (a.num * b.den * Int.sign b.num) (a.den * b.num.natAbs)

/-- The comparison `a >= b`. -/
def ge (a b : F64) : Bool := decide (b.num * a.den ≤ a.num * b.den)

/-- The conversion `int(a)` / `int64(a)`: truncation toward zero. -/
def toInt (a : F64) : Int := Int.tdiv a.num a.den

end F64

/-! ## `time.Duration` -/

/-- The method `Duration.Seconds`:
`float64(d / Second) + float64(d % Second) / 1e9`, on a count of nanoseconds. -/
def durationSeconds (d : Int) : F64 :=
  let sec := Int.tdiv d 1000000000
  let nsec := Int.tmod d 1000000000
  F64.add (F64.ofInt sec) (F64.div (F64.ofInt nsec) (F64.ofInt 1000000000))

/-- The method `Duration.Milliseconds`: `int64(d) / 1e6`. -/
def durationMilliseconds (d : Int) : Int := Int.tdiv d 1000000

/-- The method `Time.Sub` on clock readings in nanoseconds: the difference,
saturated to the range of `Duration`. -/
def timeSub (t u : Int) : Int :=
  if t - u > 9223372036854775807 then 9223372036854775807
  else if t - u < -9223372036854775808 then -9223372036854775808
  else t - u

/-! ## The function `sort.Search` -/

/-- The loop of `sort.Search`: bisection of `[i, j)`. The first argument
bounds the number of iterations. -/
def searchLoop (f : Nat → Bool) : Nat → Nat → Nat → Nat
  | 0, i, _ => i
  | fuel + 1, i, j =>
    if i < j then
      let h := (i + j) / 2
      if !f h then searchLoop f fuel (h + 1) j else searchLoop f fuel i h
    else i

/-- The function `sort.Search(n, f)`; the interval shrinks at every
iteration, so `n` iterations are enough. -/
def sortSearch (n : Nat) (f : Nat → Bool) : Nat := searchLoop f n 0 n

/-! ## Fixed window (`fixedwindow.go`) -/

/-- The struct `FixedWindowLimiter`; `window` is a `time.Duration` in
nanoseconds, `requests` the map from composite key to count. -/
structure FixedWindowLimiter where
  limit : Int
  window : Int
  requests : GoString → Option Int
  cleanupRunning : Bool

/-- The constructor `NewFixedWindowLimiter`. -/
def NewFixedWindowLimiter (limit window : Int) : FixedWindowLimiter :=
  ⟨limit, window, fun _ => none, false⟩

namespace FixedWindowLimiter

/-- The expression `int64(fw.window.Seconds())`. -/
def windowSeconds (fw : FixedWindowLimiter) : Int := (durationSeconds fw.window).toInt

/-- The method `AllowRequest`; `now` is `time.Now().Unix()`. The result is
`none` when the window index divides by zero. Setting `cleanupRunning`
records that a cleanup pass has been started. -/
def AllowRequest (fw : FixedWindowLimiter) (userID : GoString) (now : Int) :
    Option (FixedWindowLimiter × Bool) :=
  if fw.windowSeconds = 0 then none
  else
    let windowKey := sprintfKey userID (Int.tdiv now fw.windowSeconds)
    let fw1 := { fw with cleanupRunning := true }
    let count := (fw1.requests windowKey).getD 0
    if count ≥ fw1.limit then some (fw1, false)
    else
      some ({ fw1 with requests := Function.update fw1.requests windowKey (some (count + 1)) }, true)

/-- The test of the cleanup loop on one map key: the key is split at every
dash, the second piece is scanned as a number, and the key is deleted when
`now - windowTime > int64(fw.window.Seconds())`. -/
def expiredKey (fw : FixedWindowLimiter) (now : Int) (key : GoString) : Bool :=
  match stringsSplit '-' key with
  | _ :: p1 :: _ => decide (now - sscanfInt p1 > fw.windowSeconds)
  | _ => false

/-- The method `cleanupExpiredKeys`; `now` is its own `time.Now().Unix()`. -/
def cleanupExpiredKeys (fw : FixedWindowLimiter) (now : Int) : FixedWindowLimiter :=
  { fw with
    requests := fun key =>
      match fw.requests key with
      | none => none
      | some n => if fw.expiredKey now key then none else some n
    cleanupRunning := false }

end FixedWindowLimiter

/-- One step of a fixed window execution: a call of `AllowRequest`, or the
run of the cleanup pass that an earlier call started. -/
inductive FWStep where
  | allow (userID : GoString) (now : Int)
  | cleanup (now : Int)

/-- An execution of the fixed window engine, with the results of its
`AllowRequest` calls in order. A cleanup step runs only when a pass has been
started and has not run yet. -/
def FixedWindowLimiter.run : FixedWindowLimiter → List FWStep →
    Option (FixedWindowLimiter × List Bool)
  | fw, [] => some (fw, [])
  | fw, FWStep.allow userID now :: rest =>
    match fw.AllowRequest userID now with
    | none => none
    | some (fw1, ok) =>
      match FixedWindowLimiter.run fw1 rest with
      | none => none
      | some (fw2, oks) => some (fw2, ok :: oks)
  | fw, FWStep.cleanup now :: rest =>
    FixedWindowLimiter.run (if fw.cleanupRunning then fw.cleanupExpiredKeys now else fw) rest

/-! ## Sliding window log (`slidingwindow_log.go`) -/

/-- The struct `SlidingWindowLog`; `window` is a `time.Duration` in
nanoseconds. -/
structure SlidingWindowLog where
  requests : GoString → Option (List Int)
  limit : Int
  window : Int

/-- The constructor `NewSlidingWindowLog`. -/
def NewSlidingWindowLog (limit window : Int) : SlidingWindowLog :=
  ⟨fun _ => none, limit, window⟩

/-- The slice `timestamps[idx:]` with
`idx = sort.Search(len(timestamps), timestamps[i] >= windowStart)`. -/
def trimLog (windowStart : Int) (timestamps : List Int) : List Int :=
  timestamps.drop
    (sortSearch timestamps.length (fun i => decide (timestamps.getD i 0 ≥ windowStart)))

namespace SlidingWindowLog

/-- The method `AllowRequest`; `now` is `time.Now().UnixMilli()`. -/
def AllowRequest (sw : SlidingWindowLog) (userID : GoString) (now : Int) :
    SlidingWindowLog × Bool :=
  let windowStart := now - durationMilliseconds sw.window
  let timestamps := (sw.requests userID).getD []
  let trimmed := trimLog windowStart timestamps
  if (trimmed.length : Int) ≥ sw.limit then
    ({ sw with requests := Function.update sw.requests userID (some trimmed) }, false)
  else
    ({ sw with requests := Function.update sw.requests userID (some (trimmed ++ [now])) }, true)

/-- The method `cleanupOldRequests`; `now` is its own `time.Now().UnixMilli()`. -/
def cleanupOldRequests (sw : SlidingWindowLog) (now : Int) : SlidingWindowLog :=
  let windowStart := now - durationMilliseconds sw.window
  { sw with
    requests := fun userID =>
      match sw.requests userID with
      | none => none
      | some timestamps =>
        let trimmed := trimLog windowStart timestamps
        if trimmed.length = 0 then none else some trimmed }

end SlidingWindowLog

/-- One step of an execution of a sliding engine: a call of `AllowRequest`
or a run of the cleanup goroutine, each with its clock reading. -/
inductive SWStep where
  | allow (userID : GoString) (now : Int)
  | cleanup (now : Int)

namespace SWStep

/-- Clock reading of a step. -/
def time : SWStep → Int
  | allow _ now => now
  | cleanup now => now

/-- Whether the step is a call of `AllowRequest`. -/
def isAllow : SWStep → Bool
  | allow _ _ => true
  | cleanup _ => false

end SWStep

/-- One `AllowRequest` call as seen from outside: key, clock reading, result. -/
structure Call where
  userID : GoString
  time : Int
  ok : Bool
deriving DecidableEq, Repr

/-- An execution of the sliding window log, with the record of its calls. -/
def SlidingWindowLog.run : SlidingWindowLog → List SWStep → SlidingWindowLog × List Call
  | sw, [] => (sw, [])
  | sw, SWStep.allow userID now :: rest =>
    let r := sw.AllowRequest userID now
    let out := SlidingWindowLog.run r.1 rest
    (out.1, ⟨userID, now, r.2⟩ :: out.2)
  | sw, SWStep.cleanup now :: rest => SlidingWindowLog.run (sw.cleanupOldRequests now) rest

/-- Number of admitted calls of a key whose clock reading lies in `[lo, hi]`. -/
def admittedIn (calls : List Call) (userID : GoString) (lo hi : Int) : Nat :=
  (calls.filter (fun c => decide (c.userID = userID) && c.ok && decide (lo ≤ c.time) &&
    decide (c.time ≤ hi))).length

/-! ## Sliding window counter (`slidingwindow_conter.go`) -/

/-- Lookup `m[k]` in an inner counter map, a missing index reading as zero. -/
def counterGet : List (Int × Int) → Int → Int
  | [], _ => 0
  | (k1, v1) :: rest, k => if k1 = k then v1 else counterGet rest k

/-- Assignment `m[k] = v` in an inner counter map. -/
def counterSet : List (Int × Int) → Int → Int → List (Int × Int)
  | [], k, v => [(k, v)]
  | (k1, v1) :: rest, k, v =>
    if k1 = k then (k, v) :: rest else (k1, v1) :: counterSet rest k v

/-- The struct `SlidingWindowCounter`; the inner maps are association lists
from window index to count. -/
structure SlidingWindowCounter where
  counters : GoString → Option (List (Int × Int))
  limit : Int
  window : Int

/-- The constructor `NewSlidingWindowCounter`. -/
def NewSlidingWindowCounter (limit window : Int) : SlidingWindowCounter :=
  ⟨fun _ => none, limit, window⟩

/-- The value `float64(previousCount)*weight + float64(currentCount)` with
`weight = float64(windowSize-elapsedTime) / float64(windowSize)`. -/
def estimatedCount (previousCount currentCount windowSize elapsedTime : Int) : F64 :=
  let weight := F64.div (F64.ofInt (windowSize - elapsedTime)) (F64.ofInt windowSize)
  F64.add (F64.mul (F64.ofInt previousCount) weight) (F64.ofInt currentCount)

namespace SlidingWindowCounter

/-- The method `AllowRequest`; `now` is `time.Now().UnixMilli()`. The result
is `none` when the window index divides by zero. -/
def AllowRequest (swc : SlidingWindowCounter) (userID : GoString) (now : Int) :
    Option (SlidingWindowCounter × Bool) :=
  let windowSize := durationMilliseconds swc.window
  if windowSize = 0 then none
  else
    let currentWindow := Int.tdiv now windowSize
    let previousWindow := currentWindow - 1
    let counterMap := (swc.counters userID).getD []
    let currentCount := counterGet counterMap currentWindow
    let previousCount := counterGet counterMap previousWindow
    let elapsedTime := Int.tmod now windowSize
    if F64.ge (estimatedCount previousCount currentCount windowSize elapsedTime)
        (F64.ofInt swc.limit) then
      some ({ swc with counters := Function.update swc.counters userID (some counterMap) }, false)
    else
      let bumped := counterSet counterMap currentWindow (currentCount + 1)
      some ({ swc with counters := Function.update swc.counters userID (some bumped) }, true)

/-- The method `cleanupOldCounters`; `now` is its own `time.Now().UnixMilli()`. -/
def cleanupOldCounters (swc : SlidingWindowCounter) (now : Int) : Option SlidingWindowCounter :=
  let windowSize := durationMilliseconds swc.window
  if windowSize = 0 then none
  else
    let oldestAllowedWindow := Int.tdiv now windowSize - 1
    some { swc with
      counters := fun userID =>
        match swc.counters userID with
        | none => none
        | some counterMap =>
          let kept := counterMap.filter (fun e => !decide (e.1 < oldestAllowedWindow))
          if kept.length = 0 then none else some kept }

end SlidingWindowCounter

/-- An execution of the sliding window counter, with the record of its calls. -/
def SlidingWindowCounter.run : SlidingWindowCounter → List SWStep →
    Option (SlidingWindowCounter × List Call)
  | swc, [] => some (swc, [])
  | swc, SWStep.allow userID now :: rest =>
    match swc.AllowRequest userID now with
    | none => none
    | some (swc1, ok) =>
      match SlidingWindowCounter.run swc1 rest with
      | none => none
      | some (swc2, calls) => some (swc2, ⟨userID, now, ok⟩ :: calls)
  | swc, SWStep.cleanup now :: rest =>
    match swc.cleanupOldCounters now with
    | none => none
    | some swc1 => SlidingWindowCounter.run swc1 rest

/-! ## Token bucket (`tokenbucket.go`) -/

/-- The struct `TokenBucket`; `lastRefilled` is a clock reading in nanoseconds. -/
structure TokenBucket where
  tokens : Int
  lastRefilled : Int
deriving DecidableEq, Repr

/-- The struct `TokenBucketLimiter`. -/
structure TokenBucketLimiter where
  capacity : Int
  refillRate : Int
  users : GoString → Option TokenBucket

/-- The constructor `NewTokenBucketLimiter`. -/
def NewTokenBucketLimiter (capacity refillRate : Int) : TokenBucketLimiter :=
  ⟨capacity, refillRate, fun _ => none⟩

namespace TokenBucketLimiter

/-- The method `GetUserBucket`; `now` is its `time.Now()`, read only when the
bucket is created. -/
def GetUserBucket (tb : TokenBucketLimiter) (userID : GoString) (now : Int) :
    TokenBucketLimiter × TokenBucket :=
  match tb.users userID with
  | some bucket => (tb, bucket)
  | none =>
    let bucket : TokenBucket := ⟨tb.capacity, now⟩
    ({ tb with users := Function.update tb.users userID (some bucket) }, bucket)

/-- The value `int(elapsed) * tb.refillRate` with
`elapsed = now.Sub(lastRefilled).Seconds()`, in 64-bit arithmetic. -/
def newTokens (tb : TokenBucketLimiter) (lastRefilled now : Int) : Int :=
  wrap64 ((durationSeconds (timeSub now lastRefilled)).toInt * tb.refillRate)

/-- The refill of `AllowRequest`: when `newTokens > 0` the bucket gets
`min(capacity, tokens + newTokens)` tokens, the sum in 64-bit arithmetic,
and `lastRefilled = now`. -/
def refill (tb : TokenBucketLimiter) (bucket : TokenBucket) (now : Int) : TokenBucket :=
  if tb.newTokens bucket.lastRefilled now > 0 then
    ⟨min tb.capacity (wrap64 (bucket.tokens + tb.newTokens bucket.lastRefilled now)), now⟩
  else bucket

/-- The method `AllowRequest`; `created` is the clock reading of
`GetUserBucket` and `now` the later reading of `AllowRequest` itself. -/
def AllowRequest (tb : TokenBucketLimiter) (userID : GoString) (created now : Int) :
    TokenBucketLimiter × Bool :=
  let got := tb.GetUserBucket userID created
  let bucket := tb.refill got.2 now
  if bucket.tokens > 0 then
    let spent : TokenBucket := { bucket with tokens := bucket.tokens - 1 }
    ({ got.1 with users := Function.update got.1.users userID (some spent) }, true)
  else
    ({ got.1 with users := Function.update got.1.users userID (some bucket) }, false)

end TokenBucketLimiter

/-- One `AllowRequest` call of the token bucket with its two clock readings. -/
structure TBStep where
  userID : GoString
  created : Int
  now : Int

/-- An execution of the token bucket, with the results of its calls in order. -/
def TokenBucketLimiter.run : TokenBucketLimiter → List TBStep → TokenBucketLimiter × List Bool
  | tb, [] => (tb, [])
  | tb, step :: rest =>
    let r := tb.AllowRequest step.userID step.created step.now
    let out := TokenBucketLimiter.run r.1 rest
    (out.1, r.2 :: out.2)

/-! ## Vocabulary of the statements -/

/-- Clock readings of the admitted calls of a key, in call order. -/
def admittedTimes (calls : List Call) (userID : GoString) : List Int :=
  (calls.filter (fun c => decide (c.userID = userID) && c.ok)).map Call.time

/-- The stored log of a key, an absent key reading as the empty log. -/
def SlidingWindowLog.logOf (sw : SlidingWindowLog) (userID : GoString) : List Int :=
  (sw.requests userID).getD []

/-- Invariant of the sliding window log at a clock value `T` that no later
step precedes: every log is ascending and bounded by `T`, and above every
window start still to come it holds exactly the admitted calls of its key. -/
def SlidingWindowLog.Inv (sw : SlidingWindowLog) (calls : List Call) (T : Int) : Prop :=
  ∀ k, (sw.logOf k).Pairwise (· ≤ ·) ∧ (∀ x ∈ sw.logOf k, x ≤ T) ∧
    (∀ x ∈ admittedTimes calls k, x ≤ T) ∧
    ∀ lo, T - durationMilliseconds sw.window ≤ lo →
      (sw.logOf k).filter (fun x => decide (lo ≤ x)) =
        (admittedTimes calls k).filter (fun x => decide (lo ≤ x))

namespace SlidingWindowCounter

/-- The inner counter map of a key, an absent key reading as the empty map. -/
def mapOf (swc : SlidingWindowCounter) (userID : GoString) : List (Int × Int) :=
  (swc.counters userID).getD []

/-- The value `currentCount` that `AllowRequest` reads at clock `now`. -/
def currentCount (swc : SlidingWindowCounter) (userID : GoString) (now : Int) : Int :=
  counterGet (swc.mapOf userID) (Int.tdiv now (durationMilliseconds swc.window))

/-- The value `previousCount` that `AllowRequest` reads at clock `now`. -/
def previousCount (swc : SlidingWindowCounter) (userID : GoString) (now : Int) : Int :=
  counterGet (swc.mapOf userID) (Int.tdiv now (durationMilliseconds swc.window) - 1)

/-- The value `estimatedCount` that `AllowRequest` computes at clock `now`. -/
def estimate (swc : SlidingWindowCounter) (userID : GoString) (now : Int) : F64 :=
  estimatedCount (swc.previousCount userID now) (swc.currentCount userID now)
    (durationMilliseconds swc.window) (Int.tmod now (durationMilliseconds swc.window))

/-- Two counter states agree on every window index that a step at clock `T`
or later can read. -/
def Sim (T : Int) (a b : SlidingWindowCounter) : Prop :=
  a.limit = b.limit ∧ a.window = b.window ∧
    ∀ k idx, Int.tdiv T (durationMilliseconds a.window) - 1 ≤ idx →
      counterGet (a.mapOf k) idx = counterGet (b.mapOf k) idx

end SlidingWindowCounter

/-- The results of the calls of one key, picked out of the results of an
execution of the token bucket. -/
def resultsFor (userID : GoString) : List TBStep → List Bool → List Bool
  | s :: steps, ok :: oks =>
    if s.userID = userID then ok :: resultsFor userID steps oks
    else resultsFor userID steps oks
  | _, _ => []

/-- The results of the calls of one key in a record of calls. -/
def okFor (userID : GoString) (calls : List Call) : List Bool :=
  (calls.filter (fun c => decide (c.userID = userID))).map Call.ok

/-- The calls of one key among the steps of a sliding engine. -/
def callsOf (userID : GoString) (steps : List SWStep) : List Int :=
  steps.filterMap (fun s =>
    match s with
    | SWStep.allow u t => if u = userID then some t else none
    | SWStep.cleanup _ => none)

/-- The value `weight` of `AllowRequest` in the sliding window counter:
`float64(windowSize-elapsedTime) / float64(windowSize)`. -/
def counterWeight (windowSize elapsedTime : Int) : F64 :=
  F64.div (F64.ofInt (windowSize - elapsedTime)) (F64.ofInt windowSize)

/-- The stored count of the composite key of a user ID and a window index,
0 when the key is absent (what `fw.requests[windowKey]` reads). -/
def FixedWindowLimiter.countOf (fw : FixedWindowLimiter) (userID : GoString) (idx : Int) : Int :=
  (fw.requests (sprintfKey userID idx)).getD 0

/-- The results of the calls of one user ID, picked out of the results of an
execution of the fixed window; a cleanup step has no result. -/
def fwResultsFor (userID : GoString) : List FWStep → List Bool → List Bool
  | FWStep.allow u _ :: steps, ok :: oks =>
    if u = userID then ok :: fwResultsFor userID steps oks else fwResultsFor userID steps oks
  | FWStep.cleanup _ :: steps, oks => fwResultsFor userID steps oks
  | _, _ => []

/-- The clock readings of the calls of one user ID among the steps of a fixed
window execution. -/
def fwCallsOf (userID : GoString) : List FWStep → List Int
  | [] => []
  | FWStep.allow u t :: steps =>
    if u = userID then t :: fwCallsOf userID steps else fwCallsOf userID steps
  | FWStep.cleanup _ :: steps => fwCallsOf userID steps

/-- Whether a step is a call of `AllowRequest`. -/
def FWStep.isAllow : FWStep → Bool
  | FWStep.allow _ _ => true
  | FWStep.cleanup _ => false

/-- The clock readings of an execution of the token bucket, in the order in
which they are taken. -/
def tbReadings : List TBStep → List Int
  | [] => []
  | s :: rest => s.created :: s.now :: tbReadings rest

/-- Invariant of the sliding window counter against the clock readings
`times k` of the calls of each key so far: every stored count lies between 0
and the limit, and a count that is not zero belongs to the window of one of
the calls. -/
def SlidingWindowCounter.Counted (swc : SlidingWindowCounter)
    (times : GoString → List Int) : Prop :=
  ∀ k idx, 0 ≤ counterGet (swc.mapOf k) idx ∧ counterGet (swc.mapOf k) idx ≤ swc.limit ∧
    (counterGet (swc.mapOf k) idx ≠ 0 →
      ∃ x ∈ times k, Int.tdiv x (durationMilliseconds swc.window) = idx)

/-! # Properties -/

/-! ## binary64 rounding -/

theorem log2Fuel_spec : ∀ fuel n : Nat, n ≤ fuel → 1 ≤ n →
    2 ^ log2Fuel fuel n ≤ n ∧ n < 2 ^ (log2Fuel fuel n + 1) := by
  intro fuel
  induction fuel with
  | zero => intro n h1 h2; omega
  | succ fuel ih =>
    intro n h1 h2
    unfold log2Fuel
    by_cases hn : n < 2
    · simp only [hn, if_true]
      have : n = 1 := by omega
      subst this
      simp
    · simp only [hn, if_false]
      obtain ⟨ha, hb⟩ := ih (n / 2) (by omega) (by omega)
      rw [pow_succ] at hb ⊢
      rw [pow_succ]
      constructor <;> omega

theorem ilog2_spec (n : Nat) (hn : 1 ≤ n) : 2 ^ ilog2 n ≤ n ∧ n < 2 ^ (ilog2 n + 1) :=
  log2Fuel_spec n n (le_refl _) hn

example (e : Int) (h : 0 ≤ e) : (e.toNat : Int) = e := by omega
example (e : Int) (h : e ≤ 0) : (-e).toNat + e.toNat = (-e).toNat := by omega

theorem roundHalfEven_le (n d X : Nat) (hd : 0 < d) (h : n ≤ X * d) :
    F64.roundHalfEven n d ≤ X := by
  unfold F64.roundHalfEven
  have hq : n / d ≤ X := Nat.div_le_of_le_mul (by rw [Nat.mul_comm]; exact h)
  have hdm := Nat.div_add_mod n d
  rcases Nat.eq_or_lt_of_le hq with hX | hX
  · have hr : n % d = 0 := by
      rw [hX] at hdm
      have : d * X = X * d := Nat.mul_comm _ _
      omega
    simp only [hr, Nat.mul_zero, hd, if_true]
    exact hq
  · simp only
    split
    · omega
    · split
      · omega
      · split <;> omega

theorem roundHalfEven_ge (n d X : Nat) (hd : 0 < d) (h : X * d ≤ n) :
    X ≤ F64.roundHalfEven n d := by
  unfold F64.roundHalfEven
  have hq : X ≤ n / d := (Nat.le_div_iff_mul_le hd).mpr h
  simp only
  split
  · omega
  · split
    · omega
    · split <;> omega

theorem roundExp_norm (N D : Nat) (hN : 0 < N) (hD : 0 < D) :
    2 ^ 52 * (D * 2 ^ (F64.roundExp N D).toNat) ≤ N * 2 ^ (-(F64.roundExp N D)).toNat := by
  obtain ⟨ha, _⟩ := ilog2_spec N hN
  obtain ⟨_, hb⟩ := ilog2_spec D hD
  unfold F64.roundExp
  simp only
  split
  · rename_i hc
    by_cases he : (1 : Int) ≤ (ilog2 N : Int) - (ilog2 D : Int) - 52
    · have h1 : (-((ilog2 N : Int) - (ilog2 D : Int) - 52 - 1)).toNat = 0 := by omega
      have h2 : ilog2 N =
          (ilog2 D + 1) + ((ilog2 N : Int) - (ilog2 D : Int) - 52 - 1).toNat + 52 := by omega
      rw [h1, pow_zero, Nat.mul_one]
      generalize ((ilog2 N : Int) - (ilog2 D : Int) - 52 - 1).toNat = u at h2 ⊢
      rw [h2, pow_add, pow_add] at ha
      calc 2 ^ 52 * (D * 2 ^ u) = D * (2 ^ u * 2 ^ 52) := by ring
        _ ≤ 2 ^ (ilog2 D + 1) * (2 ^ u * 2 ^ 52) :=
            Nat.mul_le_mul_right _ (Nat.le_of_lt hb)
        _ = 2 ^ (ilog2 D + 1) * 2 ^ u * 2 ^ 52 := by ring
        _ ≤ N := ha
    · have h1 : ((ilog2 N : Int) - (ilog2 D : Int) - 52 - 1).toNat = 0 := by omega
      have h2 : ilog2 N + (-((ilog2 N : Int) - (ilog2 D : Int) - 52 - 1)).toNat =
          (ilog2 D + 1) + 52 := by omega
      rw [h1, pow_zero, Nat.mul_one]
      generalize (-((ilog2 N : Int) - (ilog2 D : Int) - 52 - 1)).toNat = v at h2 ⊢
      calc 2 ^ 52 * D ≤ 2 ^ 52 * 2 ^ (ilog2 D + 1) :=
            Nat.mul_le_mul_left _ (Nat.le_of_lt hb)
        _ = 2 ^ (ilog2 D + 1 + 52) := by rw [pow_add]; ring
        _ = 2 ^ ilog2 N * 2 ^ v := by rw [← h2, pow_add]
        _ ≤ N * 2 ^ v := Nat.mul_le_mul_right _ ha
  · rename_i hc
    exact Nat.le_of_not_lt hc

theorem two_le_pow (i : Nat) (hi : 1 ≤ i) : 2 ≤ 2 ^ i := by
  calc 2 = 2 ^ 1 := by norm_num
    _ ≤ 2 ^ i := Nat.pow_le_pow_right (by norm_num) hi

theorem roundNat_le (N D M j : Nat) (hD : 0 < D) (hM : M < 2 ^ 53)
    (h : N * 2 ^ j ≤ M * D) :
    (F64.roundNat N D).num * 2 ^ j ≤ (M : Int) * ((F64.roundNat N D).den : Int) := by
  unfold F64.roundNat
  by_cases hN : N = 0
  · simp only [hN, if_true, F64.num, F64.den]
    simp
  · simp only [hN, if_false, F64.num, F64.den]
    have hnorm := roundExp_norm N D (Nat.pos_of_ne_zero hN) hD
    generalize F64.roundExp N D = e at hnorm ⊢
    have hcases : (e.toNat = 0 ∧ j ≤ (-e).toNat) ∨ ((-e).toNat = 0 ∧ 1 ≤ e.toNat + j) ∨
        (e.toNat = 0 ∧ (-e).toNat < j) := by omega
    rcases hcases with ⟨hu, hk⟩ | ⟨hk, hu⟩ | ⟨hu, hk⟩
    · obtain ⟨i, hi⟩ : ∃ i, (-e).toNat = j + i := ⟨(-e).toNat - j, by omega⟩
      rw [hu, hi] at hnorm ⊢
      simp only [pow_zero, Nat.mul_one, mul_one] at hnorm ⊢
      have hX : N * 2 ^ (j + i) ≤ (M * 2 ^ i) * D := by
        calc N * 2 ^ (j + i) = (N * 2 ^ j) * 2 ^ i := by rw [pow_add]; ring
          _ ≤ (M * D) * 2 ^ i := Nat.mul_le_mul_right _ h
          _ = (M * 2 ^ i) * D := by ring
      have hr := roundHalfEven_le _ _ _ hD hX
      have : F64.roundHalfEven (N * 2 ^ (j + i)) D * 2 ^ j ≤ M * 2 ^ (j + i) := by
        calc F64.roundHalfEven (N * 2 ^ (j + i)) D * 2 ^ j ≤ (M * 2 ^ i) * 2 ^ j :=
              Nat.mul_le_mul_right _ hr
          _ = M * 2 ^ (j + i) := by rw [pow_add]; ring
      exact_mod_cast this
    · exfalso
      rw [hk] at hnorm
      simp only [pow_zero, Nat.mul_one] at hnorm
      have h2 := two_le_pow (e.toNat + j) hu
      have h3 : 2 ^ 53 * D ≤ N * 2 ^ j := by
        calc 2 ^ 53 * D = 2 ^ 52 * D * 2 := by norm_num; ring
          _ ≤ 2 ^ 52 * D * 2 ^ (e.toNat + j) := Nat.mul_le_mul_left _ h2
          _ = 2 ^ 52 * (D * 2 ^ e.toNat) * 2 ^ j := by rw [pow_add]; ring
          _ ≤ N * 2 ^ j := Nat.mul_le_mul_right _ hnorm
      have h4 : M * D < 2 ^ 53 * D := Nat.mul_lt_mul_of_pos_right hM hD
      omega
    · exfalso
      obtain ⟨i, hi, hi1⟩ : ∃ i, j = (-e).toNat + i ∧ 1 ≤ i :=
        ⟨j - (-e).toNat, by omega, by omega⟩
      rw [hu] at hnorm
      simp only [pow_zero, Nat.mul_one] at hnorm
      have h2 := two_le_pow i hi1
      have h3 : 2 ^ 53 * D ≤ N * 2 ^ j := by
        calc 2 ^ 53 * D = 2 ^ 52 * D * 2 := by norm_num; ring
          _ ≤ 2 ^ 52 * D * 2 ^ i := Nat.mul_le_mul_left _ h2
          _ ≤ N * 2 ^ (-e).toNat * 2 ^ i := Nat.mul_le_mul_right _ hnorm
          _ = N * 2 ^ j := by rw [hi, pow_add]; ring
      have h4 : M * D < 2 ^ 53 * D := Nat.mul_lt_mul_of_pos_right hM hD
      omega

theorem roundNat_ge (N D M j : Nat) (hD : 0 < D) (hM : M < 2 ^ 53)
    (h : M * D ≤ N * 2 ^ j) :
    (M : Int) * ((F64.roundNat N D).den : Int) ≤ (F64.roundNat N D).num * 2 ^ j := by
  unfold F64.roundNat
  by_cases hN : N = 0
  · simp only [hN, if_true, F64.num, F64.den]
    have : M = 0 := by
      rw [hN] at h
      simp only [Nat.zero_mul, Nat.le_zero_eq, Nat.mul_eq_zero] at h
      omega
    simp [this]
  · simp only [hN, if_false, F64.num, F64.den]
    have hnorm := roundExp_norm N D (Nat.pos_of_ne_zero hN) hD
    generalize F64.roundExp N D = e at hnorm ⊢
    have hcases : (e.toNat = 0 ∧ j ≤ (-e).toNat) ∨ ((-e).toNat = 0 ∧ 1 ≤ e.toNat + j) ∨
        (e.toNat = 0 ∧ (-e).toNat < j) := by omega
    rcases hcases with ⟨hu, hk⟩ | ⟨hk, hu⟩ | ⟨hu, hk⟩
    · obtain ⟨i, hi⟩ : ∃ i, (-e).toNat = j + i := ⟨(-e).toNat - j, by omega⟩
      rw [hu, hi] at hnorm ⊢
      simp only [pow_zero, Nat.mul_one, mul_one] at hnorm ⊢
      have hX : (M * 2 ^ i) * D ≤ N * 2 ^ (j + i) := by
        calc (M * 2 ^ i) * D = (M * D) * 2 ^ i := by ring
          _ ≤ (N * 2 ^ j) * 2 ^ i := Nat.mul_le_mul_right _ h
          _ = N * 2 ^ (j + i) := by rw [pow_add]; ring
      have hr := roundHalfEven_ge _ _ _ hD hX
      have : M * 2 ^ (j + i) ≤ F64.roundHalfEven (N * 2 ^ (j + i)) D * 2 ^ j := by
        calc M * 2 ^ (j + i) = (M * 2 ^ i) * 2 ^ j := by rw [pow_add]; ring
          _ ≤ F64.roundHalfEven (N * 2 ^ (j + i)) D * 2 ^ j := Nat.mul_le_mul_right _ hr
      exact_mod_cast this
    · rw [hk] at hnorm ⊢
      simp only [pow_zero, Nat.mul_one, mul_one] at hnorm ⊢
      have hd : 0 < D * 2 ^ e.toNat := Nat.mul_pos hD (by positivity)
      have hr := roundHalfEven_ge N (D * 2 ^ e.toNat) (2 ^ 52) hd hnorm
      have h2 := two_le_pow (e.toNat + j) hu
      have : M ≤ F64.roundHalfEven N (D * 2 ^ e.toNat) * 2 ^ e.toNat * 2 ^ j := by
        calc M ≤ 2 ^ 52 * 2 := by norm_num at hM ⊢; omega
          _ ≤ 2 ^ 52 * 2 ^ (e.toNat + j) := Nat.mul_le_mul_left _ h2
          _ ≤ F64.roundHalfEven N (D * 2 ^ e.toNat) * 2 ^ (e.toNat + j) :=
              Nat.mul_le_mul_right _ hr
          _ = F64.roundHalfEven N (D * 2 ^ e.toNat) * 2 ^ e.toNat * 2 ^ j := by
              rw [pow_add]; ring
      rw [Nat.cast_one, mul_one]
      exact_mod_cast this
    · obtain ⟨i, hi, hi1⟩ : ∃ i, j = (-e).toNat + i ∧ 1 ≤ i :=
        ⟨j - (-e).toNat, by omega, by omega⟩
      rw [hu] at hnorm ⊢
      simp only [pow_zero, Nat.mul_one, mul_one] at hnorm ⊢
      have hr := roundHalfEven_ge (N * 2 ^ (-e).toNat) D (2 ^ 52) hD hnorm
      have h2 := two_le_pow i hi1
      have : M * 2 ^ (-e).toNat ≤ F64.roundHalfEven (N * 2 ^ (-e).toNat) D * 2 ^ j := by
        calc M * 2 ^ (-e).toNat ≤ (2 ^ 52 * 2) * 2 ^ (-e).toNat :=
              Nat.mul_le_mul_right _ (by norm_num at hM ⊢; omega)
          _ = 2 ^ 52 * (2 ^ (-e).toNat * 2) := by ring
          _ ≤ 2 ^ 52 * (2 ^ (-e).toNat * 2 ^ i) :=
              Nat.mul_le_mul_left _ (Nat.mul_le_mul_left _ h2)
          _ = 2 ^ 52 * 2 ^ j := by rw [hi, pow_add]
          _ ≤ F64.roundHalfEven (N * 2 ^ (-e).toNat) D * 2 ^ j := Nat.mul_le_mul_right _ hr
      exact_mod_cast this

namespace F64

theorem den_pos (a : F64) : 0 < a.den := by
  unfold den
  positivity

theorem neg_num (a : F64) : (neg a).num = -a.num := by
  simp [neg, num]

theorem neg_den (a : F64) : (neg a).den = a.den := rfl

theorem neg_neg (a : F64) : neg (neg a) = a := by
  cases a
  simp [neg]

theorem roundNat_zero (D : Nat) : roundNat 0 D = ⟨0, 0⟩ := by
  simp [roundNat]

theorem roundRat_zero (D : Nat) : roundRat 0 D = ⟨0, 0⟩ := by
  simp [roundRat, roundNat_zero]

theorem roundRat_of_nonneg (n : Int) (D : Nat) (hn : 0 ≤ n) :
    roundRat n D = roundNat n.toNat D := by
  unfold roundRat
  rw [if_neg (by omega)]
  congr 1
  omega

theorem roundRat_neg (n : Int) (D : Nat) : roundRat (-n) D = neg (roundRat n D) := by
  rcases lt_trichotomy n 0 with h | h | h
  · unfold roundRat
    rw [if_neg (by omega), if_pos h, neg_neg, Int.natAbs_neg]
  · subst h
    simp [roundRat_zero, neg]
  · unfold roundRat
    rw [if_pos (by omega), if_neg (by omega), Int.natAbs_neg]

theorem roundNat_num_nonneg (N D : Nat) : 0 ≤ (roundNat N D).num := by
  unfold roundNat num
  split
  · simp
  · positivity

theorem roundRat_num_nonneg (n : Int) (D : Nat) (hn : 0 ≤ n) : 0 ≤ (roundRat n D).num := by
  rw [roundRat_of_nonneg n D hn]
  exact roundNat_num_nonneg _ _

theorem roundRat_le (n : Int) (D M j : Nat) (hn : 0 ≤ n) (hD : 0 < D) (hM : M < 2 ^ 53)
    (h : n * 2 ^ j ≤ (M : Int) * (D : Int)) :
    (roundRat n D).num * 2 ^ j ≤ (M : Int) * ((roundRat n D).den : Int) := by
  rw [roundRat_of_nonneg n D hn]
  apply roundNat_le _ _ _ _ hD hM
  have hn1 : ((n.toNat : Nat) : Int) = n := Int.toNat_of_nonneg hn
  have : ((n.toNat * 2 ^ j : Nat) : Int) ≤ ((M * D : Nat) : Int) := by
    push_cast
    rw [hn1]
    exact h
  exact_mod_cast this

theorem roundRat_ge (n : Int) (D M j : Nat) (hn : 0 ≤ n) (hD : 0 < D) (hM : M < 2 ^ 53)
    (h : (M : Int) * (D : Int) ≤ n * 2 ^ j) :
    (M : Int) * ((roundRat n D).den : Int) ≤ (roundRat n D).num * 2 ^ j := by
  rw [roundRat_of_nonneg n D hn]
  apply roundNat_ge _ _ _ _ hD hM
  have hn1 : ((n.toNat : Nat) : Int) = n := Int.toNat_of_nonneg hn
  have : ((M * D : Nat) : Int) ≤ ((n.toNat * 2 ^ j : Nat) : Int) := by
    push_cast
    rw [hn1]
    exact h
  exact_mod_cast this

theorem ofInt_exact (n : Int) (h0 : 0 ≤ n) (h1 : n < 2 ^ 53) :
    (ofInt n).num = n * ((ofInt n).den : Int) := by
  have hn1 : ((n.toNat : Nat) : Int) = n := Int.toNat_of_nonneg h0
  have hM : n.toNat < 2 ^ 53 := by
    have : ((n.toNat : Nat) : Int) < ((2 ^ 53 : Nat) : Int) := by
      rw [hn1]; exact_mod_cast h1
    exact_mod_cast this
  have hle := roundRat_le n 1 n.toNat 0 h0 (by norm_num) hM (by rw [hn1]; simp)
  have hge := roundRat_ge n 1 n.toNat 0 h0 (by norm_num) hM (by rw [hn1]; simp)
  rw [hn1] at hle hge
  simp only [pow_zero, mul_one] at hle hge
  unfold ofInt
  omega

theorem ofInt_num_nonneg (n : Int) (h0 : 0 ≤ n) : 0 ≤ (ofInt n).num :=
  roundRat_num_nonneg n 1 h0

theorem ofInt_zero : ofInt 0 = ⟨0, 0⟩ := roundRat_zero 1

theorem ofInt_neg (n : Int) : ofInt (-n) = neg (ofInt n) := roundRat_neg n 1

theorem add_neg (a b : F64) : add (neg a) (neg b) = neg (add a b) := by
  unfold add
  rw [neg_num, neg_num, neg_den, neg_den, ← roundRat_neg]
  congr 1
  ring

theorem div_neg_left (a b : F64) : div (neg a) b = neg (div a b) := by
  unfold div
  rw [neg_num, neg_den, ← roundRat_neg]
  congr 1
  ring

theorem toInt_neg (a : F64) : toInt (neg a) = -toInt a := by
  unfold toInt
  rw [neg_num, neg_den, Int.neg_tdiv]

theorem mul_zero_left (w : F64) : mul ⟨0, 0⟩ w = ⟨0, 0⟩ := by
  simp [mul, num, roundRat_zero]

theorem zero_add (y : F64) : add ⟨0, 0⟩ y = roundRat y.num y.den := by
  simp [add, num, den]

end F64

/-! ## Whole seconds of a duration -/

theorem neg_tmod (a b : Int) : (-a).tmod b = -(a.tmod b) := by
  rw [Int.tmod_def, Int.tmod_def, Int.neg_tdiv]
  ring

theorem durationSeconds_neg (d : Int) :
    durationSeconds (-d) = F64.neg (durationSeconds d) := by
  unfold durationSeconds
  simp only
  rw [Int.neg_tdiv, neg_tmod, F64.ofInt_neg, F64.ofInt_neg, F64.div_neg_left, F64.add_neg]

theorem ofInt_billion : F64.ofInt 1000000000 = ⟨8388608000000000, -23⟩ := by decide

theorem fraction_bounds (nsec : Int) (h0 : 0 ≤ nsec) (h1 : nsec < 1000000000) :
    0 ≤ (F64.div (F64.ofInt nsec) (F64.ofInt 1000000000)).num ∧
      (F64.div (F64.ofInt nsec) (F64.ofInt 1000000000)).num * 2 ^ 53 ≤
        ((2 ^ 53 - 1 : Nat) : Int) *
          ((F64.div (F64.ofInt nsec) (F64.ofInt 1000000000)).den : Int) := by
  have hy := F64.ofInt_exact nsec h0 (by norm_num; omega)
  have hT : (0 : Int) < ((F64.ofInt nsec).den : Int) := by exact_mod_cast F64.den_pos _
  rw [ofInt_billion]
  unfold F64.div
  have hnum : (⟨8388608000000000, -23⟩ : F64).num = 8388608000000000 := by decide
  have hden : (⟨8388608000000000, -23⟩ : F64).den = 8388608 := by decide
  rw [hnum, hden, hy]
  have hsign : Int.sign 8388608000000000 = 1 := by decide
  have habs : Int.natAbs 8388608000000000 = 8388608000000000 := by decide
  rw [hsign, habs]
  generalize (F64.ofInt nsec).den = T at hT ⊢
  have hnn : 0 ≤ nsec * (T : Int) * ((8388608 : Nat) : Int) * 1 := by positivity
  refine ⟨F64.roundRat_num_nonneg _ _ hnn, ?_⟩
  apply F64.roundRat_le _ _ _ _ hnn (Nat.mul_pos (by exact_mod_cast hT) (by norm_num))
    (by norm_num)
  push_cast
  have hK : (0 : Int) ≤ (T : Int) * 8388608 := by positivity
  have hstep : nsec * 2 ^ 53 ≤ (2 ^ 53 - 1) * 1000000000 := by norm_num; omega
  have := mul_le_mul_of_nonneg_right hstep hK
  norm_num at this ⊢
  linarith

theorem wholeSeconds_small (d : Int) (h0 : 0 ≤ d) (h1 : d < 1000000000) :
    (durationSeconds d).toInt = 0 := by
  unfold durationSeconds
  simp only
  rw [Int.tdiv_eq_zero_of_lt h0 h1, Int.tmod_eq_emod h0 (by norm_num),
    Int.emod_eq_of_lt h0 h1, F64.ofInt_zero, F64.zero_add]
  obtain ⟨hw0, hw1⟩ := fraction_bounds d h0 h1
  generalize F64.div (F64.ofInt d) (F64.ofInt 1000000000) = w at hw0 hw1
  have hD := F64.den_pos w
  have h2 := F64.roundRat_le w.num w.den (2 ^ 53 - 1) 53 hw0 hD (by norm_num) hw1
  have h3 := F64.roundRat_num_nonneg w.num w.den hw0
  have h4 := F64.den_pos (F64.roundRat w.num w.den)
  unfold F64.toInt
  generalize (F64.roundRat w.num w.den).num = a at h2 h3
  generalize (F64.roundRat w.num w.den).den = b at h2 h4
  apply Int.tdiv_eq_zero_of_lt h3
  have hb : (0 : Int) < (b : Int) := by exact_mod_cast h4
  norm_num at h2
  omega

theorem wholeSeconds_bounds_nonneg (d : Int) (h0 : 0 ≤ d) (h1 : d ≤ 2 ^ 63) :
    0 ≤ (durationSeconds d).toInt ∧ (durationSeconds d).toInt ≤ 9223372037 := by
  unfold durationSeconds
  simp only
  rw [Int.tdiv_eq_ediv h0 (by norm_num), Int.tmod_eq_emod h0 (by norm_num)]
  have hs0 : 0 ≤ d / 1000000000 := Int.ediv_nonneg h0 (by norm_num)
  have hs1 : d / 1000000000 ≤ 9223372036 := by norm_num at h1; omega
  have hn0 : 0 ≤ d % 1000000000 := Int.emod_nonneg _ (by norm_num)
  have hn1 : d % 1000000000 < 1000000000 := Int.emod_lt_of_pos _ (by norm_num)
  generalize d / 1000000000 = sec at hs0 hs1
  generalize d % 1000000000 = nsec at hn0 hn1
  have hx := F64.ofInt_exact sec hs0 (by norm_num; omega)
  have hX : (0 : Int) < ((F64.ofInt sec).den : Int) := by exact_mod_cast F64.den_pos _
  obtain ⟨hw0, hw1⟩ := fraction_bounds nsec hn0 hn1
  generalize F64.div (F64.ofInt nsec) (F64.ofInt 1000000000) = w at hw0 hw1
  have hW : (0 : Int) < (w.den : Int) := by exact_mod_cast F64.den_pos _
  have hw2 : w.num ≤ (w.den : Int) := by norm_num at hw1; omega
  unfold F64.add
  rw [hx]
  generalize (F64.ofInt sec).den = X at hX ⊢
  have hnn : 0 ≤ sec * (X : Int) * (w.den : Int) + w.num * (X : Int) := by positivity
  have hsec : ((sec + 1).toNat : Int) = sec + 1 := Int.toNat_of_nonneg (by omega)
  have hle := F64.roundRat_le _ (X * w.den) (sec + 1).toNat 0 hnn
    (Nat.mul_pos (by exact_mod_cast hX) (F64.den_pos w))
    (by
      have : ((sec + 1).toNat : Int) < ((2 ^ 53 : Nat) : Int) := by
        rw [hsec]; norm_num; omega
      exact_mod_cast this)
    (by
      rw [hsec]
      push_cast
      have := mul_le_mul_of_nonneg_right hw2 (le_of_lt hX)
      simp only [pow_zero, mul_one]
      linarith)
  have h3 := F64.roundRat_num_nonneg _ (X * w.den) hnn
  have h4 := F64.den_pos (F64.roundRat (sec * (X : Int) * (w.den : Int) + w.num * (X : Int))
    (X * w.den))
  rw [hsec] at hle
  unfold F64.toInt
  generalize (F64.roundRat (sec * (X : Int) * (w.den : Int) + w.num * (X : Int))
    (X * w.den)).num = a at hle h3
  generalize (F64.roundRat (sec * (X : Int) * (w.den : Int) + w.num * (X : Int))
    (X * w.den)).den = b at hle h4
  have hb : (0 : Int) < (b : Int) := by exact_mod_cast h4
  simp only [pow_zero, mul_one] at hle
  rw [Int.tdiv_eq_ediv h3 (le_of_lt hb)]
  refine ⟨Int.ediv_nonneg h3 (le_of_lt hb), ?_⟩
  have := Int.ediv_le_of_le_mul hb hle
  omega

theorem wholeSeconds_bounds (d : Int) (h0 : -2 ^ 63 ≤ d) (h1 : d ≤ 2 ^ 63) :
    -9223372037 ≤ (durationSeconds d).toInt ∧ (durationSeconds d).toInt ≤ 9223372037 ∧
      (0 ≤ d → 0 ≤ (durationSeconds d).toInt) ∧ (d ≤ 0 → (durationSeconds d).toInt ≤ 0) := by
  by_cases hd : 0 ≤ d
  · obtain ⟨ha, hb⟩ := wholeSeconds_bounds_nonneg d hd h1
    refine ⟨by omega, hb, fun _ => ha, fun hd0 => ?_⟩
    have : d = 0 := by omega
    subst this
    rw [wholeSeconds_small 0 (le_refl _) (by norm_num)]
  · obtain ⟨ha, hb⟩ := wholeSeconds_bounds_nonneg (-d) (by omega) (by omega)
    have hneg : (durationSeconds d).toInt = -(durationSeconds (-d)).toInt := by
      rw [durationSeconds_neg, F64.toInt_neg]
      ring
    rw [hneg]
    refine ⟨by omega, by omega, fun h => absurd h hd, fun _ => by omega⟩

/-! ## Bisection -/

theorem searchLoop_spec (f : Nat → Bool) (n : Nat)
    (hmono : ∀ a b, a ≤ b → b < n → f a = true → f b = true) :
    ∀ fuel i j, j - i ≤ fuel → i ≤ j → j ≤ n →
      (∀ m, m < i → f m = false) → (∀ m, j ≤ m → m < n → f m = true) →
      (∀ m, m < searchLoop f fuel i j → f m = false) ∧
        (∀ m, searchLoop f fuel i j ≤ m → m < n → f m = true) ∧
        searchLoop f fuel i j ≤ n := by
  intro fuel
  induction fuel with
  | zero =>
    intro i j hfuel hij hjn hlo hhi
    have hji : j = i := by omega
    subst hji
    exact ⟨hlo, hhi, hjn⟩
  | succ fuel ih =>
    intro i j hfuel hij hjn hlo hhi
    unfold searchLoop
    by_cases hlt : i < j
    · simp only [hlt, if_true]
      have hh1 : i ≤ (i + j) / 2 := by omega
      have hh2 : (i + j) / 2 < j := by omega
      cases hfh : f ((i + j) / 2) with
      | false =>
        simp only [Bool.not_false, if_true]
        apply ih _ _ (by omega) (by omega) hjn _ hhi
        intro m hm
        cases hfm : f m with
        | false => rfl
        | true =>
          have := hmono m ((i + j) / 2) (by omega) (by omega) hfm
          rw [hfh] at this
          exact absurd this (by simp)
      | true =>
        simp only [Bool.not_true, Bool.false_eq_true, if_false]
        apply ih _ _ (by omega) (by omega) (by omega) hlo
        intro m hm hmn
        exact hmono _ m hm hmn hfh
    · simp only [hlt, if_false]
      have hji : j = i := by omega
      subst hji
      exact ⟨hlo, hhi, hjn⟩

theorem drop_eq_filter_of_split (ws : Int) :
    ∀ (ts : List Int) (r : Nat),
      (∀ m, m < r → decide (ts.getD m 0 ≥ ws) = false) →
      (∀ m, r ≤ m → m < ts.length → decide (ts.getD m 0 ≥ ws) = true) →
      r ≤ ts.length →
      ts.drop r = ts.filter (fun x => decide (ws ≤ x)) := by
  intro ts
  induction ts with
  | nil => intro r _ _ _; simp
  | cons x xs ih =>
    intro r hlo hhi hr
    cases r with
    | zero =>
      simp only [List.drop_zero]
      symm
      rw [List.filter_eq_self]
      intro a ha
      obtain ⟨m, hm, rfl⟩ := List.getElem_of_mem ha
      have := hhi m (Nat.zero_le _) hm
      rw [List.getD_eq_getElem _ _ hm] at this
      simpa using this
    | succ r =>
      have hx : ¬ ws ≤ x := by
        have := hlo 0 (Nat.succ_pos _)
        simpa using this
      rw [List.drop_succ_cons, List.filter_cons_of_neg (by simpa using hx)]
      apply ih r
      · intro m hm
        have := hlo (m + 1) (by omega)
        simpa using this
      · intro m hm hml
        have := hhi (m + 1) (by omega) (by simp; omega)
        simpa using this
      · simpa using hr

theorem trimLog_eq_filter (ws : Int) (ts : List Int) (hs : ts.Pairwise (· ≤ ·)) :
    trimLog ws ts = ts.filter (fun x => decide (ws ≤ x)) := by
  unfold trimLog sortSearch
  have hmono : ∀ a b, a ≤ b → b < ts.length →
      decide (ts.getD a 0 ≥ ws) = true → decide (ts.getD b 0 ≥ ws) = true := by
    intro a b hab hb ha
    rcases Nat.eq_or_lt_of_le hab with h | h
    · subst h; exact ha
    · have hle : ts[a] ≤ ts[b] := List.pairwise_iff_getElem.mp hs a b (by omega) hb h
      rw [List.getD_eq_getElem _ _ hb]
      rw [List.getD_eq_getElem _ _ (by omega)] at ha
      simp only [ge_iff_le, decide_eq_true_eq] at ha ⊢
      omega
  obtain ⟨h1, h2, h3⟩ := searchLoop_spec _ ts.length hmono ts.length 0 ts.length
    (by omega) (by omega) (le_refl _) (by intro m hm; omega) (by intro m hm hml; omega)
  exact drop_eq_filter_of_split ws ts _ h1 h2 h3


/-! ## Sliding window log -/

namespace SlidingWindowLog

theorem allow_limit (sw : SlidingWindowLog) (k : GoString) (t : Int) :
    (sw.AllowRequest k t).1.limit = sw.limit := by
  unfold AllowRequest; simp only; split <;> rfl

theorem allow_window (sw : SlidingWindowLog) (k : GoString) (t : Int) :
    (sw.AllowRequest k t).1.window = sw.window := by
  unfold AllowRequest; simp only; split <;> rfl

theorem allow_ok_iff (sw : SlidingWindowLog) (k : GoString) (t : Int) :
    (sw.AllowRequest k t).2 = true ↔
      ((trimLog (t - durationMilliseconds sw.window) (sw.logOf k)).length : Int) < sw.limit := by
  unfold AllowRequest logOf; simp only
  split
  · simp; omega
  · simp; omega

theorem allow_logOf (sw : SlidingWindowLog) (k k1 : GoString) (t : Int) :
    (sw.AllowRequest k t).1.logOf k1 =
      if k1 = k then
        (if (sw.AllowRequest k t).2 then
          trimLog (t - durationMilliseconds sw.window) (sw.logOf k) ++ [t]
        else trimLog (t - durationMilliseconds sw.window) (sw.logOf k))
      else sw.logOf k1 := by
  unfold AllowRequest logOf; simp only
  by_cases hk : k1 = k
  · subst hk
    split <;> simp
  · split <;> simp [Function.update_noteq hk, hk]

theorem cleanup_limit (sw : SlidingWindowLog) (t : Int) :
    (sw.cleanupOldRequests t).limit = sw.limit := rfl

theorem cleanup_window (sw : SlidingWindowLog) (t : Int) :
    (sw.cleanupOldRequests t).window = sw.window := rfl

theorem cleanup_logOf (sw : SlidingWindowLog) (k : GoString) (t : Int) :
    (sw.cleanupOldRequests t).logOf k =
      trimLog (t - durationMilliseconds sw.window) (sw.logOf k) := by
  unfold cleanupOldRequests logOf; simp only
  cases h : sw.requests k with
  | none => simp [trimLog, sortSearch, searchLoop]
  | some ts =>
    simp only [Option.getD_some]
    split
    · rename_i h0
      simp only [Option.getD_none]
      exact (List.eq_nil_of_length_eq_zero h0).symm
    · simp

end SlidingWindowLog

namespace SlidingWindowLog

theorem run_append (sw : SlidingWindowLog) (a b : List SWStep) :
    run sw (a ++ b) = ((run (run sw a).1 b).1, (run sw a).2 ++ (run (run sw a).1 b).2) := by
  induction a generalizing sw with
  | nil => simp [run]
  | cons s a ih =>
    cases s with
    | allow k t => simp [run, ih]
    | cleanup t => simp [run, ih]

theorem run_limit (sw : SlidingWindowLog) (steps : List SWStep) :
    (run sw steps).1.limit = sw.limit := by
  induction steps generalizing sw with
  | nil => rfl
  | cons s a ih =>
    cases s with
    | allow k t => simp [run, ih, allow_limit]
    | cleanup t => simp [run, ih, cleanup_limit]

theorem run_window (sw : SlidingWindowLog) (steps : List SWStep) :
    (run sw steps).1.window = sw.window := by
  induction steps generalizing sw with
  | nil => rfl
  | cons s a ih =>
    cases s with
    | allow k t => simp [run, ih, allow_window]
    | cleanup t => simp [run, ih, cleanup_window]

theorem Inv.weaken {sw : SlidingWindowLog} {calls : List Call} {T T1 : Int}
    (h : sw.Inv calls T) (hT : T ≤ T1) : sw.Inv calls T1 := by
  intro k
  obtain ⟨h1, h2, h3, h4⟩ := h k
  refine ⟨h1, fun x hx => le_trans (h2 x hx) hT, fun x hx => le_trans (h3 x hx) hT, ?_⟩
  intro lo hlo
  exact h4 lo (by omega)

theorem Inv.trim {sw : SlidingWindowLog} {calls : List Call} {T : Int}
    (h : sw.Inv calls T) (k : GoString) :
    trimLog (T - durationMilliseconds sw.window) (sw.logOf k) =
      (admittedTimes calls k).filter
        (fun x => decide (T - durationMilliseconds sw.window ≤ x)) := by
  obtain ⟨h1, _, _, h4⟩ := h k
  rw [trimLog_eq_filter _ _ h1]
  exact h4 _ (le_refl _)

theorem admittedTimes_append (calls : List Call) (c : Call) (k : GoString) :
    admittedTimes (calls ++ [c]) k =
      admittedTimes calls k ++ (if c.userID = k ∧ c.ok = true then [c.time] else []) := by
  unfold admittedTimes
  rw [List.filter_append, List.map_append]
  congr 1
  by_cases h : c.userID = k ∧ c.ok = true
  · simp [h]
  · rw [if_neg h]
    have : (decide (c.userID = k) && c.ok) = false := by
      rcases c with ⟨u, t, ok⟩
      simp only [not_and, Bool.not_eq_true] at h
      by_cases hu : u = k
      · simp [hu, h hu]
      · simp [hu]
    simp [List.filter_cons, this]

theorem admittedIn_eq (calls : List Call) (k : GoString) (lo hi : Int)
    (h : ∀ x ∈ admittedTimes calls k, x ≤ hi) :
    admittedIn calls k lo hi =
      ((admittedTimes calls k).filter (fun x => decide (lo ≤ x))).length := by
  unfold admittedIn admittedTimes at *
  induction calls with
  | nil => simp
  | cons c cs ih =>
    have ih1 := ih (fun x hx => h x (by
      simp only [List.mem_map, List.mem_filter, List.mem_cons] at hx ⊢
      obtain ⟨a, ⟨ha1, ha2⟩, rfl⟩ := hx
      exact ⟨a, ⟨Or.inr ha1, ha2⟩, rfl⟩))
    by_cases hc : (decide (c.userID = k) && c.ok) = true
    · have hct : c.time ≤ hi := h c.time (by
        simp only [List.mem_map, List.mem_filter, List.mem_cons]
        exact ⟨c, ⟨Or.inl rfl, hc⟩, rfl⟩)
      by_cases hlo : lo ≤ c.time
      · simp [List.filter_cons, hc, hlo, hct, ih1]
      · simp [List.filter_cons, hc, hlo, hct, ih1]
    · simp only [Bool.not_eq_true] at hc
      simp [List.filter_cons, hc, ih1]

theorem Inv.allow {sw : SlidingWindowLog} {calls : List Call} {t : Int}
    (h : sw.Inv calls t) (k : GoString) :
    (sw.AllowRequest k t).1.Inv (calls ++ [⟨k, t, (sw.AllowRequest k t).2⟩]) t := by
  intro k1
  obtain ⟨h1, h2, h3, h4⟩ := h k1
  rw [allow_window, allow_logOf, admittedTimes_append]
  by_cases hk : k1 = k
  · subst hk
    simp only [if_true, true_and]
    rw [trimLog_eq_filter _ _ h1]
    cases hok : (sw.AllowRequest k1 t).2 with
    | false =>
      simp only [Bool.false_eq_true, if_false, List.append_nil]
      refine ⟨h1.filter _, ?_, h3, ?_⟩
      · intro x hx
        exact h2 x (List.mem_filter.mp hx).1
      · intro lo hlo
        rw [List.filter_filter, ← h4 lo hlo]
        apply List.filter_congr
        intro x _
        by_cases hx : lo ≤ x
        · have : t - durationMilliseconds sw.window ≤ x := by omega
          simp [hx, this]
        · simp [hx]
    | true =>
      simp only [if_true]
      refine ⟨?_, ?_, ?_, ?_⟩
      · rw [List.pairwise_append]
        refine ⟨h1.filter _, List.pairwise_singleton _ _, ?_⟩
        intro a ha b hb
        simp only [List.mem_singleton] at hb
        subst hb
        exact h2 a (List.mem_filter.mp ha).1
      · intro x hx
        rcases List.mem_append.mp hx with hx | hx
        · exact h2 x (List.mem_filter.mp hx).1
        · simp only [List.mem_singleton] at hx; omega
      · intro x hx
        rcases List.mem_append.mp hx with hx | hx
        · exact h3 x hx
        · simp only [List.mem_singleton] at hx; omega
      · intro lo hlo
        rw [List.filter_append, List.filter_append, List.filter_filter, ← h4 lo hlo]
        congr 1
        apply List.filter_congr
        intro x _
        by_cases hx : lo ≤ x
        · have : t - durationMilliseconds sw.window ≤ x := by omega
          simp [hx, this]
        · simp [hx]
  · have hk2 : ¬ (k = k1 ∧ (sw.AllowRequest k t).2 = true) := fun hh => hk hh.1.symm
    simp only [hk, if_false, hk2, List.append_nil]
    exact ⟨h1, h2, h3, h4⟩

theorem Inv.cleanup {sw : SlidingWindowLog} {calls : List Call} {t : Int}
    (h : sw.Inv calls t) : (sw.cleanupOldRequests t).Inv calls t := by
  intro k
  obtain ⟨h1, h2, h3, h4⟩ := h k
  rw [cleanup_window, cleanup_logOf, trimLog_eq_filter _ _ h1]
  refine ⟨h1.filter _, ?_, h3, ?_⟩
  · intro x hx
    exact h2 x (List.mem_filter.mp hx).1
  · intro lo hlo
    rw [List.filter_filter, ← h4 lo hlo]
    apply List.filter_congr
    intro x _
    by_cases hx : lo ≤ x
    · have : t - durationMilliseconds sw.window ≤ x := by omega
      simp [hx, this]
    · simp [hx]

theorem Inv.init (limit window T : Int) : (NewSlidingWindowLog limit window).Inv [] T := by
  intro k
  simp [NewSlidingWindowLog, logOf, admittedTimes]

theorem Inv.after_run {sw : SlidingWindowLog} {calls : List Call} {T : Int} (h : sw.Inv calls T) :
    ∀ (steps : List SWStep) (T1 : Int),
      (T :: steps.map SWStep.time ++ [T1]).Pairwise (· ≤ ·) →
      (run sw steps).1.Inv (calls ++ (run sw steps).2) T1 := by
  intro steps
  induction steps generalizing sw calls T with
  | nil =>
    intro T1 hp
    simp only [List.map_nil, List.cons_append, List.nil_append, List.pairwise_cons,
      List.mem_singleton, forall_eq, List.not_mem_nil, IsEmpty.forall_iff, implies_true,
      List.Pairwise.nil, and_true] at hp
    simpa [SlidingWindowLog.run] using h.weaken hp
  | cons s rest ih =>
    intro T1 hp
    simp only [List.map_cons, List.cons_append, List.pairwise_cons] at hp
    obtain ⟨hT, hs, hrest⟩ := hp
    have hTs : T ≤ s.time := hT _ (List.mem_cons_self _ _)
    have hp1 : (s.time :: rest.map SWStep.time ++ [T1]).Pairwise (· ≤ ·) := by
      simp only [List.cons_append, List.pairwise_cons]
      exact ⟨hs, hrest⟩
    cases s with
    | allow k t =>
      simp only [SWStep.time] at hTs hp1
      have h1 := (h.weaken hTs).allow k
      have := ih h1 T1 hp1
      simpa [SlidingWindowLog.run, List.append_assoc] using this
    | cleanup t =>
      simp only [SWStep.time] at hTs hp1
      have h1 := (h.weaken hTs).cleanup
      have := ih h1 T1 hp1
      simpa [SlidingWindowLog.run] using this

end SlidingWindowLog

namespace SlidingWindowLog

theorem reach (limit window : Int) (pre : List SWStep) (t : Int)
    (hmono : (pre.map SWStep.time ++ [t]).Pairwise (· ≤ ·)) :
    (run (NewSlidingWindowLog limit window) pre).1.Inv
      (run (NewSlidingWindowLog limit window) pre).2 t := by
  cases pre with
  | nil => exact Inv.init limit window t
  | cons s rest =>
    have h := Inv.after_run (Inv.init limit window s.time) (s :: rest) t (by
      simp only [List.map_cons, List.cons_append, List.pairwise_cons] at hmono ⊢
      refine ⟨?_, hmono⟩
      intro a ha
      rcases List.mem_cons.mp ha with ha | ha
      · omega
      · exact hmono.1 a ha)
    simpa using h

theorem decision_of_inv {sw : SlidingWindowLog} {calls : List Call} {t : Int}
    (h : sw.Inv calls t) (k : GoString) :
    (sw.AllowRequest k t).2 = true ↔
      (admittedIn calls k (t - durationMilliseconds sw.window) t : Int) < sw.limit := by
  rw [allow_ok_iff, h.trim k, admittedIn_eq calls k _ t (h k).2.2.1]

theorem admittedIn_le_filter (calls : List Call) (k : GoString) (lo hi : Int) :
    admittedIn calls k lo hi ≤
      ((admittedTimes calls k).filter (fun x => decide (lo ≤ x))).length := by
  unfold admittedIn admittedTimes
  induction calls with
  | nil => simp
  | cons c cs ih =>
    by_cases hc : (decide (c.userID = k) && c.ok) = true
    · by_cases hlo : lo ≤ c.time
      · by_cases hhi : c.time ≤ hi
        · simp only [List.filter_cons, hc, hlo, hhi, decide_True, Bool.and_self, if_true,
            List.length_cons, List.map_cons]
          omega
        · simp only [List.filter_cons, hc, hlo, hhi, decide_True, decide_False,
            Bool.and_false, Bool.and_true, if_true, List.length_cons, List.map_cons,
            Bool.false_eq_true, if_false]
          omega
      · simp only [List.filter_cons, hc, hlo, decide_False, Bool.and_false, Bool.false_and,
          Bool.false_eq_true, if_false, if_true, List.map_cons]
        exact ih
    · simp only [Bool.not_eq_true] at hc
      simp only [List.filter_cons, hc, Bool.false_and, Bool.false_eq_true, if_false]
      exact ih

theorem filter_length_anti (l : List Int) (a b : Int) (hab : a ≤ b) :
    (l.filter (fun x => decide (b ≤ x))).length ≤ (l.filter (fun x => decide (a ≤ x))).length := by
  induction l with
  | nil => simp
  | cons x xs ih =>
    by_cases hb : b ≤ x
    · have ha : a ≤ x := by omega
      simp only [List.filter_cons, hb, ha, decide_True, if_true, List.length_cons]
      omega
    · by_cases ha : a ≤ x
      · simp only [List.filter_cons, hb, ha, decide_True, decide_False, if_true,
          Bool.false_eq_true, if_false, List.length_cons]
        omega
      · simp only [List.filter_cons, hb, ha, decide_False, Bool.false_eq_true, if_false]
        exact ih

theorem admittedIn_append (calls : List Call) (c : Call) (k : GoString) (lo hi : Int) :
    admittedIn (calls ++ [c]) k lo hi =
      admittedIn calls k lo hi +
        (if c.userID = k ∧ c.ok = true ∧ lo ≤ c.time ∧ c.time ≤ hi then 1 else 0) := by
  unfold admittedIn
  rw [List.filter_append, List.length_append]
  congr 1
  by_cases h : c.userID = k ∧ c.ok = true ∧ lo ≤ c.time ∧ c.time ≤ hi
  · obtain ⟨h1, h2, h3, h4⟩ := h
    simp [List.filter_cons, h1, h2, h3, h4]
  · rw [if_neg h]
    have : (decide (c.userID = k) && c.ok && decide (lo ≤ c.time) && decide (c.time ≤ hi))
        = false := by
      by_contra hh
      simp only [Bool.not_eq_false, Bool.and_eq_true, decide_eq_true_eq] at hh
      exact h ⟨hh.1.1.1, hh.1.1.2, hh.1.2, hh.2⟩
    simp [List.filter_cons, this]

theorem at_most_limit (limit window : Int) (hL : 0 ≤ limit) (steps : List SWStep)
    (hmono : (steps.map SWStep.time).Pairwise (· ≤ ·)) (k : GoString) (τ : Int) :
    (admittedIn (run (NewSlidingWindowLog limit window) steps).2 k
      (τ - durationMilliseconds window) τ : Int) ≤ limit := by
  induction steps using List.reverseRecOn with
  | nil => simpa [run, admittedIn] using hL
  | append_singleton pre s ih =>
    rw [List.map_append, List.map_singleton] at hmono
    have hpre : (pre.map SWStep.time).Pairwise (· ≤ ·) := (List.pairwise_append.mp hmono).1
    have ih1 := ih hpre
    rw [run_append]
    cases s with
    | cleanup t => simpa [run] using ih1
    | allow k1 t =>
      simp only [run, List.append_nil]
      rw [admittedIn_append]
      simp only [SWStep.time] at hmono
      have hinv := reach limit window pre t hmono
      split
      · rename_i hc
        obtain ⟨hk, hok, hlo, hhi⟩ := hc
        simp only at hk hok hlo hhi
        subst hk
        have hdec := (decision_of_inv hinv k1).mp hok
        rw [run_window, run_limit] at hdec
        have hl : (NewSlidingWindowLog limit window).limit = limit := rfl
        have hw : (NewSlidingWindowLog limit window).window = window := rfl
        rw [hl, hw] at hdec
        have h1 := admittedIn_le_filter (run (NewSlidingWindowLog limit window) pre).2 k1
          (τ - durationMilliseconds window) τ
        have h2 := filter_length_anti
          (admittedTimes (run (NewSlidingWindowLog limit window) pre).2 k1)
          (t - durationMilliseconds window) (τ - durationMilliseconds window) (by omega)
        have h3 := admittedIn_eq (run (NewSlidingWindowLog limit window) pre).2 k1
          (t - durationMilliseconds window) t (hinv k1).2.2.1
        push_cast
        omega
      · simpa using ih1

end SlidingWindowLog

namespace SlidingWindowLog

theorem okFor_cons (k : GoString) (c : Call) (calls : List Call) :
    okFor k (c :: calls) = if c.userID = k then c.ok :: okFor k calls else okFor k calls := by
  unfold okFor
  by_cases h : c.userID = k
  · simp [List.filter_cons, h]
  · simp [List.filter_cons, h]

theorem callsOf_cons_allow (k u : GoString) (t : Int) (steps : List SWStep) :
    callsOf k (SWStep.allow u t :: steps) =
      if u = k then t :: callsOf k steps else callsOf k steps := by
  unfold callsOf
  by_cases h : u = k
  · simp [List.filterMap_cons, h]
  · simp [List.filterMap_cons, h]

theorem callsOf_cons_cleanup (k : GoString) (t : Int) (steps : List SWStep) :
    callsOf k (SWStep.cleanup t :: steps) = callsOf k steps := by
  unfold callsOf
  simp [List.filterMap_cons]

theorem callsOf_sublist (k : GoString) (steps : List SWStep) :
    (callsOf k steps).Sublist (steps.map SWStep.time) := by
  induction steps with
  | nil => simp [callsOf]
  | cons s rest ih =>
    cases s with
    | allow u t =>
      rw [callsOf_cons_allow]
      split
      · exact ih.cons₂ _
      · exact ih.cons _
    | cleanup t =>
      rw [callsOf_cons_cleanup]
      exact ih.cons _

theorem burst_results (k : GoString) (B : Int) :
    ∀ (steps : List SWStep) (sw : SlidingWindowLog) (calls : List Call) (T : Int),
      sw.Inv calls T → (∀ x ∈ admittedTimes calls k, B ≤ x) →
      (T :: steps.map SWStep.time).Pairwise (· ≤ ·) →
      (∀ x ∈ callsOf k steps, x - durationMilliseconds sw.window ≤ B ∧ B ≤ x) →
      okFor k (run sw steps).2 =
        (List.range (callsOf k steps).length).map
          (fun (i : Nat) => decide (((admittedTimes calls k).length : Int) + (i : Int) < sw.limit)) := by
  intro steps
  induction steps with
  | nil => intro sw calls T _ _ _ _; simp [run, okFor, callsOf]
  | cons s rest ih =>
    intro sw calls T hinv hB hp hwin
    simp only [List.map_cons] at hp
    have hTs : T ≤ s.time := (List.pairwise_cons.mp hp).1 _ (List.mem_cons_self _ _)
    have hps : (s.time :: rest.map SWStep.time).Pairwise (· ≤ ·) := (List.pairwise_cons.mp hp).2
    have hinvs := hinv.weaken hTs
    cases s with
    | cleanup t =>
      simp only [SWStep.time] at hTs hps hinvs
      rw [callsOf_cons_cleanup] at hwin ⊢
      simp only [run]
      exact ih _ calls t hinvs.cleanup hB hps hwin
    | allow u x =>
      simp only [SWStep.time] at hTs hps hinvs
      rw [callsOf_cons_allow] at hwin ⊢
      have hstep := hinvs.allow u
      simp only [run]
      rw [okFor_cons]
      by_cases hu : u = k
      · subst hu
        simp only [if_true] at hwin ⊢
        have hdec := decision_of_inv hinvs u
        have hall : (admittedTimes calls u).filter
            (fun y => decide (x - durationMilliseconds sw.window ≤ y)) = admittedTimes calls u := by
          rw [List.filter_eq_self]
          intro a ha
          have h1 := hB a ha
          have h2 := (hwin x (List.mem_cons_self _ _)).1
          simp only [decide_eq_true_eq]
          omega
        rw [admittedIn_eq calls u _ x (hinvs u).2.2.1, hall] at hdec
        have hB1 : ∀ y ∈ admittedTimes (calls ++ [⟨u, x, (sw.AllowRequest u x).2⟩]) u,
            B ≤ y := by
          intro y hy
          rw [admittedTimes_append] at hy
          rcases List.mem_append.mp hy with hy | hy
          · exact hB y hy
          · split at hy
            · simp only [List.mem_singleton] at hy
              subst hy
              exact (hwin _ (List.mem_cons_self _ _)).2
            · simp at hy
        have ih1 := ih (sw.AllowRequest u x).1 _ x hstep hB1 hps
          (by
            intro y hy
            rw [allow_window]
            exact hwin y (List.mem_cons_of_mem _ hy))
        simp only [List.length_cons, List.range_succ_eq_map, List.map_cons, List.map_map]
        rw [ih1, allow_limit, admittedTimes_append]
        congr 1
        · simp only [Nat.cast_zero, add_zero]
          cases hok : (sw.AllowRequest u x).2 with
          | true => exact (decide_eq_true (hdec.mp hok)).symm
          | false =>
            symm
            apply decide_eq_false
            intro hlt
            rw [hdec.mpr hlt] at hok
            exact absurd hok (by simp)
        · apply List.map_congr_left
          intro i _
          simp only [Function.comp, true_and]
          cases hok : (sw.AllowRequest u x).2 with
          | true =>
            simp only [if_true, List.length_append, List.length_singleton]
            push_cast
            congr 1
            apply propext
            constructor <;> intro h <;> omega
          | false =>
            have hnot : ¬ ((admittedTimes calls u).length : Int) < sw.limit := by
              intro hlt
              rw [hdec.mpr hlt] at hok
              exact absurd hok (by simp)
            simp only [Bool.false_eq_true, if_false, List.append_nil]
            rw [decide_eq_false (by omega), decide_eq_false (by push_cast; omega)]
      · simp only [hu, if_false] at hwin ⊢
        have hB1 : ∀ y ∈ admittedTimes (calls ++ [⟨u, x, (sw.AllowRequest u x).2⟩]) k,
            B ≤ y := by
          intro y hy
          rw [admittedTimes_append] at hy
          simp only [hu, false_and, if_false, List.append_nil] at hy
          exact hB y hy
        have ih1 := ih (sw.AllowRequest u x).1 _ x hstep hB1 hps
          (by
            intro y hy
            rw [allow_window]
            exact hwin y hy)
        rw [ih1, allow_limit, admittedTimes_append]
        simp [hu]

theorem range_map_lt (n : Nat) :
    (List.range (n + 1)).map (fun (i : Nat) => decide ((0 : Int) + (i : Int) < (n : Int))) =
      List.replicate n true ++ [false] := by
  rw [List.range_succ, List.map_append]
  congr 1
  · rw [List.eq_replicate_iff]
    refine ⟨by simp, ?_⟩
    intro b hb
    simp only [List.mem_map, List.mem_range] at hb
    obtain ⟨i, hi, rfl⟩ := hb
    simp only [decide_eq_true_eq]
    omega
  · simp

theorem admittedTimes_fresh (calls : List Call) (k : GoString)
    (h : ∀ c ∈ calls, c.userID ≠ k) : admittedTimes calls k = [] := by
  unfold admittedTimes
  rw [List.map_eq_nil_iff, List.filter_eq_nil_iff]
  intro c hc
  simp [h c hc]

theorem admittedIn_zero (calls : List Call) (k : GoString) (lo hi : Int)
    (h : ∀ c ∈ calls, c.userID = k → c.time < lo) : admittedIn calls k lo hi = 0 := by
  unfold admittedIn
  rw [List.length_eq_zero, List.filter_eq_nil_iff]
  intro c hc
  by_cases hk : c.userID = k
  · have := h c hc hk
    have hlo : ¬ lo ≤ c.time := by omega
    simp [hlo]
  · simp [hk]

theorem log_cleanups_irrelevant (limit window : Int) (pre : List SWStep) :
    ∀ steps : List SWStep, ((pre ++ steps).map SWStep.time).Pairwise (· ≤ ·) →
      (run (run (NewSlidingWindowLog limit window) pre).1 steps).2 =
        (run (run (NewSlidingWindowLog limit window) pre).1
          (steps.filter SWStep.isAllow)).2 := by
  intro steps
  induction steps using List.reverseRecOn with
  | nil => intro _; rfl
  | append_singleton init s ih =>
    intro hmono
    have hmono1 : ((pre ++ init).map SWStep.time ++ [s.time]).Pairwise (· ≤ ·) := by
      simpa [List.append_assoc] using hmono
    have hinit : ((pre ++ init).map SWStep.time).Pairwise (· ≤ ·) :=
      (List.pairwise_append.mp hmono1).1
    have ih1 := ih hinit
    rw [List.filter_append, run_append, run_append]
    cases s with
    | cleanup t => simpa [run, SWStep.isAllow] using ih1
    | allow k t =>
      simp only [SWStep.time] at hmono1
      have hsub : ((pre ++ init.filter SWStep.isAllow).map SWStep.time ++ [t]).Pairwise
          (· ≤ ·) := by
        refine List.Pairwise.sublist ?_ hmono1
        apply List.Sublist.append_right
        apply List.Sublist.map
        exact List.Sublist.append_left (List.filter_sublist _) _
      have h1 := decision_of_inv (reach limit window (pre ++ init) t hmono1) k
      have h2 := decision_of_inv
        (reach limit window (pre ++ init.filter SWStep.isAllow) t hsub) k
      rw [run_append] at h1 h2
      simp only [run_limit, run_window] at h1 h2
      rw [← ih1] at h2
      have hb : ((run (run (NewSlidingWindowLog limit window) pre).1 init).1.AllowRequest
          k t).2 = ((run (run (NewSlidingWindowLog limit window) pre).1
            (init.filter SWStep.isAllow)).1.AllowRequest k t).2 := by
        rw [Bool.eq_iff_iff, h1, h2]
      simp only [SWStep.isAllow, List.filter_cons_of_pos, List.filter_nil, run,
        List.append_nil]
      rw [ih1, hb]

theorem run_length_le (sw : SlidingWindowLog)
    (h : ∀ k, ((sw.logOf k).length : Int) ≤ sw.limit) (steps : List SWStep) :
    ∀ k, (((run sw steps).1.logOf k).length : Int) ≤ sw.limit := by
  have htrim : ∀ (ws : Int) (ts : List Int), (trimLog ws ts).length ≤ ts.length := by
    intro ws ts
    unfold trimLog
    rw [List.length_drop]
    omega
  induction steps generalizing sw with
  | nil => exact h
  | cons s rest ih =>
    cases s with
    | allow k1 t =>
      simp only [run]
      have := ih (sw.AllowRequest k1 t).1 (by
        intro k
        rw [allow_logOf, allow_limit]
        by_cases hk : k = k1
        · subst hk
          simp only [if_true]
          cases hok : (sw.AllowRequest k t).2 with
          | true =>
            have := (allow_ok_iff sw k t).mp hok
            simp only [if_true, List.length_append, List.length_singleton]
            push_cast
            omega
          | false =>
            have h1 := htrim (t - durationMilliseconds sw.window) (sw.logOf k)
            have h2 := h k
            simp only [Bool.false_eq_true, if_false]
            omega
        · simp only [hk, if_false]
          exact h k)
      rw [allow_limit] at this
      exact this
    | cleanup t =>
      simp only [run]
      have := ih (sw.cleanupOldRequests t) (by
        intro k
        rw [cleanup_logOf, cleanup_limit]
        have h1 := htrim (t - durationMilliseconds sw.window) (sw.logOf k)
        have h2 := h k
        omega)
      rw [cleanup_limit] at this
      exact this

theorem log_reject_unchanged (sw : SlidingWindowLog) (hL : 1 ≤ sw.limit)
    (h : ∀ k, ((sw.logOf k).length : Int) ≤ sw.limit) (k : GoString) (t : Int)
    (hrej : (sw.AllowRequest k t).2 = false) : (sw.AllowRequest k t).1 = sw := by
  have hlen : ¬ ((trimLog (t - durationMilliseconds sw.window) (sw.logOf k)).length : Int)
      < sw.limit := by
    intro hlt
    rw [(allow_ok_iff sw k t).mpr hlt] at hrej
    exact absurd hrej (by simp)
  have hk := h k
  have htrim : trimLog (t - durationMilliseconds sw.window) (sw.logOf k) = sw.logOf k := by
    unfold trimLog at hlen ⊢
    rw [List.length_drop] at hlen
    generalize sortSearch (sw.logOf k).length
      (fun i => decide ((sw.logOf k).getD i 0 ≥ t - durationMilliseconds sw.window)) = idx
      at hlen ⊢
    have : idx = 0 := by omega
    subst this
    rfl
  have hsome : sw.requests k = some (sw.logOf k) := by
    unfold logOf at hlen hk htrim ⊢
    cases hreq : sw.requests k with
    | none =>
      rw [hreq] at hlen
      simp [trimLog, sortSearch, searchLoop] at hlen
      omega
    | some ts => rfl
  have hfalse : ((trimLog (t - durationMilliseconds sw.window) (sw.logOf k)).length : Int)
      ≥ sw.limit := by omega
  unfold AllowRequest
  unfold logOf at htrim hfalse hsome
  rw [htrim] at hfalse
  simp only [htrim, hfalse, if_true]
  rw [← hsome, Function.update_eq_self]

theorem decision_from_new (L Wd : Int) (pre : List SWStep) (k : GoString) (t : Int)
    (hmono : ((pre ++ [SWStep.allow k t]).map SWStep.time).Pairwise (· ≤ ·)) :
    (((NewSlidingWindowLog L Wd).run pre).1.AllowRequest k t).2 = true ↔
      (admittedIn ((NewSlidingWindowLog L Wd).run pre).2 k
        (t - durationMilliseconds Wd) t : Int) < L := by
  rw [List.map_append, List.map_singleton] at hmono
  have h := decision_of_inv (reach L Wd pre t hmono) k
  rw [run_limit, run_window] at h
  exact h

end SlidingWindowLog

/-! ## Sliding window counter -/

theorem counterGet_set (m : List (Int × Int)) (k v k1 : Int) :
    counterGet (counterSet m k v) k1 = if k1 = k then v else counterGet m k1 := by
  induction m with
  | nil =>
    by_cases h : k1 = k
    · simp [counterSet, counterGet, h]
    · have h2 : ¬ k = k1 := fun hh => h hh.symm
      simp [counterSet, counterGet, h, h2]
  | cons e rest ih =>
    obtain ⟨k2, v2⟩ := e
    unfold counterSet
    by_cases h2 : k2 = k
    · subst h2
      by_cases h : k1 = k2
      · simp [counterGet, h]
      · have h3 : ¬ k2 = k1 := fun hh => h hh.symm
        simp [counterGet, h, h3]
    · simp only [h2, if_false, counterGet]
      rw [ih]
      by_cases h : k2 = k1
      · have h3 : ¬ k1 = k := fun hh => h2 (h.trans hh)
        simp [h, h3]
      · simp [h]

theorem counterGet_filter (m : List (Int × Int)) (o idx : Int) :
    counterGet (m.filter (fun e => !decide (e.1 < o))) idx =
      if idx < o then 0 else counterGet m idx := by
  induction m with
  | nil => simp [counterGet]
  | cons e rest ih =>
    obtain ⟨k2, v2⟩ := e
    by_cases hk : k2 < o
    · simp only [List.filter_cons, hk, decide_True, Bool.not_true, Bool.false_eq_true, if_false]
      rw [ih]
      by_cases h : idx < o
      · simp [h]
      · have : ¬ k2 = idx := by omega
        simp [h, counterGet, this]
    · simp only [List.filter_cons, hk, decide_False, Bool.not_false, if_true, counterGet]
      rw [ih]
      by_cases h2 : k2 = idx
      · subst h2
        simp [hk]
      · simp [h2]

theorem tdiv_mono (W a b : Int) (hW : 0 < W) (hab : a ≤ b) : a.tdiv W ≤ b.tdiv W := by
  by_cases ha : 0 ≤ a
  · rw [Int.tdiv_eq_ediv ha (le_of_lt hW), Int.tdiv_eq_ediv (by omega) (le_of_lt hW)]
    exact Int.ediv_le_ediv hW hab
  · have h1 : a.tdiv W = -((-a).tdiv W) := by rw [Int.neg_tdiv]; ring
    have h2 : (-a).tdiv W = (-a) / W := Int.tdiv_eq_ediv (by omega) (le_of_lt hW)
    by_cases hb : 0 ≤ b
    · have := Int.tdiv_nonneg hb (le_of_lt hW)
      have h3 : 0 ≤ (-a) / W := Int.ediv_nonneg (by omega) (le_of_lt hW)
      omega
    · have h4 : b.tdiv W = -((-b).tdiv W) := by rw [Int.neg_tdiv]; ring
      have h5 : (-b).tdiv W = (-b) / W := Int.tdiv_eq_ediv (by omega) (le_of_lt hW)
      have h6 : (-b) / W ≤ (-a) / W := Int.ediv_le_ediv hW (by omega)
      omega

namespace F64

theorem ofInt_pos (L : Int) (hL : 1 ≤ L) : 0 < (ofInt L).num := by
  have h := roundRat_ge L 1 1 0 (by omega) (by norm_num) (by norm_num) (by simpa using hL)
  have hd : (0 : Int) < ((roundRat L 1).den : Int) := by exact_mod_cast den_pos _
  simp only [pow_zero, mul_one, Nat.cast_one, one_mul] at h
  unfold ofInt
  omega

theorem ge_zero_ofInt (L : Int) (hL : 1 ≤ L) : ge ⟨0, 0⟩ (ofInt L) = false := by
  have := ofInt_pos L hL
  unfold ge
  simp only [decide_eq_false_iff_not, not_le]
  have hn : (⟨0, 0⟩ : F64).num = 0 := by decide
  have hd : (⟨0, 0⟩ : F64).den = 1 := by decide
  rw [hn, hd]
  simpa using this

theorem roundRat_exact (y : F64) (c : Int) (h0 : 0 ≤ c) (h1 : c < 2 ^ 53)
    (hy : y.num = c * (y.den : Int)) :
    (roundRat y.num y.den).num = c * ((roundRat y.num y.den).den : Int) := by
  have hc : ((c.toNat : Nat) : Int) = c := Int.toNat_of_nonneg h0
  have hM : c.toNat < 2 ^ 53 := by
    have : ((c.toNat : Nat) : Int) < ((2 ^ 53 : Nat) : Int) := by
      rw [hc]; exact_mod_cast h1
    exact_mod_cast this
  have hyn : 0 ≤ y.num := by rw [hy]; positivity
  have hle := roundRat_le y.num y.den c.toNat 0 hyn (den_pos y) hM (by rw [hc, hy]; simp)
  have hge := roundRat_ge y.num y.den c.toNat 0 hyn (den_pos y) hM (by rw [hc, hy]; simp)
  rw [hc] at hle hge
  simp only [pow_zero, mul_one] at hle hge
  omega

end F64

/-- With no count in the previous window the estimate is the current count
and the comparison with the limit is exact. -/
theorem estimate_no_previous (c L W e : Int) (hc0 : 0 ≤ c) (hc1 : c < 2 ^ 53)
    (hL0 : 0 ≤ L) (hL1 : L < 2 ^ 53) :
    F64.ge (estimatedCount 0 c W e) (F64.ofInt L) = decide (L ≤ c) := by
  unfold estimatedCount
  simp only
  rw [F64.ofInt_zero, F64.mul_zero_left, F64.zero_add]
  have hy := F64.ofInt_exact c hc0 hc1
  have hz := F64.roundRat_exact (F64.ofInt c) c hc0 hc1 hy
  have hl := F64.ofInt_exact L hL0 hL1
  have hzd : (0 : Int) < ((F64.roundRat (F64.ofInt c).num (F64.ofInt c).den).den : Int) := by
    exact_mod_cast F64.den_pos _
  have hld : (0 : Int) < ((F64.ofInt L).den : Int) := by exact_mod_cast F64.den_pos _
  unfold F64.ge
  rw [hz, hl]
  generalize ((F64.roundRat (F64.ofInt c).num (F64.ofInt c).den).den : Int) = A at hzd
  generalize ((F64.ofInt L).den : Int) = B at hld
  have hAB : 0 < A * B := mul_pos hzd hld
  congr 1
  apply propext
  constructor
  · intro h
    by_contra hlt
    have : c * (A * B) < L * (A * B) := mul_lt_mul_of_pos_right (by omega) hAB
    linarith
  · intro h
    have : L * (A * B) ≤ c * (A * B) := mul_le_mul_of_nonneg_right h (le_of_lt hAB)
    linarith

namespace SlidingWindowCounter

theorem allow_spec (swc : SlidingWindowCounter) (k : GoString) (now : Int)
    (hW : durationMilliseconds swc.window ≠ 0) :
    ∃ swc1, swc.AllowRequest k now =
        some (swc1, !F64.ge (swc.estimate k now) (F64.ofInt swc.limit)) ∧
      swc1.limit = swc.limit ∧ swc1.window = swc.window ∧
      (∀ k1, swc1.mapOf k1 =
        if k1 = k then
          (if F64.ge (swc.estimate k now) (F64.ofInt swc.limit) then swc.mapOf k
          else counterSet (swc.mapOf k) (Int.tdiv now (durationMilliseconds swc.window))
            (swc.currentCount k now + 1))
        else swc.mapOf k1) ∧
      (∀ k1, k1 ≠ k → swc1.counters k1 = swc.counters k1) ∧
      (F64.ge (swc.estimate k now) (F64.ofInt swc.limit) = true →
        swc.counters k ≠ none → swc1 = swc) := by
  unfold AllowRequest
  simp only [hW, if_false]
  by_cases hge : F64.ge (swc.estimate k now) (F64.ofInt swc.limit) = true
  · have hge1 := hge
    unfold estimate previousCount currentCount mapOf at hge1
    rw [if_pos hge1]
    refine ⟨⟨Function.update swc.counters k (some ((swc.counters k).getD [])), swc.limit,
      swc.window⟩, by rw [hge]; rfl, rfl, rfl, ?_, ?_, ?_⟩
    · intro k1
      by_cases hk : k1 = k
      · subst hk; simp [mapOf, hge]
      · simp [mapOf, hk, Function.update_noteq hk]
    · intro k1 hk
      simp [Function.update_noteq hk]
    · intro _ hsome
      cases hc : swc.counters k with
      | none => exact absurd hc hsome
      | some m =>
        simp only [Option.getD_some]
        rw [← hc, Function.update_eq_self]
  · have hge1 := hge
    unfold estimate previousCount currentCount mapOf at hge1
    rw [if_neg hge1]
    simp only [Bool.not_eq_true] at hge
    refine ⟨⟨Function.update swc.counters k
      (some (counterSet ((swc.counters k).getD [])
        (Int.tdiv now (durationMilliseconds swc.window))
        (counterGet ((swc.counters k).getD [])
          (Int.tdiv now (durationMilliseconds swc.window)) + 1))), swc.limit, swc.window⟩,
      by rw [hge]; rfl, rfl, rfl, ?_, ?_, ?_⟩
    · intro k1
      by_cases hk : k1 = k
      · subst hk; simp [mapOf, hge, currentCount]
      · simp [mapOf, hk, Function.update_noteq hk]
    · intro k1 hk
      simp [Function.update_noteq hk]
    · intro h
      rw [hge] at h
      exact absurd h (by simp)

theorem cleanup_spec (swc : SlidingWindowCounter) (now : Int)
    (hW : durationMilliseconds swc.window ≠ 0) :
    ∃ swc1, swc.cleanupOldCounters now = some swc1 ∧
      swc1.limit = swc.limit ∧ swc1.window = swc.window ∧
      ∀ k, swc1.mapOf k = (swc.mapOf k).filter
        (fun e => !decide (e.1 < Int.tdiv now (durationMilliseconds swc.window) - 1)) := by
  unfold cleanupOldCounters
  simp only [hW, if_false]
  refine ⟨_, rfl, rfl, rfl, ?_⟩
  intro k
  unfold mapOf
  simp only
  cases hc : swc.counters k with
  | none => simp
  | some m =>
    simp only [Option.getD_some]
    split
    · rename_i h0
      simp only [Option.getD_none]
      exact (List.eq_nil_of_length_eq_zero h0).symm
    · simp

theorem Sim.refl (T : Int) (a : SlidingWindowCounter) : Sim T a a :=
  ⟨rfl, rfl, fun _ _ _ => rfl⟩

theorem Sim.later {T T1 : Int} {a b : SlidingWindowCounter} (h : Sim T a b)
    (hW : 1 ≤ durationMilliseconds a.window) (hT : T ≤ T1) : Sim T1 a b := by
  refine ⟨h.1, h.2.1, ?_⟩
  intro k idx hidx
  apply h.2.2 k idx
  have := tdiv_mono (durationMilliseconds a.window) T T1 (by omega) hT
  omega

theorem Sim.estimate {T : Int} {a b : SlidingWindowCounter} (h : Sim T a b) (k : GoString) :
    a.estimate k T = b.estimate k T ∧ a.currentCount k T = b.currentCount k T := by
  unfold SlidingWindowCounter.estimate previousCount currentCount
  rw [← h.2.1, h.2.2 k _ (le_refl _), h.2.2 k _ (by omega)]
  exact ⟨rfl, rfl⟩

theorem Sim.results {T : Int} {a b : SlidingWindowCounter} (h : Sim T a b)
    (hW : 1 ≤ durationMilliseconds a.window) :
    ∀ (steps : List SWStep), (T :: steps.map SWStep.time).Pairwise (· ≤ ·) →
      (run a steps).map Prod.snd = (run b (steps.filter SWStep.isAllow)).map Prod.snd := by
  intro steps
  induction steps generalizing a b T with
  | nil => intro _; simp [SlidingWindowCounter.run]
  | cons s rest ih =>
    intro hp
    simp only [List.map_cons, List.pairwise_cons] at hp
    obtain ⟨hT, hrest⟩ := hp
    have hTs : T ≤ s.time := hT _ (List.mem_cons_self _ _)
    have hp1 : (s.time :: rest.map SWStep.time).Pairwise (· ≤ ·) :=
      List.pairwise_cons.mpr hrest
    have hWb : 1 ≤ durationMilliseconds b.window := by rw [← h.2.1]; exact hW
    cases s with
    | allow k t =>
      simp only [SWStep.time] at hTs hp1
      have hs := h.later hW hTs
      obtain ⟨a1, ha, ha1, ha2, ha3, _, _⟩ := allow_spec a k t (by omega)
      obtain ⟨b1, hb, hb1, hb2, hb3, _, _⟩ := allow_spec b k t (by omega)
      obtain ⟨hest, hcur⟩ := hs.estimate k
      have hs1 : Sim t a1 b1 := by
        refine ⟨by rw [ha1, hb1, h.1], by rw [ha2, hb2, h.2.1], ?_⟩
        intro k1 idx hidx
        rw [ha3, hb3, hest, hcur, h.1, h.2.1]
        rw [ha2] at hidx
        by_cases hk : k1 = k
        · subst hk
          simp only [if_true]
          split
          · exact hs.2.2 k1 idx hidx
          · rw [counterGet_set, counterGet_set, hs.2.2 k1 idx hidx]
        · simp only [hk, if_false]
          exact hs.2.2 k1 idx hidx
      have := ih hs1 (by rw [ha2]; exact hW) hp1
      simp only [SlidingWindowCounter.run, SWStep.isAllow, List.filter_cons_of_pos, ha, hb]
      rw [hest, h.1]
      cases hra : SlidingWindowCounter.run a1 rest with
      | none =>
        rw [hra] at this
        cases hrb : SlidingWindowCounter.run b1 (rest.filter SWStep.isAllow) with
        | none => rfl
        | some vb => rw [hrb] at this; simp at this
      | some va =>
        rw [hra] at this
        cases hrb : SlidingWindowCounter.run b1 (rest.filter SWStep.isAllow) with
        | none => rw [hrb] at this; simp at this
        | some vb =>
          rw [hrb] at this
          simp only [Option.map_some', Option.some.injEq] at this ⊢
          rw [this]
    | cleanup t =>
      simp only [SWStep.time] at hTs hp1
      have hs := h.later hW hTs
      obtain ⟨a1, ha, ha1, ha2, ha3⟩ := cleanup_spec a t (by omega)
      have hs1 : Sim t a1 b := by
        refine ⟨by rw [ha1, h.1], by rw [ha2, h.2.1], ?_⟩
        intro k1 idx hidx
        rw [ha3, counterGet_filter]
        rw [ha2] at hidx
        rw [if_neg (by omega)]
        exact hs.2.2 k1 idx hidx
      have := ih hs1 (by rw [ha2]; exact hW) hp1
      simp only [SlidingWindowCounter.run, ha]
      rw [this]
      simp [SWStep.isAllow]

theorem counter_cleanups_irrelevant (swc : SlidingWindowCounter)
    (hW : 1 ≤ durationMilliseconds swc.window) (steps : List SWStep)
    (hmono : (steps.map SWStep.time).Pairwise (· ≤ ·)) :
    (run swc steps).map Prod.snd = (run swc (steps.filter SWStep.isAllow)).map Prod.snd := by
  cases steps with
  | nil => rfl
  | cons s rest =>
    apply (Sim.refl s.time swc).results hW
    simp only [List.map_cons, List.pairwise_cons] at hmono ⊢
    refine ⟨?_, hmono⟩
    intro x hx
    rcases List.mem_cons.mp hx with hx | hx
    · omega
    · exact hmono.1 x hx

end SlidingWindowCounter

namespace SlidingWindowCounter

theorem estimate_fresh (swc : SlidingWindowCounter) (k : GoString) (now : Int)
    (hL : 1 ≤ swc.limit) (hnone : swc.counters k = none) :
    F64.ge (swc.estimate k now) (F64.ofInt swc.limit) = false := by
  unfold estimate previousCount currentCount mapOf estimatedCount
  rw [hnone]
  simp only [Option.getD_none, counterGet]
  rw [F64.ofInt_zero, F64.mul_zero_left, F64.zero_add]
  have hn : (⟨0, 0⟩ : F64).num = 0 := by decide
  have hd : (⟨0, 0⟩ : F64).den = 1 := by decide
  rw [hn, hd, F64.roundRat_zero]
  exact F64.ge_zero_ofInt _ hL

theorem counter_reject_unchanged (swc : SlidingWindowCounter) (k : GoString) (now : Int)
    (swc1 : SlidingWindowCounter) (hL : 1 ≤ swc.limit)
    (h : swc.AllowRequest k now = some (swc1, false)) : swc1 = swc := by
  by_cases hW : durationMilliseconds swc.window = 0
  · unfold AllowRequest at h
    simp [hW] at h
  · obtain ⟨s1, hs, _, _, _, _, hsame⟩ := allow_spec swc k now hW
    rw [hs] at h
    simp only [Option.some.injEq, Prod.mk.injEq, Bool.not_eq_false'] at h
    obtain ⟨h1, h2⟩ := h
    subst h1
    apply hsame h2
    intro hnone
    rw [estimate_fresh swc k now hL hnone] at h2
    exact absurd h2 (by simp)

theorem burst (k : GoString) (cw : Int) :
    ∀ (steps : List SWStep) (swc : SlidingWindowCounter) (c : Int),
      1 ≤ durationMilliseconds swc.window → 0 ≤ swc.limit → swc.limit < 2 ^ 53 →
      0 ≤ c → c < 2 ^ 53 →
      counterGet (swc.mapOf k) cw = c → counterGet (swc.mapOf k) (cw - 1) = 0 →
      (∀ s ∈ steps, Int.tdiv s.time (durationMilliseconds swc.window) = cw) →
      (run swc steps).map (fun r => okFor k r.2) =
        some ((List.range (callsOf k steps).length).map
          (fun (i : Nat) => decide (c + (i : Int) < swc.limit))) := by
  intro steps
  induction steps with
  | nil => intro swc c _ _ _ _ _ _ _ _; simp [SlidingWindowCounter.run, okFor, callsOf]
  | cons s rest ih =>
    intro swc c hW hL0 hL1 hc0 hc1 hcur hprev hts
    have htw := hts s (List.mem_cons_self _ _)
    have htrest : ∀ s ∈ rest, Int.tdiv s.time (durationMilliseconds swc.window) = cw :=
      fun x hx => hts x (List.mem_cons_of_mem _ hx)
    cases s with
    | cleanup t =>
      simp only [SWStep.time] at htw
      obtain ⟨s1, hs, hl, hw, hmap⟩ := cleanup_spec swc t (by omega)
      have := ih s1 c (by rw [hw]; exact hW) (by rw [hl]; exact hL0) (by rw [hl]; exact hL1)
        hc0 hc1
        (by rw [hmap, counterGet_filter, htw, if_neg (by omega)]; exact hcur)
        (by rw [hmap, counterGet_filter, htw, if_neg (by omega)]; exact hprev)
        (by rw [hw]; exact htrest)
      rw [hl] at this
      simp only [SlidingWindowCounter.run, hs, SlidingWindowLog.callsOf_cons_cleanup]
      exact this
    | allow u t =>
      simp only [SWStep.time] at htw
      obtain ⟨s1, hs, hl, hw, hmap, _, _⟩ := allow_spec swc u t (by omega)
      by_cases hu : u = k
      · subst hu
        have hest : F64.ge (swc.estimate u t) (F64.ofInt swc.limit) =
            decide (swc.limit ≤ c) := by
          unfold estimate previousCount currentCount
          rw [htw, hcur, hprev]
          exact estimate_no_previous c swc.limit _ _ hc0 hc1 hL0 hL1
        have hcc : swc.currentCount u t = c := by
          unfold currentCount
          rw [htw, hcur]
        have hm := hmap u
        rw [hest, hcc, htw] at hm
        simp only [if_true] at hm
        rw [hest] at hs
        simp only [SlidingWindowCounter.run, hs, SlidingWindowLog.callsOf_cons_allow, if_true,
          List.length_cons, List.range_succ_eq_map, List.map_map]
        by_cases hlt : swc.limit ≤ c
        · simp only [hlt, decide_True, if_true] at hm
          have := ih s1 c (by rw [hw]; exact hW) (by rw [hl]; exact hL0)
            (by rw [hl]; exact hL1) hc0 hc1 (by rw [hm]; exact hcur)
            (by rw [hm]; exact hprev) (by rw [hw]; exact htrest)
          rw [hl] at this
          cases hr : SlidingWindowCounter.run s1 rest with
          | none => rw [hr] at this; simp at this
          | some v =>
            rw [hr] at this
            simp only [Option.map_some', Option.some.injEq] at this ⊢
            rw [SlidingWindowLog.okFor_cons, if_pos rfl, this]
            simp only [List.map_cons, List.map_map, List.cons.injEq, List.map_inj_left, Function.comp,
              Nat.cast_succ, decide_eq_decide, hlt, decide_True, Bool.not_true]
            refine ⟨by simp; omega, ?_⟩
            intro a _
            omega
        · simp only [hlt, decide_False, Bool.false_eq_true, if_false] at hm
          have := ih s1 (c + 1) (by rw [hw]; exact hW) (by rw [hl]; exact hL0)
            (by rw [hl]; exact hL1) (by omega) (by omega)
            (by rw [hm, counterGet_set]; simp)
            (by
              rw [hm, counterGet_set, if_neg (by omega)]
              exact hprev)
            (by rw [hw]; exact htrest)
          rw [hl] at this
          cases hr : SlidingWindowCounter.run s1 rest with
          | none => rw [hr] at this; simp at this
          | some v =>
            rw [hr] at this
            simp only [Option.map_some', Option.some.injEq] at this ⊢
            rw [SlidingWindowLog.okFor_cons, if_pos rfl, this]
            simp only [List.map_cons, List.map_map, List.cons.injEq, List.map_inj_left, Function.comp,
              Nat.cast_succ, decide_eq_decide, hlt, decide_False, Bool.not_false]
            refine ⟨by simp; omega, ?_⟩
            intro a _
            omega
      · have hk1 : ¬ k = u := fun h => hu h.symm
        have hm := hmap k
        simp only [hk1, if_false] at hm
        have := ih s1 c (by rw [hw]; exact hW) (by rw [hl]; exact hL0)
          (by rw [hl]; exact hL1) hc0 hc1 (by rw [hm]; exact hcur)
          (by rw [hm]; exact hprev) (by rw [hw]; exact htrest)
        rw [hl] at this
        simp only [SlidingWindowCounter.run, hs, SlidingWindowLog.callsOf_cons_allow, hu,
          if_false]
        cases hr : SlidingWindowCounter.run s1 rest with
        | none => rw [hr] at this; simp at this
        | some v =>
          rw [hr] at this
          simp only [Option.map_some', Option.some.injEq] at this ⊢
          rw [SlidingWindowLog.okFor_cons, if_neg hu, this]

end SlidingWindowCounter

/-! ## Token bucket -/

theorem wrap64_of_range (x : Int) (h0 : -2 ^ 63 ≤ x) (h1 : x < 2 ^ 63) : wrap64 x = x := by
  unfold wrap64
  norm_num at h0 h1
  omega

theorem timeSub_range (t u : Int) : -2 ^ 63 ≤ timeSub t u ∧ timeSub t u ≤ 2 ^ 63 := by
  unfold timeSub
  norm_num
  split
  · omega
  · split <;> omega

theorem timeSub_of_small (t u : Int) (h0 : 0 ≤ t - u) (h1 : t - u < 1000000000) :
    timeSub t u = t - u := by
  unfold timeSub
  rw [if_neg (by omega), if_neg (by omega)]

namespace TokenBucketLimiter

theorem newTokens_zero (tb : TokenBucketLimiter) (t0 now : Int) (h0 : t0 ≤ now)
    (h1 : now < t0 + 1000000000) : tb.newTokens t0 now = 0 := by
  unfold newTokens
  rw [timeSub_of_small now t0 (by omega) (by omega),
    wholeSeconds_small (now - t0) (by omega) (by omega)]
  simp [wrap64]

theorem newTokens_exact (tb : TokenBucketLimiter) (B : Int) (hr : 0 ≤ tb.refillRate)
    (hB : 9223372037 * tb.refillRate ≤ B) (hB1 : B < 2 ^ 63) (t0 now : Int) :
    tb.newTokens t0 now =
        (durationSeconds (timeSub now t0)).toInt * tb.refillRate ∧
      tb.newTokens t0 now ≤ B := by
  unfold newTokens
  obtain ⟨hs0, hs1⟩ := timeSub_range now t0
  obtain ⟨ha, hb, _, _⟩ := wholeSeconds_bounds (timeSub now t0) hs0 hs1
  generalize (durationSeconds (timeSub now t0)).toInt = s at ha hb
  have h1 : s * tb.refillRate ≤ 9223372037 * tb.refillRate :=
    mul_le_mul_of_nonneg_right hb hr
  have h2 : -9223372037 * tb.refillRate ≤ s * tb.refillRate :=
    mul_le_mul_of_nonneg_right ha hr
  have hw := wrap64_of_range (s * tb.refillRate) (by norm_num at hB1 ⊢; linarith)
    (by linarith)
  rw [hw]
  exact ⟨rfl, by linarith⟩

theorem allow_capacity (tb : TokenBucketLimiter) (k : GoString) (c now : Int) :
    (tb.AllowRequest k c now).1.capacity = tb.capacity := by
  unfold AllowRequest GetUserBucket
  cases tb.users k <;> simp only <;> split <;> rfl

theorem allow_refillRate (tb : TokenBucketLimiter) (k : GoString) (c now : Int) :
    (tb.AllowRequest k c now).1.refillRate = tb.refillRate := by
  unfold AllowRequest GetUserBucket
  cases tb.users k <;> simp only <;> split <;> rfl

/-- The bucket `AllowRequest` works on: the stored one, or a full one
created at the reading `created`. -/
theorem allow_users (tb : TokenBucketLimiter) (k k1 : GoString) (c now : Int) :
    (tb.AllowRequest k c now).1.users k1 =
      if k1 = k then
        some (if (tb.refill ((tb.users k).getD ⟨tb.capacity, c⟩) now).tokens > 0 then
          { tb.refill ((tb.users k).getD ⟨tb.capacity, c⟩) now with
            tokens := (tb.refill ((tb.users k).getD ⟨tb.capacity, c⟩) now).tokens - 1 }
        else tb.refill ((tb.users k).getD ⟨tb.capacity, c⟩) now)
      else tb.users k1 := by
  unfold AllowRequest GetUserBucket
  by_cases hk : k1 = k
  · subst hk
    cases h : tb.users k1 <;> simp only [Option.getD_some, Option.getD_none, if_true] <;>
      split <;> simp
  · cases h : tb.users k <;> simp only [Option.getD_some, Option.getD_none, hk, if_false] <;>
      split <;> simp [Function.update_noteq hk]

theorem allow_ok (tb : TokenBucketLimiter) (k : GoString) (c now : Int) :
    (tb.AllowRequest k c now).2 =
      decide ((tb.refill ((tb.users k).getD ⟨tb.capacity, c⟩) now).tokens > 0) := by
  unfold AllowRequest GetUserBucket
  cases h : tb.users k <;> simp only [Option.getD_some, Option.getD_none] <;>
    split <;> simp_all

theorem run_capacity (tb : TokenBucketLimiter) (steps : List TBStep) :
    (tb.run steps).1.capacity = tb.capacity := by
  induction steps generalizing tb with
  | nil => rfl
  | cons s rest ih => simp [run, ih, allow_capacity]

theorem run_refillRate (tb : TokenBucketLimiter) (steps : List TBStep) :
    (tb.run steps).1.refillRate = tb.refillRate := by
  induction steps generalizing tb with
  | nil => rfl
  | cons s rest ih => simp [run, ih, allow_refillRate]

theorem refill_same (tb : TokenBucketLimiter) (b : TokenBucket) (now : Int)
    (h0 : b.lastRefilled ≤ now) (h1 : now < b.lastRefilled + 1000000000) :
    tb.refill b now = b := by
  unfold refill
  rw [newTokens_zero tb _ _ h0 h1]
  simp

/-- Calls of one key within a second of the last refill drain the bucket one
token at a time. -/
theorem drain (k : GoString) (t0 : Int) :
    ∀ (steps : List TBStep) (tb : TokenBucketLimiter) (n : Int),
      tb.users k = some ⟨n, t0⟩ → 0 ≤ n →
      (∀ s ∈ steps, s.userID = k ∧ t0 ≤ s.now ∧ s.now < t0 + 1000000000) →
      (tb.run steps).2 = (List.range steps.length).map (fun (i : Nat) => decide ((i : Int) < n))
      := by
  intro steps
  induction steps with
  | nil => intro tb n _ _ _; simp [run]
  | cons s rest ih =>
    intro tb n hb hn hs
    obtain ⟨hk, h0, h1⟩ := hs s (List.mem_cons_self _ _)
    have hrest : ∀ s ∈ rest, s.userID = k ∧ t0 ≤ s.now ∧ s.now < t0 + 1000000000 :=
      fun s1 hs1 => hs s1 (List.mem_cons_of_mem _ hs1)
    have hre : tb.refill ⟨n, t0⟩ s.now = ⟨n, t0⟩ := refill_same tb ⟨n, t0⟩ s.now h0 h1
    have hok := allow_ok tb s.userID s.created s.now
    have hu := allow_users tb s.userID k s.created s.now
    rw [hk] at hok hu
    rw [hb] at hok hu
    simp only [Option.getD_some, hre, if_true] at hok hu
    simp only [run, List.length_cons, List.range_succ_eq_map, List.map_cons, List.map_map]
    by_cases hpos : n > 0
    · simp only [hpos, if_true] at hu
      rw [ih _ (n - 1) (by rw [hk]; exact hu) (by omega) hrest, hk, hok]
      congr 1
      simp only [List.map_inj_left, Function.comp, Nat.cast_succ, decide_eq_decide]
      intro a _
      omega
    · simp only [hpos, if_false] at hu
      rw [ih _ n (by rw [hk]; exact hu) hn hrest, hk, hok]
      congr 1
      simp only [List.map_inj_left, Function.comp, Nat.cast_succ, decide_eq_decide]
      intro a _
      omega

end TokenBucketLimiter

theorem range_map_decide_lt (m n : Nat) (h : n ≤ m) :
    (List.range m).map (fun (i : Nat) => decide ((i : Int) < (n : Int))) =
      List.replicate n true ++ List.replicate (m - n) false := by
  apply List.ext_getElem
  · simp; omega
  · intro i h1 h2
    simp only [List.getElem_map, List.getElem_range]
    by_cases hi : i < n
    · rw [List.getElem_append_left (by simpa using hi)]
      simp [hi]
    · rw [List.getElem_append_right (by simpa using hi)]
      simp [hi]

namespace TokenBucketLimiter

theorem refill_spec (tb : TokenBucketLimiter) (hC : 1 ≤ tb.capacity) (hr : 0 ≤ tb.refillRate)
    (hno : tb.capacity + 9223372037 * tb.refillRate < 2 ^ 63) (b : TokenBucket)
    (hb0 : 0 ≤ b.tokens) (hb1 : b.tokens ≤ tb.capacity) (now : Int) :
    0 ≤ (tb.refill b now).tokens ∧ (tb.refill b now).tokens ≤ tb.capacity ∧
      ((tb.refill b now).tokens ≤ 0 → tb.refill b now = b) := by
  obtain ⟨_, hnt⟩ := newTokens_exact tb (9223372037 * tb.refillRate) hr (le_refl _)
    (by linarith) b.lastRefilled now
  unfold refill
  split
  · rename_i hpos
    have hw := wrap64_of_range (b.tokens + tb.newTokens b.lastRefilled now) (by
      norm_num at hno ⊢; linarith) (by linarith)
    rw [hw]
    simp only
    refine ⟨?_, Int.min_le_left _ _, ?_⟩
    · exact le_min (by omega) (by omega)
    · intro h
      have : 1 ≤ min tb.capacity (b.tokens + tb.newTokens b.lastRefilled now) :=
        le_min hC (by omega)
      omega
  · exact ⟨hb0, hb1, fun _ => rfl⟩

/-- Every stored bucket holds between zero and `capacity` tokens. -/
theorem bounded_step (tb : TokenBucketLimiter) (hC : 1 ≤ tb.capacity)
    (hr : 0 ≤ tb.refillRate)
    (hno : tb.capacity + 9223372037 * tb.refillRate < 2 ^ 63)
    (h : ∀ k b, tb.users k = some b → 0 ≤ b.tokens ∧ b.tokens ≤ tb.capacity)
    (k : GoString) (c now : Int) :
    ∀ k1 b, (tb.AllowRequest k c now).1.users k1 = some b →
      0 ≤ b.tokens ∧ b.tokens ≤ tb.capacity := by
  intro k1 b hb
  rw [allow_users] at hb
  by_cases hk : k1 = k
  · simp only [hk, if_true, Option.some.injEq] at hb
    have hbase : 0 ≤ ((tb.users k).getD ⟨tb.capacity, c⟩).tokens ∧
        ((tb.users k).getD ⟨tb.capacity, c⟩).tokens ≤ tb.capacity := by
      cases hu : tb.users k with
      | none => simp only [Option.getD_none]; omega
      | some b0 => simpa using h k b0 hu
    obtain ⟨h0, h1, _⟩ := refill_spec tb hC hr hno _ hbase.1 hbase.2 now
    split at hb
    · rw [← hb]
      simp only
      omega
    · rw [← hb]
      exact ⟨h0, h1⟩
  · simp only [hk, if_false] at hb
    exact h k1 b hb

theorem bounded_run (tb : TokenBucketLimiter) (hC : 1 ≤ tb.capacity)
    (hr : 0 ≤ tb.refillRate)
    (hno : tb.capacity + 9223372037 * tb.refillRate < 2 ^ 63)
    (h : ∀ k b, tb.users k = some b → 0 ≤ b.tokens ∧ b.tokens ≤ tb.capacity)
    (steps : List TBStep) :
    ∀ k b, (tb.run steps).1.users k = some b → 0 ≤ b.tokens ∧ b.tokens ≤ tb.capacity := by
  induction steps generalizing tb with
  | nil => exact h
  | cons s rest ih =>
    simp only [run]
    have := ih (tb.AllowRequest s.userID s.created s.now).1
      (by rw [allow_capacity]; exact hC) (by rw [allow_refillRate]; exact hr)
      (by rw [allow_capacity, allow_refillRate]; exact hno)
      (by rw [allow_capacity]; exact bounded_step tb hC hr hno h _ _ _)
    rw [allow_capacity] at this
    exact this

theorem bucket_reject_unchanged (tb : TokenBucketLimiter) (hC : 1 ≤ tb.capacity)
    (hr : 0 ≤ tb.refillRate)
    (hno : tb.capacity + 9223372037 * tb.refillRate < 2 ^ 63)
    (h : ∀ k b, tb.users k = some b → 0 ≤ b.tokens ∧ b.tokens ≤ tb.capacity)
    (k : GoString) (c now : Int) (hrej : (tb.AllowRequest k c now).2 = false) :
    (tb.AllowRequest k c now).1 = tb := by
  rw [allow_ok] at hrej
  simp only [gt_iff_lt, decide_eq_false_iff_not, not_lt] at hrej
  cases hu : tb.users k with
  | none =>
    rw [hu] at hrej
    simp only [Option.getD_none] at hrej
    obtain ⟨_, _, h3⟩ := refill_spec tb hC hr hno ⟨tb.capacity, c⟩ (by simp; omega)
      (by simp) now
    rw [h3 hrej] at hrej
    simp only at hrej
    omega
  | some b =>
    rw [hu] at hrej
    simp only [Option.getD_some] at hrej
    obtain ⟨hb0, hb1⟩ := h k b hu
    obtain ⟨_, _, h3⟩ := refill_spec tb hC hr hno b hb0 hb1 now
    have hsame := h3 hrej
    unfold AllowRequest GetUserBucket
    rw [hu]
    simp only
    rw [hsame] at hrej ⊢
    rw [if_neg (by omega)]
    simp only
    rw [← hu, Function.update_eq_self]

theorem refill_amount (k : GoString) (t0 t s : Int) :
    ∀ (n : Nat) (tb : TokenBucketLimiter), 1 ≤ tb.capacity →
      tb.users k = some ⟨0, t0⟩ →
      (durationSeconds (timeSub t t0)).toInt = s → 0 ≤ s → 0 ≤ tb.refillRate →
      s * tb.refillRate < 2 ^ 63 →
      (tb.run (List.replicate n ⟨k, t, t⟩)).2 =
        (List.range n).map
          (fun (i : Nat) => decide ((i : Int) < min tb.capacity (s * tb.refillRate))) := by
  intro n
  induction n with
  | zero => intro tb _ _ _ _ _ _; simp [run]
  | succ n ih =>
    intro tb hC hu hs hs0 hr hno
    have hsr : 0 ≤ s * tb.refillRate := mul_nonneg hs0 hr
    have hnt : tb.newTokens t0 t = s * tb.refillRate := by
      unfold newTokens
      rw [hs, wrap64_of_range _ (by norm_num; linarith) hno]
    have hok := allow_ok tb k t t
    have hus := allow_users tb k k t t
    rw [hu] at hok hus
    simp only [Option.getD_some, if_true] at hok hus
    simp only [List.replicate_succ, run, List.range_succ_eq_map, List.map_cons, List.map_map]
    by_cases hpos : 0 < s * tb.refillRate
    · have hre : tb.refill ⟨0, t0⟩ t = ⟨min tb.capacity (s * tb.refillRate), t⟩ := by
        unfold refill
        simp only [hnt]
        rw [if_pos hpos, Int.zero_add, wrap64_of_range _ (by norm_num; linarith) hno]
      simp only [hre] at hok hus
      have hmin : 0 < min tb.capacity (s * tb.refillRate) := lt_min (by omega) hpos
      simp only [gt_iff_lt, hmin, if_true] at hus
      have hd := drain k t (List.replicate n ⟨k, t, t⟩) (tb.AllowRequest k t t).1
        (min tb.capacity (s * tb.refillRate) - 1) hus (by omega) (by
          intro s1 hs1
          rw [List.eq_of_mem_replicate hs1]
          exact ⟨rfl, le_refl _, by simp⟩)
      rw [hd, hok]
      simp only [List.length_replicate]
      congr 1
      simp only [List.map_inj_left, Function.comp, Nat.cast_succ, decide_eq_decide]
      intro a _
      omega
    · have hz : s * tb.refillRate = 0 := by omega
      have hre : tb.refill ⟨0, t0⟩ t = ⟨0, t0⟩ := by
        unfold refill
        simp only [hnt, hz]
        simp
      simp only [hre] at hok hus
      simp only [gt_iff_lt, lt_self_iff_false, if_false] at hus
      have := ih (tb.AllowRequest k t t).1 (by rw [allow_capacity]; exact hC) hus hs hs0
        (by rw [allow_refillRate]; exact hr) (by rw [allow_refillRate]; exact hno)
      rw [this, hok, allow_capacity, allow_refillRate, hz]
      have hm : min tb.capacity 0 = 0 := min_eq_right (by omega)
      rw [hm]
      congr 1

end TokenBucketLimiter

namespace TokenBucketLimiter

/-- Calls of other keys may come in between: calls of one key within a
second of its last refill drain its bucket one token at a time. -/
theorem drain_mixed (k : GoString) (t0 : Int) :
    ∀ (steps : List TBStep) (tb : TokenBucketLimiter) (n : Int),
      tb.users k = some ⟨n, t0⟩ → 0 ≤ n →
      (∀ s ∈ steps, s.userID = k → t0 ≤ s.now ∧ s.now < t0 + 1000000000) →
      resultsFor k steps (tb.run steps).2 =
        (List.range (steps.filter (fun s => decide (s.userID = k))).length).map
          (fun (i : Nat) => decide ((i : Int) < n)) := by
  intro steps
  induction steps with
  | nil => intro tb n _ _ _; simp [run, resultsFor]
  | cons s rest ih =>
    intro tb n hb hn hs
    have hrest : ∀ s ∈ rest, s.userID = k → t0 ≤ s.now ∧ s.now < t0 + 1000000000 :=
      fun s1 hs1 => hs s1 (List.mem_cons_of_mem _ hs1)
    by_cases hk : s.userID = k
    · obtain ⟨h0, h1⟩ := hs s (List.mem_cons_self _ _) hk
      have hre : tb.refill ⟨n, t0⟩ s.now = ⟨n, t0⟩ := refill_same tb ⟨n, t0⟩ s.now h0 h1
      have hok := allow_ok tb s.userID s.created s.now
      have hu := allow_users tb s.userID k s.created s.now
      rw [hk] at hok hu
      rw [hb] at hok hu
      simp only [Option.getD_some, hre, if_true] at hok hu
      simp only [run, resultsFor, hk, if_true, List.filter_cons, decide_True,
        List.length_cons, List.range_succ_eq_map, List.map_cons, List.map_map]
      by_cases hpos : n > 0
      · simp only [hpos, if_true] at hu
        rw [ih _ (n - 1) hu (by omega) hrest, hok]
        congr 1
        simp only [List.map_inj_left, Function.comp, Nat.cast_succ, decide_eq_decide]
        intro a _
        omega
      · simp only [hpos, if_false] at hu
        rw [ih _ n hu hn hrest, hok]
        congr 1
        simp only [List.map_inj_left, Function.comp, Nat.cast_succ, decide_eq_decide]
        intro a _
        omega
    · have hu := allow_users tb s.userID k s.created s.now
      have hk1 : ¬ k = s.userID := fun h => hk h.symm
      simp only [hk1, if_false] at hu
      simp only [run, resultsFor, hk, if_false, List.filter_cons, decide_False,
        Bool.false_eq_true]
      exact ih _ n (by rw [hu]; exact hb) hn hrest

/-- A key without a bucket, calls of other keys in between: the calls of the
key within a second of the reading that creates its bucket are admitted
until `capacity` of them have been. -/
theorem burst_mixed (k : GoString) (t0 : Int) :
    ∀ (steps : List TBStep) (tb : TokenBucketLimiter),
      tb.users k = none → 1 ≤ tb.capacity →
      (∀ s ∈ steps, s.userID = k → t0 ≤ s.now ∧ s.now < t0 + 1000000000) →
      (∀ s, (steps.filter (fun s => decide (s.userID = k))).head? = some s →
        s.created = t0) →
      resultsFor k steps (tb.run steps).2 =
        (List.range (steps.filter (fun s => decide (s.userID = k))).length).map
          (fun (i : Nat) => decide ((i : Int) < tb.capacity)) := by
  intro steps
  induction steps with
  | nil => intro tb _ _ _ _; simp [run, resultsFor]
  | cons s rest ih =>
    intro tb hnone hC hs hfirst
    have hrest : ∀ s ∈ rest, s.userID = k → t0 ≤ s.now ∧ s.now < t0 + 1000000000 :=
      fun s1 hs1 => hs s1 (List.mem_cons_of_mem _ hs1)
    by_cases hk : s.userID = k
    · obtain ⟨h0, h1⟩ := hs s (List.mem_cons_self _ _) hk
      have hcr : s.created = t0 := hfirst s (by simp [List.filter_cons, hk])
      have hok := allow_ok tb s.userID s.created s.now
      have hu := allow_users tb s.userID k s.created s.now
      rw [hk] at hok hu
      rw [hnone, hcr] at hok hu
      have hre : tb.refill ⟨tb.capacity, t0⟩ s.now = ⟨tb.capacity, t0⟩ :=
        refill_same tb ⟨tb.capacity, t0⟩ s.now h0 h1
      have hpos : tb.capacity > 0 := by omega
      simp only [Option.getD_none, hre, if_true, hpos] at hok hu
      have hd := drain_mixed k t0 rest (tb.AllowRequest k t0 s.now).1 (tb.capacity - 1) hu
        (by omega) hrest
      simp only [run, resultsFor, hk, if_true, List.filter_cons, decide_True,
        List.length_cons, List.range_succ_eq_map, List.map_cons, List.map_map, hcr]
      rw [hd, hok]
      congr 1
      · simpa using hpos
      · simp only [List.map_inj_left, Function.comp, Nat.cast_succ, decide_eq_decide]
        intro a _
        omega
    · have hu := allow_users tb s.userID k s.created s.now
      have hk1 : ¬ k = s.userID := fun h => hk h.symm
      simp only [hk1, if_false] at hu
      simp only [run, resultsFor, hk, if_false, List.filter_cons, decide_False,
        Bool.false_eq_true]
      have := ih (tb.AllowRequest s.userID s.created s.now).1 (by rw [hu]; exact hnone)
        (by rw [allow_capacity]; exact hC) hrest
        (by
          intro s1 hs1
          apply hfirst s1
          simpa [List.filter_cons, hk] using hs1)
      rw [allow_capacity] at this
      exact this

end TokenBucketLimiter

/-! ## Claims on the fixed window -/

set_option maxRecDepth 100000

/-- C1, failing execution: limit 1, window 60 s. A call at epoch second
1700000000 is admitted and starts the cleanup pass; the pass runs at
1700000001 and deletes the count of the current window, because it compares
the epoch second with the window index 28333333; the call at 1700000002, in
the same aligned window, is admitted as well: two admissions with limit 1. -/
theorem fixedWindow_cleanup_readmits :
    ((NewFixedWindowLimiter 1 60000000000).run
        [FWStep.allow ['a'] 1700000000, FWStep.cleanup 1700000001,
          FWStep.allow ['a'] 1700000002]).map Prod.snd = some [true, true] ∧
      (NewFixedWindowLimiter 1 60000000000).windowSeconds = 60 ∧
      Int.tdiv 1700000000 60 = Int.tdiv 1700000002 60 := by
  decide

/-- C8, failing input: limit 1, window 60 s, the map holds count 1 under the
composite key of user `a` and window index 28333333, and the cleanup runs at
epoch second 1700000001, whose window index is 28333333. The cleanup deletes
that entry, and the next call is admitted although it would have been
rejected. With a window of 1 s, where only the dash matters, the entry of the
current window of user `x-y` is deleted because the piece after the first
dash is `y`, which scans as 0. -/
theorem fixedWindow_cleanup_drops_current :
    Int.tdiv 1700000001 60 = 28333333 ∧
      ((FixedWindowLimiter.mk 1 60000000000
        (Function.update (fun _ => none) (sprintfKey ['a'] 28333333) (some 1))
        true).cleanupExpiredKeys 1700000001).requests (sprintfKey ['a'] 28333333) = none ∧
      ((FixedWindowLimiter.mk 1 60000000000
        (Function.update (fun _ => none) (sprintfKey ['a'] 28333333) (some 1))
        true).AllowRequest ['a'] 1700000001).map Prod.snd = some false ∧
      (((FixedWindowLimiter.mk 1 60000000000
        (Function.update (fun _ => none) (sprintfKey ['a'] 28333333) (some 1))
        true).cleanupExpiredKeys 1700000001).AllowRequest ['a'] 1700000001).map Prod.snd
        = some true ∧
      ((FixedWindowLimiter.mk 1 1000000000
        (Function.update (fun _ => none) (sprintfKey ['x', '-', 'y'] 1700000001) (some 1))
        true).cleanupExpiredKeys 1700000001).requests
          (sprintfKey ['x', '-', 'y'] 1700000001) = none := by
  decide

/-! ## Claims on the sliding window log -/

/-- C2. Sliding window log is exact: from the constructor, under a
non-decreasing clock and with cleanup runs anywhere, a call at time `t`
returns true exactly when fewer than `L` earlier admitted calls of its key
carry a timestamp in the closed window `[t - W, t]`; at every instant the
admitted calls of a key in the trailing window number at most `L`; and for a
key without earlier calls, `L + 1` calls made within one window (with calls
of other keys and cleanup runs in between) give `L` admissions followed by
one rejection. -/
theorem slidingWindowLog_exact (L Wd : Int) (hL : 1 ≤ L) :
    (∀ (pre : List SWStep) (k : GoString) (t : Int),
      ((pre ++ [SWStep.allow k t]).map SWStep.time).Pairwise (· ≤ ·) →
      ((((NewSlidingWindowLog L Wd).run pre).1.AllowRequest k t).2 = true ↔
        (admittedIn ((NewSlidingWindowLog L Wd).run pre).2 k
          (t - durationMilliseconds Wd) t : Int) < L)) ∧
    (∀ (steps : List SWStep) (k : GoString) (τ : Int),
      (steps.map SWStep.time).Pairwise (· ≤ ·) →
      (admittedIn ((NewSlidingWindowLog L Wd).run steps).2 k
        (τ - durationMilliseconds Wd) τ : Int) ≤ L) ∧
    (∀ (pre steps : List SWStep) (k : GoString),
      (∀ c ∈ ((NewSlidingWindowLog L Wd).run pre).2, c.userID ≠ k) →
      ((callsOf k steps).length : Int) = L + 1 →
      ((pre ++ steps).map SWStep.time).Pairwise (· ≤ ·) →
      (∀ x ∈ callsOf k steps, ∀ y ∈ callsOf k steps, y - x ≤ durationMilliseconds Wd) →
      okFor k (((NewSlidingWindowLog L Wd).run pre).1.run steps).2 =
        List.replicate L.toNat true ++ [false]) := by
  refine ⟨?_, ?_, ?_⟩
  · intro pre k t hmono
    exact SlidingWindowLog.decision_from_new L Wd pre k t hmono
  · intro steps k τ hmono
    exact SlidingWindowLog.at_most_limit L Wd (by omega) steps hmono k τ
  · intro pre steps k hfresh hlen hmono hwin
    have hn : ∃ n : Nat, L = (n : Int) := ⟨L.toNat, by omega⟩
    obtain ⟨n, rfl⟩ := hn
    have hlen1 : (callsOf k steps).length = n + 1 := by omega
    have hne : callsOf k steps ≠ [] := by
      intro h
      rw [h] at hlen1
      simp at hlen1
    rw [List.map_append] at hmono
    have hsorted : (callsOf k steps).Pairwise (· ≤ ·) :=
      (List.pairwise_append.mp hmono).2.1.sublist (SlidingWindowLog.callsOf_sublist k steps)
    have hlast : ∀ y ∈ callsOf k steps, y ≤ (callsOf k steps).getLast hne := by
      intro y hy
      rcases List.mem_iff_getElem.mp hy with ⟨i, hi, rfl⟩
      rw [List.getLast_eq_getElem]
      rcases Nat.eq_or_lt_of_le (Nat.le_sub_one_of_lt hi) with h | h
      · simp only [h]; exact le_refl _
      · exact List.pairwise_iff_getElem.mp hsorted i _ hi (by omega) h
    have hnil := SlidingWindowLog.admittedTimes_fresh _ k hfresh
    cases steps with
    | nil => simp [callsOf] at hne
    | cons s rest =>
      have hinv := SlidingWindowLog.reach (n : Int) Wd pre s.time (by
        have : (pre.map SWStep.time ++ [s.time]).Sublist
            (pre.map SWStep.time ++ (s :: rest).map SWStep.time) :=
          List.Sublist.append_left (by simp) _
        exact hmono.sublist this)
      have hb := SlidingWindowLog.burst_results k
        ((callsOf k (s :: rest)).getLast hne - durationMilliseconds Wd) (s :: rest) _ _
        s.time hinv (by rw [hnil]; simp)
        (by
          have h2 := (List.pairwise_append.mp hmono).2.1
          rw [List.pairwise_cons]
          refine ⟨?_, h2⟩
          intro a ha
          simp only [List.map_cons, List.mem_cons] at ha
          rcases ha with ha | ha
          · omega
          · simp only [List.map_cons] at h2
            exact (List.pairwise_cons.mp h2).1 a ha)
        (by
          intro y hy
          rw [SlidingWindowLog.run_window]
          have h1 := hlast y hy
          have h2 := hwin y hy _ (List.getLast_mem hne)
          simp only [NewSlidingWindowLog]
          omega)
      rw [hb, hnil, SlidingWindowLog.run_limit, hlen1]
      simp only [NewSlidingWindowLog, List.length_nil, Nat.cast_zero, Int.toNat_ofNat]
      exact SlidingWindowLog.range_map_lt n

/-- Witness of C2: limit 3, window 10 s; three calls of one key are
admitted, the fourth is decided by the count of the window. -/
theorem slidingWindowLog_exact_witness :
    ((((NewSlidingWindowLog 3 10000000000).run
        [SWStep.allow ['a'] 5, SWStep.cleanup 6, SWStep.allow ['a'] 7,
          SWStep.allow ['a'] 8]).1.AllowRequest ['a'] 9).2 = true ↔
      (admittedIn ((NewSlidingWindowLog 3 10000000000).run
        [SWStep.allow ['a'] 5, SWStep.cleanup 6, SWStep.allow ['a'] 7,
          SWStep.allow ['a'] 8]).2 ['a'] (9 - durationMilliseconds 10000000000) 9 : Int) < 3) ∧
    (admittedIn ((NewSlidingWindowLog 3 10000000000).run
        [SWStep.allow ['a'] 5, SWStep.allow ['a'] 7]).2 ['a']
        (8 - durationMilliseconds 10000000000) 8 : Int) ≤ 3 ∧
    (okFor ['a'] (((NewSlidingWindowLog 3 10000000000).run [SWStep.allow ['b'] 0]).1.run
        [SWStep.allow ['a'] 1, SWStep.allow ['b'] 1, SWStep.allow ['a'] 2, SWStep.cleanup 2,
          SWStep.allow ['a'] 3, SWStep.allow ['a'] 4]).2
      = List.replicate (3 : Int).toNat true ++ [false]) :=
  ⟨(slidingWindowLog_exact 3 10000000000 (by decide)).1 _ _ _ (by decide),
    (slidingWindowLog_exact 3 10000000000 (by decide)).2.1 _ _ _ (by decide),
    (slidingWindowLog_exact 3 10000000000 (by decide)).2.2 [SWStep.allow ['b'] 0]
      [SWStep.allow ['a'] 1, SWStep.allow ['b'] 1, SWStep.allow ['a'] 2, SWStep.cleanup 2,
        SWStep.allow ['a'] 3, SWStep.allow ['a'] 4] ['a']
      (by decide) (by decide) (by decide) (by decide)⟩

/-- C10, counterexample: limit 2, window 2 s; the key is called three times at
millisecond 0 and next at millisecond 2000, one full window after its most
recent call, and that call is rejected. -/
theorem slidingWindowLog_drain_boundary :
    ¬ (∀ (L Wd : Int) (pre : List SWStep) (k : GoString) (t : Int),
      1 ≤ L → 1 ≤ durationMilliseconds Wd →
      ((pre ++ [SWStep.allow k t]).map SWStep.time).Pairwise (· ≤ ·) →
      (∀ c ∈ ((NewSlidingWindowLog L Wd).run pre).2,
        c.userID = k → c.time + durationMilliseconds Wd ≤ t) →
      (((NewSlidingWindowLog L Wd).run pre).1.AllowRequest k t).2 = true) := by
  intro h
  have := h 2 2000000000
    [SWStep.allow ['a'] 0, SWStep.allow ['a'] 0, SWStep.allow ['a'] 0] ['a'] 2000
    (by decide) (by decide) (by decide) (by decide)
  revert this
  decide

/-- C10, amended. Sliding window log drains after one window: from the
constructor, under a non-decreasing clock and with cleanup runs anywhere, a
call made strictly more than `W` milliseconds after every earlier call of its
key returns true. -/
theorem slidingWindowLog_drains (L Wd : Int) (hL : 1 ≤ L) (pre : List SWStep)
    (k : GoString) (t : Int)
    (hmono : ((pre ++ [SWStep.allow k t]).map SWStep.time).Pairwise (· ≤ ·))
    (hquiet : ∀ c ∈ ((NewSlidingWindowLog L Wd).run pre).2,
      c.userID = k → c.time + durationMilliseconds Wd < t) :
    (((NewSlidingWindowLog L Wd).run pre).1.AllowRequest k t).2 = true := by
  apply (SlidingWindowLog.decision_from_new L Wd pre k t hmono).mpr
  rw [SlidingWindowLog.admittedIn_zero _ k _ _ (fun c hc hk => by
    have := hquiet c hc hk
    omega)]
  simpa using hL

/-- Witness of C10 (the scenario of the test): limit 2, window 2 s, two
admitted calls and one rejected, then a call 2001 ms later. -/
theorem slidingWindowLog_drains_witness :
    (((NewSlidingWindowLog 2 2000000000).run
      [SWStep.allow ['a'] 0, SWStep.allow ['a'] 0,
        SWStep.allow ['a'] 0]).1.AllowRequest ['a'] 2001).2 = true :=
  slidingWindowLog_drains 2 2000000000 (by decide)
    [SWStep.allow ['a'] 0, SWStep.allow ['a'] 0, SWStep.allow ['a'] 0] ['a'] 2001
    (by decide) (by decide)

/-! ## Claims on the token bucket -/

/-- C3. Token bucket initial burst: for capacity `C ≥ 1`, any refill rate
`r` (so every `r ≥ 0`) and a key without a bucket, if `C + 1` calls of that
key (with calls of other keys in between) all have their clock reading less
than one second after the reading `t0` that creates the bucket, they return
true `C` times and then false. -/
theorem tokenBucket_initial_burst (C r : Int) (users : GoString → Option TokenBucket)
    (k : GoString) (steps : List TBStep) (t0 : Int) (hC : 1 ≤ C)
    (hfresh : users k = none)
    (hlen : ((steps.filter (fun s => decide (s.userID = k))).length : Int) = C + 1)
    (hfirst : ∀ s, (steps.filter (fun s => decide (s.userID = k))).head? = some s →
      s.created = t0)
    (hwin : ∀ s ∈ steps, s.userID = k → t0 ≤ s.now ∧ s.now < t0 + 1000000000) :
    resultsFor k steps ((TokenBucketLimiter.mk C r users).run steps).2 =
      List.replicate C.toNat true ++ [false] := by
  have hn : ∃ n : Nat, C = (n : Int) := ⟨C.toNat, by omega⟩
  obtain ⟨n, rfl⟩ := hn
  have hb := TokenBucketLimiter.burst_mixed k t0 steps ⟨(n : Int), r, users⟩ hfresh hC hwin
    hfirst
  have hlen1 : (steps.filter (fun s => decide (s.userID = k))).length = n + 1 := by omega
  rw [hb, hlen1]
  simp only [Int.toNat_ofNat]
  have := range_map_decide_lt (n + 1) n (by omega)
  simp only [Nat.add_sub_cancel_left, List.replicate_one] at this
  exact this

/-- Witness of C3 (the test): capacity 7, rate 3, eight calls of one key
within 30 ms, and a call of another key in between. -/
theorem tokenBucket_initial_burst_witness :
    resultsFor ['a'] (⟨['a'], 100, 101⟩ :: ⟨['b'], 101, 101⟩ ::
        (List.range 7).map (fun i => ⟨['a'], 0, 102 + 4000000 * i⟩))
      ((TokenBucketLimiter.mk 7 3 (fun _ => none)).run
        (⟨['a'], 100, 101⟩ :: ⟨['b'], 101, 101⟩ ::
          (List.range 7).map (fun i => ⟨['a'], 0, 102 + 4000000 * i⟩))).2 =
      List.replicate (7 : Int).toNat true ++ [false] :=
  tokenBucket_initial_burst 7 3 (fun _ => none) ['a']
    (⟨['a'], 100, 101⟩ :: ⟨['b'], 101, 101⟩ ::
      (List.range 7).map (fun i => ⟨['a'], 0, 102 + 4000000 * i⟩)) 100
    (by decide) rfl (by decide) (by decide) (by decide)

/-- C4, counterexample: capacity 2, refill rate `2 ^ 63 - 1`; one call
creates the bucket, the call one second later adds `1 + (2 ^ 63 - 1)` in
64-bit arithmetic and leaves a negative token count. -/
theorem tokenBucket_tokens_overflow :
    (((NewTokenBucketLimiter 2 9223372036854775807).run
      [⟨['a'], 0, 0⟩, ⟨['a'], 1000000000, 1000000000⟩]).1.users ['a']).map TokenBucket.tokens
      = some (-9223372036854775808) := by
  decide

/-- C4, amended. Token bucket bound: for capacity `C ≥ 1` and refill rate
`r ≥ 0` with `C + 9223372037 * r < 2 ^ 63` (the refill cannot overflow a
64-bit `int`), every bucket of every state reached from the constructor by
any calls at any clock values holds between 0 and `C` tokens. -/
theorem tokenBucket_tokens_bounded (C r : Int) (hC : 1 ≤ C) (hr : 0 ≤ r)
    (hno : C + 9223372037 * r < 2 ^ 63) (steps : List TBStep) (k : GoString)
    (b : TokenBucket) (hb : ((NewTokenBucketLimiter C r).run steps).1.users k = some b) :
    0 ≤ b.tokens ∧ b.tokens ≤ C :=
  TokenBucketLimiter.bounded_run (NewTokenBucketLimiter C r) hC hr hno
    (by intro k b h; simp [NewTokenBucketLimiter] at h) steps k b hb

/-- Witness of C4: capacity 5, rate 1, a call at 0 s and one at 3 s leave
the bucket with 4 tokens. -/
theorem tokenBucket_tokens_bounded_witness :
    ((NewTokenBucketLimiter 5 1).run
        [⟨['a'], 0, 0⟩, ⟨['a'], 3000000000, 3000000000⟩]).1.users ['a'] =
        some ⟨4, 3000000000⟩ ∧
      (0 : Int) ≤ (TokenBucket.mk 4 3000000000).tokens ∧
      (TokenBucket.mk 4 3000000000).tokens ≤ 5 :=
  ⟨by decide,
    tokenBucket_tokens_bounded 5 1 (by decide) (by decide) (by decide)
      [⟨['a'], 0, 0⟩, ⟨['a'], 3000000000, 3000000000⟩] ['a'] ⟨4, 3000000000⟩ (by decide)⟩

/-- C6, counterexample: capacity 5, refill rate `2 ^ 62`; the bucket is
emptied at clock 0 and called six times 2 s later. The elapsed time truncates to
2 whole seconds and `min(5, 2 * 2 ^ 62) = 5`, but `2 * 2 ^ 62` overflows and
all six calls made at that instant are rejected. -/
theorem tokenBucket_refill_overflow :
    ((NewTokenBucketLimiter 5 4611686018427387904).run
        (List.replicate 6 ⟨['a'], 0, 0⟩)).1.users ['a'] = some ⟨0, 0⟩ ∧
      (durationSeconds (timeSub 2000000000 0)).toInt = 2 ∧
      min (5 : Int) (2 * 4611686018427387904) = 5 ∧
      (((NewTokenBucketLimiter 5 4611686018427387904).run
        (List.replicate 6 ⟨['a'], 0, 0⟩)).1.run
          (List.replicate 6 ⟨['a'], 2000000000, 2000000000⟩)).2
        = [false, false, false, false, false, false] := by
  decide

/-- C6, amended. Token bucket refill amount: for capacity `C ≥ 1` and refill
rate `r ≥ 0`, if a key's bucket is empty with `lastRefilled = t0` and the
key is then called `n` times at one instant `t` for which the code computes
`int(elapsed.Seconds()) = s ≥ 0` with `s * r < 2 ^ 63` (no overflow), then
call number `i` (from 0) returns true exactly when `i < min(C, s * r)`. -/
theorem tokenBucket_refill_amount (C r : Int) (users : GoString → Option TokenBucket)
    (k : GoString) (t0 t s : Int) (n : Nat) (hC : 1 ≤ C) (hr : 0 ≤ r)
    (hempty : users k = some ⟨0, t0⟩)
    (hs : (durationSeconds (timeSub t t0)).toInt = s) (hs0 : 0 ≤ s)
    (hno : s * r < 2 ^ 63) :
    ((TokenBucketLimiter.mk C r users).run (List.replicate n ⟨k, t, t⟩)).2 =
      (List.range n).map (fun (i : Nat) => decide ((i : Int) < min C (s * r))) :=
  TokenBucketLimiter.refill_amount k t0 t s n ⟨C, r, users⟩ hC hempty hs hs0 hr hno

/-- Witness of C6 (the instance of the specification): capacity 5, rate 1;
six calls of a new key at clock 0 give five admissions and a rejection and
leave the bucket empty, and of three calls 2 s later exactly
`min(5, 2 * 1) = 2` are admitted. -/
theorem tokenBucket_refill_amount_witness :
    ((NewTokenBucketLimiter 5 1).run (List.replicate 6 ⟨['a'], 0, 0⟩)).2 =
        [true, true, true, true, true, false] ∧
      ((TokenBucketLimiter.mk 5 1 (Function.update (fun _ => none) ['a'] (some ⟨0, 0⟩))).run
        (List.replicate 3 ⟨['a'], 2000000000, 2000000000⟩)).2 =
        (List.range 3).map (fun (i : Nat) => decide ((i : Int) < min 5 (2 * 1))) :=
  ⟨by decide,
    tokenBucket_refill_amount 5 1 (Function.update (fun _ => none) ['a'] (some ⟨0, 0⟩)) ['a']
      0 2000000000 2 3 (by decide) (by decide) (by decide) (by decide) (by decide)
      (by decide)⟩

/-! ## Claims on the sliding window counter -/

/-- C5, counterexample: limit 1, window 49 ms, the key has count 49 in
window 0 and none in window 1, and is called at millisecond 97 (window 1,
elapsed 48). The exact estimate is `49 * (49 - 48) / 49 + 0 = 1 ≥ 1`, but
`1 / 49` and its product with 49 are rounded, the computed estimate is
`1 - 2 ^ -53 < 1`, and the call is admitted. -/
theorem slidingCounter_estimate_rounds :
    ((SlidingWindowCounter.mk (Function.update (fun _ => none) ['a'] (some [(0, 49)])) 1
        49000000).AllowRequest ['a'] 97).map Prod.snd = some true ∧
      durationMilliseconds 49000000 = 49 ∧ Int.tdiv 97 49 = 1 ∧ Int.tmod 97 49 = 48 ∧
      (SlidingWindowCounter.mk (Function.update (fun _ => none) ['a'] (some [(0, 49)])) 1
        49000000).previousCount ['a'] 97 = 49 ∧
      (SlidingWindowCounter.mk (Function.update (fun _ => none) ['a'] (some [(0, 49)])) 1
        49000000).currentCount ['a'] 97 = 0 ∧
      (49 : Int) * (49 - 48) + 0 * 49 ≥ 1 * 49 := by
  decide

/-- C5, amended. Sliding window counter decision rule: for every state, key
and time with window size `W ≥ 1` ms, `AllowRequest` returns; it returns false
exactly when the estimate `float64(p) * (float64(W - elapsed) / float64(W)) +
float64(c)`, every operation rounded to binary64, is at least `float64(L)`;
when the previous count `p` is 0 (and `c`, `L` lie in `[0, 2 ^ 53)`) this is
the exact comparison `p * (W - elapsed) + c * W ≥ L * W`; an admitted call
raises the key's count of the current window by one and changes no other
count; and for a key without counters and `1 ≤ L < 2 ^ 53`, `L + 1` calls
inside one aligned window (with calls of other keys and cleanup runs of that
window in between) give `L` admissions followed by one rejection. -/
theorem slidingCounter_decision (swc : SlidingWindowCounter) (k : GoString) (now : Int)
    (hW : 1 ≤ durationMilliseconds swc.window) :
    ∃ swc1 ok, swc.AllowRequest k now = some (swc1, ok) ∧
      (ok = false ↔ F64.ge (swc.estimate k now) (F64.ofInt swc.limit) = true) ∧
      (swc.previousCount k now = 0 → 0 ≤ swc.currentCount k now →
        swc.currentCount k now < 2 ^ 53 → 0 ≤ swc.limit → swc.limit < 2 ^ 53 →
        (ok = false ↔
          swc.previousCount k now * (durationMilliseconds swc.window -
              Int.tmod now (durationMilliseconds swc.window)) +
            swc.currentCount k now * durationMilliseconds swc.window ≥
            swc.limit * durationMilliseconds swc.window)) ∧
      (ok = true →
        swc1.currentCount k now = swc.currentCount k now + 1 ∧
        (∀ idx, idx ≠ Int.tdiv now (durationMilliseconds swc.window) →
          counterGet (swc1.mapOf k) idx = counterGet (swc.mapOf k) idx) ∧
        ∀ k1, k1 ≠ k → swc1.counters k1 = swc.counters k1) ∧
      (∀ steps : List SWStep, swc.counters k = none → 1 ≤ swc.limit → swc.limit < 2 ^ 53 →
        ((callsOf k steps).length : Int) = swc.limit + 1 →
        (∀ s ∈ steps, Int.tdiv s.time (durationMilliseconds swc.window) =
          Int.tdiv now (durationMilliseconds swc.window)) →
        (swc.run steps).map (fun r => okFor k r.2) =
          some (List.replicate swc.limit.toNat true ++ [false])) := by
  obtain ⟨s1, hs, hl, hw, hmap, hother, _⟩ :=
    SlidingWindowCounter.allow_spec swc k now (by omega)
  refine ⟨s1, _, hs, ?_, ?_, ?_, ?_⟩
  · simp
  · intro hp hc0 hc1 hL0 hL1
    have hest : F64.ge (swc.estimate k now) (F64.ofInt swc.limit) =
        decide (swc.limit ≤ swc.currentCount k now) := by
      unfold SlidingWindowCounter.estimate
      rw [hp]
      exact estimate_no_previous _ _ _ _ hc0 hc1 hL0 hL1
    rw [hest, hp]
    simp only [Bool.not_eq_false', decide_eq_true_eq, zero_mul, zero_add, ge_iff_le]
    constructor
    · intro h
      exact mul_le_mul_of_nonneg_right h (by omega)
    · intro h
      exact le_of_mul_le_mul_right h (by omega)
  · intro hok
    simp only [Bool.not_eq_true'] at hok
    have hm := hmap k
    rw [hok] at hm
    simp only [if_true, Bool.false_eq_true, if_false] at hm
    refine ⟨?_, ?_, hother⟩
    · unfold SlidingWindowCounter.currentCount
      rw [hw, hm, counterGet_set]
      simp [SlidingWindowCounter.currentCount]
    · intro idx hidx
      rw [hm, counterGet_set, if_neg hidx]
  · intro ts hnone hL0 hL1 hlen hts
    have hb := SlidingWindowCounter.burst k (Int.tdiv now (durationMilliseconds swc.window))
      ts swc 0 hW (by omega) hL1 (le_refl _) (by norm_num)
      (by simp [SlidingWindowCounter.mapOf, hnone, counterGet])
      (by simp [SlidingWindowCounter.mapOf, hnone, counterGet]) hts
    rw [hb]
    have hn : ∃ n : Nat, swc.limit = (n : Int) := ⟨swc.limit.toNat, by omega⟩
    obtain ⟨n, hn⟩ := hn
    have hlen1 : (callsOf k ts).length = n + 1 := by omega
    rw [hlen1, hn]
    simp only [Int.toNat_ofNat]
    have := range_map_decide_lt (n + 1) n (by omega)
    simp only [Nat.add_sub_cancel_left, List.replicate_one] at this
    rw [← this]
    simp

/-- Witness of C5 (the test): limit 5, window 10 s, six calls of a new key
inside one aligned window. -/
theorem slidingCounter_decision_witness :
    ((NewSlidingWindowCounter 5 10000000000).run
      [SWStep.allow ['a'] 1700000000000, SWStep.allow ['a'] 1700000000001,
        SWStep.allow ['b'] 1700000000001, SWStep.allow ['a'] 1700000000002,
        SWStep.cleanup 1700000000002, SWStep.allow ['a'] 1700000000003,
        SWStep.allow ['a'] 1700000000004, SWStep.allow ['a'] 1700000000005]).map
        (fun r => okFor ['a'] r.2) =
      some (List.replicate (5 : Int).toNat true ++ [false]) := by
  obtain ⟨_, _, _, _, _, _, hb⟩ :=
    slidingCounter_decision (NewSlidingWindowCounter 5 10000000000) ['a'] 1700000000000
      (by decide)
  exact hb _ rfl (by decide) (by decide) (by decide) (by decide)

/-! ## Claims on cleanup and on rejected calls -/

/-- C9. Cleanup does not change decisions in the sliding engines: for the
sliding window log in a state reached from the constructor, and for the
sliding window counter in any state with a window of at least 1 ms, a
sequence of steps under a non-decreasing clock yields the same record of
`AllowRequest` results as the sequence with all its cleanup runs removed.
(With a window below 1 ms the counter returns no boolean at all: the call
divides by zero.) -/
theorem sliding_cleanup_irrelevant :
    (∀ (L Wd : Int) (pre steps : List SWStep),
      ((pre ++ steps).map SWStep.time).Pairwise (· ≤ ·) →
      (((NewSlidingWindowLog L Wd).run pre).1.run steps).2 =
        (((NewSlidingWindowLog L Wd).run pre).1.run (steps.filter SWStep.isAllow)).2) ∧
    (∀ (swc : SlidingWindowCounter) (steps : List SWStep),
      1 ≤ durationMilliseconds swc.window →
      (steps.map SWStep.time).Pairwise (· ≤ ·) →
      (swc.run steps).map Prod.snd =
        (swc.run (steps.filter SWStep.isAllow)).map Prod.snd) ∧
    (∀ (swc : SlidingWindowCounter) (k : GoString) (now : Int),
      durationMilliseconds swc.window = 0 → swc.AllowRequest k now = none) :=
  ⟨fun L Wd pre steps h => SlidingWindowLog.log_cleanups_irrelevant L Wd pre steps h,
    fun swc steps hW h => SlidingWindowCounter.counter_cleanups_irrelevant swc hW steps h,
    fun swc k now hW => by simp [SlidingWindowCounter.AllowRequest, hW]⟩

/-- Witness of C9: limit 2, window 2 s, both engines, with two cleanup runs
between the calls. -/
theorem sliding_cleanup_irrelevant_witness :
    (((NewSlidingWindowLog 2 2000000000).run [SWStep.allow ['a'] 0]).1.run
        [SWStep.cleanup 5, SWStep.allow ['a'] 1500, SWStep.cleanup 2100,
          SWStep.allow ['a'] 2100]).2 =
      (((NewSlidingWindowLog 2 2000000000).run [SWStep.allow ['a'] 0]).1.run
        ([SWStep.cleanup 5, SWStep.allow ['a'] 1500, SWStep.cleanup 2100,
          SWStep.allow ['a'] 2100].filter SWStep.isAllow)).2 ∧
    ((NewSlidingWindowCounter 2 2000000000).run
        [SWStep.allow ['a'] 0, SWStep.cleanup 5, SWStep.allow ['a'] 1500,
          SWStep.cleanup 4100, SWStep.allow ['a'] 4100]).map Prod.snd =
      ((NewSlidingWindowCounter 2 2000000000).run
        ([SWStep.allow ['a'] 0, SWStep.cleanup 5, SWStep.allow ['a'] 1500,
          SWStep.cleanup 4100, SWStep.allow ['a'] 4100].filter SWStep.isAllow)).map
        Prod.snd ∧
    (NewSlidingWindowCounter 2 500000).AllowRequest ['a'] 7 = none :=
  ⟨sliding_cleanup_irrelevant.1 2 2000000000 _ _ (by decide),
    sliding_cleanup_irrelevant.2.1 (NewSlidingWindowCounter 2 2000000000) _ (by decide)
      (by decide),
    sliding_cleanup_irrelevant.2.2 (NewSlidingWindowCounter 2 500000) ['a'] 7 (by decide)⟩

/-- C7, counterexample: token bucket with capacity 2 and refill rate
`2 ^ 63 - 1`. After one call the bucket holds 1 token; the call one second
later returns false, yet it has replaced the bucket by one with a negative
token count and a new `lastRefilled`. -/
theorem tokenBucket_reject_mutates :
    ((NewTokenBucketLimiter 2 9223372036854775807).run [⟨['a'], 0, 0⟩]).1.users ['a'] =
        some ⟨1, 0⟩ ∧
      (((NewTokenBucketLimiter 2 9223372036854775807).run [⟨['a'], 0, 0⟩]).1.AllowRequest
        ['a'] 1000000000 1000000000).2 = false ∧
      (((NewTokenBucketLimiter 2 9223372036854775807).run [⟨['a'], 0, 0⟩]).1.AllowRequest
        ['a'] 1000000000 1000000000).1.users ['a'] =
        some ⟨-9223372036854775808, 1000000000⟩ := by
  decide

/-- C7, amended. A reject leaves state unchanged: an `AllowRequest` call that
returns false leaves the count map of the fixed window (any state), the logs
of the sliding window log (limit at least 1, any state reached from the
constructor), the counter maps of the sliding window counter (limit at least
1, any state) and the buckets of the token bucket (capacity `C ≥ 1`, rate
`r ≥ 0` with `C + 9223372037 * r < 2 ^ 63` so that the refill cannot
overflow, any state reached from the constructor) exactly as they were. -/
theorem reject_leaves_state :
    (∀ (fw fw1 : FixedWindowLimiter) (k : GoString) (now : Int),
      fw.AllowRequest k now = some (fw1, false) → fw1.requests = fw.requests) ∧
    (∀ (L Wd : Int) (steps : List SWStep) (k : GoString) (t : Int), 1 ≤ L →
      (((NewSlidingWindowLog L Wd).run steps).1.AllowRequest k t).2 = false →
      (((NewSlidingWindowLog L Wd).run steps).1.AllowRequest k t).1 =
        ((NewSlidingWindowLog L Wd).run steps).1) ∧
    (∀ (swc swc1 : SlidingWindowCounter) (k : GoString) (now : Int), 1 ≤ swc.limit →
      swc.AllowRequest k now = some (swc1, false) → swc1 = swc) ∧
    (∀ (C r : Int) (steps : List TBStep) (k : GoString) (created now : Int),
      1 ≤ C → 0 ≤ r → C + 9223372037 * r < 2 ^ 63 →
      (((NewTokenBucketLimiter C r).run steps).1.AllowRequest k created now).2 = false →
      (((NewTokenBucketLimiter C r).run steps).1.AllowRequest k created now).1 =
        ((NewTokenBucketLimiter C r).run steps).1) := by
  refine ⟨?_, ?_, ?_, ?_⟩
  · intro fw fw1 k now h
    unfold FixedWindowLimiter.AllowRequest at h
    split at h
    · simp at h
    · simp only at h
      split at h
      · simp only [Option.some.injEq, Prod.mk.injEq, and_true] at h
        rw [← h]
      · simp at h
  · intro L Wd steps k t hL hrej
    apply SlidingWindowLog.log_reject_unchanged _ (by rw [SlidingWindowLog.run_limit]; exact hL)
      _ k t hrej
    have := SlidingWindowLog.run_length_le (NewSlidingWindowLog L Wd)
      (by intro k; simp [NewSlidingWindowLog, SlidingWindowLog.logOf]; omega) steps
    intro k1
    rw [SlidingWindowLog.run_limit]
    exact this k1
  · intro swc swc1 k now hL h
    exact SlidingWindowCounter.counter_reject_unchanged swc k now swc1 hL h
  · intro C r steps k created now hC hr hno hrej
    have hcap := TokenBucketLimiter.run_capacity (NewTokenBucketLimiter C r) steps
    have hrate := TokenBucketLimiter.run_refillRate (NewTokenBucketLimiter C r) steps
    have hinv := TokenBucketLimiter.bounded_run (NewTokenBucketLimiter C r) hC hr hno
      (by intro k b h; simp [NewTokenBucketLimiter] at h) steps
    apply TokenBucketLimiter.bucket_reject_unchanged _ (by rw [hcap]; exact hC)
      (by rw [hrate]; exact hr) (by rw [hcap, hrate]; exact hno) _ k created now hrej
    intro k1 b hb
    rw [hcap]
    exact hinv k1 b hb

/-- Witness of C7: one rejected call in each engine, with limit or capacity 1. -/
theorem reject_leaves_state_witness :
    (FixedWindowLimiter.mk 1 60000000000
        (Function.update (fun _ => none) (sprintfKey ['a'] 0) (some 1)) true).requests =
      (FixedWindowLimiter.mk 1 60000000000
        (Function.update (fun _ => none) (sprintfKey ['a'] 0) (some 1)) false).requests ∧
    (((NewSlidingWindowLog 1 2000000000).run [SWStep.allow ['a'] 0]).1.AllowRequest
        ['a'] 1).1 = ((NewSlidingWindowLog 1 2000000000).run [SWStep.allow ['a'] 0]).1 ∧
    SlidingWindowCounter.mk (Function.update
        (Function.update (fun _ => none) ['a'] (some [(0, 1)])) ['a'] (some [(0, 1)])) 1
        2000000000 =
      SlidingWindowCounter.mk (Function.update (fun _ => none) ['a'] (some [(0, 1)])) 1
        2000000000 ∧
    (((NewTokenBucketLimiter 1 1).run [⟨['a'], 0, 0⟩]).1.AllowRequest ['a'] 5 5).1 =
      ((NewTokenBucketLimiter 1 1).run [⟨['a'], 0, 0⟩]).1 :=
  ⟨reject_leaves_state.1
      (FixedWindowLimiter.mk 1 60000000000
        (Function.update (fun _ => none) (sprintfKey ['a'] 0) (some 1)) false) _ ['a'] 1
      rfl,
    reject_leaves_state.2.1 1 2000000000 [SWStep.allow ['a'] 0] ['a'] 1 (by decide)
      (by decide),
    reject_leaves_state.2.2.1
      (SlidingWindowCounter.mk (Function.update (fun _ => none) ['a'] (some [(0, 1)])) 1
        2000000000) _ ['a'] 1 (by decide) rfl,
    reject_leaves_state.2.2.2 1 1 [⟨['a'], 0, 0⟩] ['a'] 5 5 (by decide) (by decide)
      (by decide) (by decide)⟩

/-! ## Quotients of two exactly representable integers -/

theorem F64.div_ofInt_le (a W : Int) (M j : Nat) (ha : 0 ≤ a) (ha1 : a < 2 ^ 53) (hW : 1 ≤ W)
    (hW1 : W < 2 ^ 53) (hM : M < 2 ^ 53) (h : a * 2 ^ j ≤ (M : Int) * W) :
    (F64.div (F64.ofInt a) (F64.ofInt W)).num * 2 ^ j ≤
      (M : Int) * ((F64.div (F64.ofInt a) (F64.ofInt W)).den : Int) := by
  have hx := F64.ofInt_exact a ha ha1
  have hy := F64.ofInt_exact W (by omega) hW1
  have hT : (0 : Int) < ((F64.ofInt a).den : Int) := by exact_mod_cast F64.den_pos _
  have hU : (0 : Int) < ((F64.ofInt W).den : Int) := by exact_mod_cast F64.den_pos _
  unfold F64.div
  rw [hx, hy]
  generalize (F64.ofInt a).den = T at hT ⊢
  generalize (F64.ofInt W).den = U at hU ⊢
  have hWU : 0 < W * (U : Int) := by positivity
  rw [Int.sign_eq_one_of_pos hWU]
  have hnn : 0 ≤ a * (T : Int) * (U : Int) * 1 := by positivity
  have hDpos : 0 < T * (W * (U : Int)).natAbs :=
    Nat.mul_pos (by exact_mod_cast hT) (Int.natAbs_pos.mpr (ne_of_gt hWU))
  apply F64.roundRat_le _ _ _ _ hnn hDpos hM
  push_cast
  rw [abs_of_pos hWU]
  have hK : (0 : Int) ≤ (T : Int) * U := by positivity
  have := mul_le_mul_of_nonneg_right h hK
  linarith

theorem F64.div_ofInt_ge (a W : Int) (M j : Nat) (ha : 0 ≤ a) (ha1 : a < 2 ^ 53) (hW : 1 ≤ W)
    (hW1 : W < 2 ^ 53) (hM : M < 2 ^ 53) (h : (M : Int) * W ≤ a * 2 ^ j) :
    (M : Int) * ((F64.div (F64.ofInt a) (F64.ofInt W)).den : Int) ≤
      (F64.div (F64.ofInt a) (F64.ofInt W)).num * 2 ^ j := by
  have hx := F64.ofInt_exact a ha ha1
  have hy := F64.ofInt_exact W (by omega) hW1
  have hT : (0 : Int) < ((F64.ofInt a).den : Int) := by exact_mod_cast F64.den_pos _
  have hU : (0 : Int) < ((F64.ofInt W).den : Int) := by exact_mod_cast F64.den_pos _
  unfold F64.div
  rw [hx, hy]
  generalize (F64.ofInt a).den = T at hT ⊢
  generalize (F64.ofInt W).den = U at hU ⊢
  have hWU : 0 < W * (U : Int) := by positivity
  rw [Int.sign_eq_one_of_pos hWU]
  have hnn : 0 ≤ a * (T : Int) * (U : Int) * 1 := by positivity
  have hDpos : 0 < T * (W * (U : Int)).natAbs :=
    Nat.mul_pos (by exact_mod_cast hT) (Int.natAbs_pos.mpr (ne_of_gt hWU))
  apply F64.roundRat_ge _ _ _ _ hnn hDpos hM
  push_cast
  rw [abs_of_pos hWU]
  have hK : (0 : Int) ≤ (T : Int) * U := by positivity
  have := mul_le_mul_of_nonneg_right h hK
  linarith

/-- The weight of the previous window is positive and at most 1; it is 1
exactly when no time of the current window has elapsed. -/
theorem counterWeight_range (W e : Int) (he : 0 ≤ e) (heW : e < W) (hmax : W < 2 ^ 53) :
    0 < (counterWeight W e).num ∧ (counterWeight W e).num ≤ (counterWeight W e).den ∧
      (e = 0 → (counterWeight W e).num = (counterWeight W e).den) ∧
      (e ≠ 0 → (counterWeight W e).num * 2 ^ 53 ≤
        ((2 ^ 53 - 1 : Nat) : Int) * ((counterWeight W e).den : Int)) := by
  unfold counterWeight
  have hle := F64.div_ofInt_le (W - e) W 1 0 (by omega) (by omega) (by omega) hmax (by norm_num)
    (by simp; omega)
  have hge := F64.div_ofInt_ge (W - e) W 1 53 (by omega) (by omega) (by omega) hmax (by norm_num)
    (by norm_num at hmax ⊢; omega)
  have hd : (0 : Int) < ((F64.div (F64.ofInt (W - e)) (F64.ofInt W)).den : Int) := by
    exact_mod_cast F64.den_pos _
  simp only [pow_zero, mul_one, Nat.cast_one, one_mul] at hle hge
  refine ⟨?_, hle, ?_, ?_⟩
  · norm_num at hge
    omega
  · intro h0
    subst h0
    have hge1 := F64.div_ofInt_ge (W - 0) W 1 0 (by omega) (by omega) (by omega) hmax
      (by norm_num) (by simp)
    simp only [pow_zero, mul_one, Nat.cast_one, one_mul] at hge1
    omega
  · intro h0
    apply F64.div_ofInt_le (W - e) W _ 53 (by omega) (by omega) (by omega) hmax (by norm_num)
    norm_num at hmax ⊢
    omega

/-! ## The composite key of the fixed window -/

theorem digitChar_toNat (d : Nat) (h : d < 10) : (Nat.digitChar d).toNat - 48 = d := by
  interval_cases d <;> rfl

theorem digitChar_ne_dash (d : Nat) (h : d < 10) : Nat.digitChar d ≠ '-' := by
  intro hc
  have hv := digitChar_toNat d h
  rw [hc] at hv
  have h45 : ('-' : Char).toNat - 48 = 0 := rfl
  rw [h45] at hv
  subst hv
  exact absurd hc (by decide)

theorem natDigits_no_dash : ∀ (fuel n : Nat), '-' ∉ natDigits fuel n := by
  intro fuel
  induction fuel with
  | zero => intro n; simp [natDigits]
  | succ fuel ih =>
    intro n
    unfold natDigits
    split
    · rename_i h
      simp only [List.mem_singleton]
      exact fun hc => digitChar_ne_dash n h hc.symm
    · simp only [List.mem_append, List.mem_singleton, not_or]
      exact ⟨ih _, fun hc => digitChar_ne_dash (n % 10) (Nat.mod_lt _ (by norm_num)) hc.symm⟩

theorem digitsValue_append (acc : Nat) (l1 l2 : List Char) :
    digitsValue acc (l1 ++ l2) = digitsValue (digitsValue acc l1) l2 := by
  induction l1 generalizing acc with
  | nil => rfl
  | cons c cs ih => exact ih (acc * 10 + (c.toNat - 48))

theorem natDigits_value : ∀ (fuel n : Nat), n < fuel → ∀ acc : Nat,
    digitsValue acc (natDigits fuel n) = acc * 10 ^ (natDigits fuel n).length + n := by
  intro fuel
  induction fuel with
  | zero => intro n h; omega
  | succ fuel ih =>
    intro n h acc
    unfold natDigits
    split
    · rename_i h10
      show acc * 10 + ((Nat.digitChar n).toNat - 48) = acc * 10 ^ 1 + n
      rw [digitChar_toNat n h10, pow_one]
    · rename_i h10
      have hlt : n / 10 < fuel := by omega
      rw [digitsValue_append, ih (n / 10) hlt acc]
      show (acc * 10 ^ (natDigits fuel (n / 10)).length + n / 10) * 10 +
        ((Nat.digitChar (n % 10)).toNat - 48) = _
      rw [digitChar_toNat (n % 10) (Nat.mod_lt _ (by norm_num)), List.length_append,
        List.length_singleton, pow_succ, ← mul_assoc]
      have := Nat.div_add_mod n 10
      generalize acc * 10 ^ (natDigits fuel (n / 10)).length = X
      omega

theorem natDigits_length_pos (fuel n : Nat) (h : n < fuel) : 0 < (natDigits fuel n).length := by
  cases fuel with
  | zero => omega
  | succ fuel =>
    unfold natDigits
    split <;> simp

theorem natDigits_inj (f1 f2 n m : Nat) (h1 : n < f1) (h2 : m < f2)
    (h : natDigits f1 n = natDigits f2 m) : n = m := by
  have e1 := natDigits_value f1 n h1 0
  have e2 := natDigits_value f2 m h2 0
  rw [h] at e1
  omega

theorem formatInt_no_dash (i : Int) (hi : 0 ≤ i) : '-' ∉ formatInt i := by
  unfold formatInt
  rw [if_neg (by omega)]
  exact natDigits_no_dash _ _

/-- The text of `%d` determines the integer. -/
theorem formatInt_inj (i j : Int) (h : formatInt i = formatInt j) : i = j := by
  unfold formatInt at h
  by_cases hi : i < 0 <;> by_cases hj : j < 0
  · rw [if_pos hi, if_pos hj] at h
    have := natDigits_inj _ _ _ _ (Nat.lt_succ_self _) (Nat.lt_succ_self _) (List.cons.inj h).2
    omega
  · rw [if_pos hi, if_neg hj] at h
    exact absurd (h ▸ List.mem_cons_self _ _) (natDigits_no_dash _ _)
  · rw [if_neg hi, if_pos hj] at h
    exact absurd (h.symm ▸ List.mem_cons_self _ _) (natDigits_no_dash _ _)
  · rw [if_neg hi, if_neg hj] at h
    have := natDigits_inj _ _ _ _ (Nat.lt_succ_self _) (Nat.lt_succ_self _) h
    omega

theorem append_dash_inj : ∀ (a b d1 d2 : List Char), '-' ∉ d1 → '-' ∉ d2 →
    a ++ '-' :: d1 = b ++ '-' :: d2 → a = b ∧ d1 = d2 := by
  intro a
  induction a with
  | nil =>
    intro b d1 d2 h1 h2 h
    cases b with
    | nil => exact ⟨rfl, (List.cons.inj h).2⟩
    | cons y b =>
      simp only [List.nil_append, List.cons_append, List.cons.injEq] at h
      exact absurd (h.2 ▸ (by simp : '-' ∈ b ++ '-' :: d2)) h1
  | cons x a ih =>
    intro b d1 d2 h1 h2 h
    cases b with
    | nil =>
      simp only [List.nil_append, List.cons_append, List.cons.injEq] at h
      exact absurd (h.2 ▸ (by simp : '-' ∈ a ++ '-' :: d1)) h2
    | cons y b =>
      simp only [List.cons_append, List.cons.injEq] at h
      obtain ⟨hab, hd⟩ := ih b d1 d2 h1 h2 h.2
      exact ⟨by rw [h.1, hab], hd⟩

/-- For window indices that are not negative the composite key determines the
user ID and the window index. -/
theorem sprintfKey_inj (u v : GoString) (i j : Int) (hi : 0 ≤ i) (hj : 0 ≤ j)
    (h : sprintfKey u i = sprintfKey v j) : u = v ∧ i = j := by
  unfold sprintfKey at h
  obtain ⟨huv, hd⟩ := append_dash_inj u v _ _ (formatInt_no_dash i hi) (formatInt_no_dash j hj) h
  exact ⟨huv, formatInt_inj i j hd⟩

/-- For one user ID the composite key determines the window index. -/
theorem sprintfKey_inj_idx (u : GoString) (i j : Int)
    (h : sprintfKey u i = sprintfKey u j) : i = j := by
  unfold sprintfKey at h
  exact formatInt_inj i j (List.cons.inj (List.append_cancel_left h)).2

/-! ## Whole seconds of a duration, to the second -/

theorem F64.add_ofInt_le (sec : Int) (w : F64) (M j : Nat) (hs0 : 0 ≤ sec) (hs1 : sec < 2 ^ 53)
    (hw0 : 0 ≤ w.num) (hM : M < 2 ^ 53)
    (h : (sec * (w.den : Int) + w.num) * 2 ^ j ≤ (M : Int) * (w.den : Int)) :
    (F64.add (F64.ofInt sec) w).num * 2 ^ j ≤
      (M : Int) * ((F64.add (F64.ofInt sec) w).den : Int) := by
  have hx := F64.ofInt_exact sec hs0 hs1
  have hX : (0 : Int) < ((F64.ofInt sec).den : Int) := by exact_mod_cast F64.den_pos _
  have hW : (0 : Int) < (w.den : Int) := by exact_mod_cast F64.den_pos _
  unfold F64.add
  rw [hx]
  generalize (F64.ofInt sec).den = X at hX ⊢
  have hnn : 0 ≤ sec * (X : Int) * (w.den : Int) + w.num * (X : Int) := by positivity
  apply F64.roundRat_le _ _ _ _ hnn (Nat.mul_pos (by exact_mod_cast hX) (F64.den_pos w)) hM
  push_cast
  have := mul_le_mul_of_nonneg_right h (le_of_lt hX)
  linarith

theorem F64.add_ofInt_ge (sec : Int) (w : F64) (M j : Nat) (hs0 : 0 ≤ sec) (hs1 : sec < 2 ^ 53)
    (hw0 : 0 ≤ w.num) (hM : M < 2 ^ 53)
    (h : (M : Int) * (w.den : Int) ≤ (sec * (w.den : Int) + w.num) * 2 ^ j) :
    (M : Int) * ((F64.add (F64.ofInt sec) w).den : Int) ≤
      (F64.add (F64.ofInt sec) w).num * 2 ^ j := by
  have hx := F64.ofInt_exact sec hs0 hs1
  have hX : (0 : Int) < ((F64.ofInt sec).den : Int) := by exact_mod_cast F64.den_pos _
  have hW : (0 : Int) < (w.den : Int) := by exact_mod_cast F64.den_pos _
  unfold F64.add
  rw [hx]
  generalize (F64.ofInt sec).den = X at hX ⊢
  have hnn : 0 ≤ sec * (X : Int) * (w.den : Int) + w.num * (X : Int) := by positivity
  apply F64.roundRat_ge _ _ _ _ hnn (Nat.mul_pos (by exact_mod_cast hX) (F64.den_pos w)) hM
  push_cast
  have := mul_le_mul_of_nonneg_right h (le_of_lt hX)
  linarith

/-- The whole seconds of a duration that is not negative are never below the
quotient of its nanoseconds by 10^9. -/
theorem wholeSeconds_ge (d : Int) (h0 : 0 ≤ d) (h1 : d ≤ 2 ^ 63) :
    d / 1000000000 ≤ (durationSeconds d).toInt := by
  unfold durationSeconds
  simp only
  rw [Int.tdiv_eq_ediv h0 (by norm_num), Int.tmod_eq_emod h0 (by norm_num)]
  have hs0 : 0 ≤ d / 1000000000 := Int.ediv_nonneg h0 (by norm_num)
  have hs1 : d / 1000000000 ≤ 9223372036 := by norm_num at h1; omega
  have hn0 : 0 ≤ d % 1000000000 := Int.emod_nonneg _ (by norm_num)
  have hn1 : d % 1000000000 < 1000000000 := Int.emod_lt_of_pos _ (by norm_num)
  generalize d / 1000000000 = sec at hs0 hs1
  generalize d % 1000000000 = nsec at hn0 hn1
  obtain ⟨hw0, -⟩ := fraction_bounds nsec hn0 hn1
  generalize F64.div (F64.ofInt nsec) (F64.ofInt 1000000000) = w at hw0
  have hW : (0 : Int) < (w.den : Int) := by exact_mod_cast F64.den_pos _
  have hsec : ((sec.toNat : Nat) : Int) = sec := Int.toNat_of_nonneg hs0
  have hge := F64.add_ofInt_ge sec w sec.toNat 0 hs0 (by norm_num; omega) hw0
    (by
      have : ((sec.toNat : Nat) : Int) < ((2 ^ 53 : Nat) : Int) := by
        rw [hsec]; norm_num; omega
      exact_mod_cast this)
    (by rw [hsec]; simp only [pow_zero, mul_one]; linarith)
  rw [hsec] at hge
  simp only [pow_zero, mul_one] at hge
  unfold F64.toInt
  have h4 := F64.den_pos (F64.add (F64.ofInt sec) w)
  generalize (F64.add (F64.ofInt sec) w).num = a at hge
  generalize (F64.add (F64.ofInt sec) w).den = b at hge h4
  have hb : (0 : Int) < (b : Int) := by exact_mod_cast h4
  have ha : 0 ≤ a := by
    have : 0 ≤ sec * (b : Int) := by positivity
    omega
  rw [Int.tdiv_eq_ediv ha (le_of_lt hb)]
  exact Int.le_ediv_of_mul_le hb hge

/-- Below 2^23 seconds (about 97 days) the whole seconds of a duration are
exactly the quotient of its nanoseconds by 10^9. -/
theorem wholeSeconds_floor (d : Int) (h0 : 0 ≤ d) (h1 : d < 8388608000000000) :
    (durationSeconds d).toInt = d / 1000000000 := by
  apply le_antisymm _ (wholeSeconds_ge d h0 (by norm_num; omega))
  unfold durationSeconds
  simp only
  rw [Int.tdiv_eq_ediv h0 (by norm_num), Int.tmod_eq_emod h0 (by norm_num)]
  have hs0 : 0 ≤ d / 1000000000 := Int.ediv_nonneg h0 (by norm_num)
  have hs1 : d / 1000000000 < 8388608 := by omega
  have hn0 : 0 ≤ d % 1000000000 := Int.emod_nonneg _ (by norm_num)
  have hn1 : d % 1000000000 < 1000000000 := Int.emod_lt_of_pos _ (by norm_num)
  generalize d / 1000000000 = sec at hs0 hs1
  generalize d % 1000000000 = nsec at hn0 hn1
  obtain ⟨hw0, -⟩ := fraction_bounds nsec hn0 hn1
  have hw30 := F64.div_ofInt_le nsec 1000000000 (2 ^ 30 - 1) 30 hn0 (by norm_num; omega)
    (by norm_num) (by norm_num) (by norm_num) (by norm_num; omega)
  generalize F64.div (F64.ofInt nsec) (F64.ofInt 1000000000) = w at hw0 hw30
  have hW : (0 : Int) < (w.den : Int) := by exact_mod_cast F64.den_pos _
  have hM : (((sec + 1) * 2 ^ 30 - 1).toNat : Int) = (sec + 1) * 2 ^ 30 - 1 :=
    Int.toNat_of_nonneg (by norm_num; omega)
  have hle := F64.add_ofInt_le sec w ((sec + 1) * 2 ^ 30 - 1).toNat 30 hs0 (by norm_num; omega) hw0
    (by
      have : ((((sec + 1) * 2 ^ 30 - 1).toNat : Nat) : Int) < ((2 ^ 53 : Nat) : Int) := by
        rw [hM]; norm_num; omega
      exact_mod_cast this)
    (by
      rw [hM]
      norm_num at hw30 ⊢
      nlinarith)
  rw [hM] at hle
  unfold F64.toInt
  have h3 : 0 ≤ (F64.add (F64.ofInt sec) w).num := by
    unfold F64.add
    apply F64.roundRat_num_nonneg
    have := F64.ofInt_num_nonneg sec hs0
    have hX : (0 : Int) ≤ ((F64.ofInt sec).den : Int) := by positivity
    positivity
  have h4 := F64.den_pos (F64.add (F64.ofInt sec) w)
  generalize (F64.add (F64.ofInt sec) w).num = a at hle h3
  generalize (F64.add (F64.ofInt sec) w).den = b at hle h4
  have hb : (0 : Int) < (b : Int) := by exact_mod_cast h4
  rw [Int.tdiv_eq_ediv h3 (le_of_lt hb)]
  have hlt : a < (sec + 1) * (b : Int) := by
    norm_num at hle
    nlinarith
  have := Int.ediv_lt_of_lt_mul hb hlt
  omega

/-- A whole number of seconds up to the largest `Duration` converts exactly. -/
theorem wholeSeconds_exact (W : Int) (h0 : 0 ≤ W) (h1 : W < 2 ^ 53) :
    (durationSeconds (W * 1000000000)).toInt = W := by
  unfold durationSeconds
  simp only
  rw [Int.mul_tdiv_cancel _ (by norm_num), Int.mul_tmod_left, F64.ofInt_zero]
  have hz : F64.div ⟨0, 0⟩ (F64.ofInt 1000000000) = ⟨0, 0⟩ := by decide
  rw [hz]
  have hsec : ((W.toNat : Nat) : Int) = W := Int.toNat_of_nonneg h0
  have hM : W.toNat < 2 ^ 53 := by
    have : ((W.toNat : Nat) : Int) < ((2 ^ 53 : Nat) : Int) := by
      rw [hsec]; exact_mod_cast h1
    exact_mod_cast this
  have hn : (⟨0, 0⟩ : F64).num = 0 := by decide
  have hd : (⟨0, 0⟩ : F64).den = 1 := by decide
  have hle := F64.add_ofInt_le W ⟨0, 0⟩ W.toNat 0 h0 h1 (by rw [hn]) hM
    (by rw [hsec, hn, hd]; simp)
  have hge := F64.add_ofInt_ge W ⟨0, 0⟩ W.toNat 0 h0 h1 (by rw [hn]) hM
    (by rw [hsec, hn, hd]; simp)
  rw [hsec] at hle hge
  simp only [pow_zero, mul_one] at hle hge
  unfold F64.toInt
  have h4 := F64.den_pos (F64.add (F64.ofInt W) ⟨0, 0⟩)
  generalize (F64.add (F64.ofInt W) ⟨0, 0⟩).num = a at hle hge
  generalize (F64.add (F64.ofInt W) ⟨0, 0⟩).den = b at hle hge h4
  have hb : (0 : Int) < (b : Int) := by exact_mod_cast h4
  have hab : a = W * (b : Int) := le_antisymm hle hge
  rw [hab]
  exact Int.mul_tdiv_cancel _ (ne_of_gt hb)

/-- The divisor of the fixed window for a window of `W` whole seconds. -/
theorem windowSeconds_whole (L W : Int) (reqs : GoString → Option Int) (running : Bool)
    (h0 : 0 ≤ W) (h1 : W < 2 ^ 53) :
    (FixedWindowLimiter.mk L (W * 1000000000) reqs running).windowSeconds = W :=
  wholeSeconds_exact W h0 h1

/-! ## Fixed window: the decision step -/

namespace FixedWindowLimiter

/-- The decision step: with a non-zero divisor `AllowRequest` returns, it
admits exactly when the stored count of the composite key is below the limit,
and it writes the map only when it admits, and then only that key. -/
theorem allow_step (fw : FixedWindowLimiter) (u : GoString) (now : Int)
    (hW : fw.windowSeconds ≠ 0) :
    ∃ fw1 ok, fw.AllowRequest u now = some (fw1, ok) ∧
      ok = decide (fw.countOf u (Int.tdiv now fw.windowSeconds) < fw.limit) ∧
      fw1.limit = fw.limit ∧ fw1.window = fw.window ∧
      fw1.requests = (if ok = true then
        Function.update fw.requests (sprintfKey u (Int.tdiv now fw.windowSeconds))
          (some (fw.countOf u (Int.tdiv now fw.windowSeconds) + 1))
        else fw.requests) := by
  unfold AllowRequest countOf
  rw [if_neg hW]
  simp only
  by_cases hc : (fw.requests (sprintfKey u (Int.tdiv now fw.windowSeconds))).getD 0 ≥ fw.limit
  · rw [if_pos hc]
    refine ⟨_, false, rfl, ?_, rfl, rfl, ?_⟩
    · simp only [Bool.false_eq, decide_eq_false_iff_not, not_lt]
      exact hc
    · simp
  · rw [if_neg hc]
    refine ⟨_, true, rfl, ?_, rfl, rfl, ?_⟩
    · simp only [Bool.true_eq, decide_eq_true_eq]
      omega
    · simp

theorem windowSeconds_congr {a b : FixedWindowLimiter} (h : a.window = b.window) :
    a.windowSeconds = b.windowSeconds := by
  unfold windowSeconds
  rw [h]

theorem countOf_update_same (reqs : GoString → Option Int) (L W : Int) (r : Bool)
    (u : GoString) (i : Int) (v : Int) :
    (FixedWindowLimiter.mk L W (Function.update reqs (sprintfKey u i) (some v)) r).countOf u i
      = v := by
  simp [countOf]

/-- A call never lowers a stored count. -/
theorem allow_count_mono (fw fw1 : FixedWindowLimiter) (u : GoString) (now : Int) (ok : Bool)
    (h : fw.AllowRequest u now = some (fw1, ok)) (v : GoString) (j : Int) :
    fw.countOf v j ≤ fw1.countOf v j := by
  have hW : fw.windowSeconds ≠ 0 := by
    intro h0
    unfold AllowRequest at h
    rw [if_pos h0] at h
    exact absurd h (by simp)
  obtain ⟨fw2, ok2, he, hok, -, -, hr⟩ := allow_step fw u now hW
  rw [h] at he
  obtain ⟨rfl, rfl⟩ := Prod.mk.inj (Option.some.inj he)
  unfold countOf at hok ⊢
  rw [hr]
  by_cases hk : ok = true
  · rw [if_pos hk]
    by_cases hkey : sprintfKey v j = sprintfKey u (Int.tdiv now fw.windowSeconds)
    · rw [hkey, Function.update_same]
      simp only [Option.getD_some, countOf]
      omega
    · rw [Function.update_noteq hkey]
  · rw [if_neg hk]

end FixedWindowLimiter

/-! ## Fixed window: executions without cleanup -/

namespace FixedWindowLimiter

/-- The decision step, per map entry. -/
theorem allow_entries (fw : FixedWindowLimiter) (u : GoString) (now : Int)
    (hW : fw.windowSeconds ≠ 0) :
    ∃ fw1 ok, fw.AllowRequest u now = some (fw1, ok) ∧
      ok = decide (fw.countOf u (Int.tdiv now fw.windowSeconds) < fw.limit) ∧
      fw1.limit = fw.limit ∧ fw1.windowSeconds = fw.windowSeconds ∧
      (∀ key, key ≠ sprintfKey u (Int.tdiv now fw.windowSeconds) →
        fw1.requests key = fw.requests key) ∧
      fw1.countOf u (Int.tdiv now fw.windowSeconds) =
        (if ok = true then fw.countOf u (Int.tdiv now fw.windowSeconds) + 1
         else fw.countOf u (Int.tdiv now fw.windowSeconds)) ∧
      (ok = true → fw1.requests (sprintfKey u (Int.tdiv now fw.windowSeconds)) =
        some (fw.countOf u (Int.tdiv now fw.windowSeconds) + 1)) ∧
      (ok = false → fw1.requests = fw.requests) := by
  obtain ⟨fw1, ok, he, hok, hl, hw, hr⟩ := allow_step fw u now hW
  refine ⟨fw1, ok, he, hok, hl, windowSeconds_congr hw, ?_, ?_, ?_, ?_⟩
  · intro key hkey
    rw [hr]
    split
    · exact Function.update_noteq hkey _ _
    · rfl
  · unfold countOf
    rw [hr]
    by_cases hk : ok = true
    · simp [hk, countOf]
    · simp [hk]
  · intro hk
    rw [hr, if_pos hk, Function.update_same]
  · intro hk
    rw [hr, if_neg (by simp [hk])]

/-- A call for one user ID leaves the counts of every other user ID, at window
indices that are not negative, as they were. -/
theorem allow_other (fw fw1 : FixedWindowLimiter) (u k : GoString) (now : Int) (ok : Bool)
    (hW : 0 < fw.windowSeconds) (hnow : 0 ≤ now) (huk : u ≠ k)
    (h : fw.AllowRequest u now = some (fw1, ok)) (j : Int) (hj : 0 ≤ j) :
    fw1.requests (sprintfKey k j) = fw.requests (sprintfKey k j) := by
  obtain ⟨fw2, ok2, he, -, -, -, hfr, -, -, -⟩ := allow_entries fw u now (ne_of_gt hW)
  rw [h] at he
  obtain ⟨rfl, rfl⟩ := Prod.mk.inj (Option.some.inj he)
  apply hfr
  intro hkey
  exact huk (sprintfKey_inj k u j _ hj (Int.tdiv_nonneg hnow (le_of_lt hW)) hkey).1.symm

/-- A call for a user ID leaves the counts of that user ID in every other
window as they were. -/
theorem allow_other_window (fw fw1 : FixedWindowLimiter) (u : GoString) (now : Int) (ok : Bool)
    (hW : fw.windowSeconds ≠ 0)
    (h : fw.AllowRequest u now = some (fw1, ok)) (j : Int)
    (hj : j ≠ Int.tdiv now fw.windowSeconds) :
    fw1.requests (sprintfKey u j) = fw.requests (sprintfKey u j) := by
  obtain ⟨fw2, ok2, he, -, -, -, hfr, -, -, -⟩ := allow_entries fw u now hW
  rw [h] at he
  obtain ⟨rfl, rfl⟩ := Prod.mk.inj (Option.some.inj he)
  apply hfr
  intro hkey
  exact hj (sprintfKey_inj_idx u _ _ hkey)

theorem run_allow_cons (fw : FixedWindowLimiter) (u : GoString) (t : Int) (rest : List FWStep) :
    fw.run (FWStep.allow u t :: rest) =
      (fw.AllowRequest u t).bind (fun p => (p.1.run rest).map (fun q => (q.1, p.2 :: q.2))) := by
  show (match fw.AllowRequest u t with
    | none => none
    | some (fw1, ok) =>
      match FixedWindowLimiter.run fw1 rest with
      | none => none
      | some (fw2, oks) => some (fw2, ok :: oks)) = _
  cases fw.AllowRequest u t with
  | none => rfl
  | some p =>
    obtain ⟨fw1, ok⟩ := p
    show (match FixedWindowLimiter.run fw1 rest with
      | none => none
      | some (fw2, oks) => some (fw2, ok :: oks)) =
        Option.map (fun q => (q.1, ok :: q.2)) (FixedWindowLimiter.run fw1 rest)
    cases fw1.run rest with
    | none => rfl
    | some q => rfl

theorem fwResultsFor_allow (k u : GoString) (t : Int) (steps : List FWStep) (ok : Bool)
    (oks : List Bool) :
    fwResultsFor k (FWStep.allow u t :: steps) (ok :: oks) =
      if u = k then ok :: fwResultsFor k steps oks else fwResultsFor k steps oks := rfl

theorem fwCallsOf_allow (k u : GoString) (t : Int) (steps : List FWStep) :
    fwCallsOf k (FWStep.allow u t :: steps) =
      if u = k then t :: fwCallsOf k steps else fwCallsOf k steps := rfl

theorem run_cleanup_cons (fw : FixedWindowLimiter) (t : Int) (rest : List FWStep) :
    fw.run (FWStep.cleanup t :: rest) =
      FixedWindowLimiter.run (if fw.cleanupRunning then fw.cleanupExpiredKeys t else fw) rest :=
  rfl

theorem fw_run_append (a b : List FWStep) : ∀ (fw : FixedWindowLimiter),
    fw.run (a ++ b) =
      (fw.run a).bind (fun p => (p.1.run b).map (fun q => (q.1, p.2 ++ q.2))) := by
  induction a with
  | nil =>
    intro fw
    rw [List.nil_append]
    show fw.run b = Option.bind (some (fw, [])) _
    rw [Option.some_bind]
    cases fw.run b with
    | none => rfl
    | some q => rfl
  | cons s rest ih =>
    intro fw
    cases s with
    | allow u t =>
      rw [List.cons_append, run_allow_cons, run_allow_cons]
      cases hA : fw.AllowRequest u t with
      | none => rfl
      | some p =>
        obtain ⟨fw1, ok⟩ := p
        simp only [Option.some_bind, ih fw1]
        cases h1 : fw1.run rest with
        | none => rfl
        | some q =>
          obtain ⟨fw2, oks⟩ := q
          simp only [Option.some_bind, Option.map_some']
          cases h2 : fw2.run b with
          | none => rfl
          | some r => rfl
    | cleanup t =>
      rw [List.cons_append, run_cleanup_cons, run_cleanup_cons]
      exact ih _

/-- Calls of one user ID that fall into one window, calls of other user IDs in
between, no cleanup: the call number `i` of the user ID (from 0) is admitted
exactly when the stored count of that window plus `i` is below the limit. -/
theorem fw_burst (k : GoString) (j W : Int) (hW : 0 < W) (hj : 0 ≤ j) :
    ∀ (steps : List FWStep) (fw : FixedWindowLimiter), fw.windowSeconds = W →
      (∀ s ∈ steps, ∃ u t, s = FWStep.allow u t ∧ 0 ≤ t ∧ (u = k → Int.tdiv t W = j)) →
      ∃ fw1 oks, fw.run steps = some (fw1, oks) ∧
        fwResultsFor k steps oks =
          (List.range (fwCallsOf k steps).length).map
            (fun (i : Nat) => decide (fw.countOf k j + (i : Int) < fw.limit)) ∧
        fw1.windowSeconds = W ∧ fw1.limit = fw.limit ∧
        (∀ j1, 0 ≤ j1 → j1 ≠ j →
          fw1.requests (sprintfKey k j1) = fw.requests (sprintfKey k j1)) := by
  intro steps
  induction steps with
  | nil =>
    intro fw hw _
    exact ⟨fw, [], rfl, by simp [fwResultsFor, fwCallsOf], hw, rfl, fun _ _ _ => rfl⟩
  | cons s rest ih =>
    intro fw hw hs
    obtain ⟨u, t, rfl, ht, hut⟩ := hs s (List.mem_cons_self _ _)
    have hrest : ∀ s ∈ rest, ∃ u t, s = FWStep.allow u t ∧ 0 ≤ t ∧
        (u = k → Int.tdiv t W = j) := fun s1 hs1 => hs s1 (List.mem_cons_of_mem _ hs1)
    have hW0 : fw.windowSeconds ≠ 0 := by rw [hw]; exact ne_of_gt hW
    obtain ⟨fw1, ok, he, hok, hl, hw1, hfr, hcnt, -, -⟩ := allow_entries fw u t hW0
    rw [hw] at hok hfr hcnt hw1
    obtain ⟨fw2, oks, hrun, hres, hw2, hl2, hfr2⟩ := ih fw1 hw1 hrest
    refine ⟨fw2, ok :: oks, ?_, ?_, hw2, by rw [hl2, hl], ?_⟩
    · rw [run_allow_cons, he, Option.some_bind, hrun]
      rfl
    · rw [fwResultsFor_allow, fwCallsOf_allow]
      by_cases hk : u = k
      · rw [if_pos hk, if_pos hk, hres, List.length_cons, List.range_succ_eq_map,
          List.map_cons, List.map_map, hl]
        rw [hk, hut hk] at hok hcnt
        congr 1
        · rw [hok]
          simp
        · simp only [List.map_inj_left, Function.comp, Nat.cast_succ, decide_eq_decide]
          intro a _
          rw [hcnt]
          by_cases hok1 : ok = true
          · rw [if_pos hok1]
            omega
          · rw [if_neg hok1]
            have : ¬ fw.countOf k j < fw.limit := by
              intro hlt
              exact hok1 (by rw [hok]; simpa using hlt)
            omega
      · have hsame : fw1.countOf k j = fw.countOf k j := by
          unfold countOf
          rw [hfr]
          intro hkey
          exact hk (sprintfKey_inj k u j _ hj (Int.tdiv_nonneg ht (le_of_lt hW)) hkey).1.symm
        rw [if_neg hk, if_neg hk, hres, hsame, hl]
    · intro j1 hj1 hne
      rw [hfr2 j1 hj1 hne]
      apply hfr
      intro hkey
      by_cases hk : u = k
      · subst hk
        rw [hut rfl] at hkey
        exact hne (sprintfKey_inj_idx u _ _ hkey)
      · exact hk (sprintfKey_inj k u j1 _ hj1 (Int.tdiv_nonneg ht (le_of_lt hW)) hkey).1.symm

end FixedWindowLimiter

/-! ## Fixed window: two adjacent windows -/

theorem ediv_span (lo t W : Int) (hW : 0 < W) (h1 : lo ≤ t) (h2 : t < lo + W) :
    t / W = lo / W ∨ t / W = lo / W + 1 := by
  have ha : lo / W * W ≤ lo := Int.ediv_mul_le lo (ne_of_gt hW)
  have hb : lo < (lo / W + 1) * W := Int.lt_ediv_add_one_mul_self lo hW
  have hc : lo / W ≤ t / W := Int.le_ediv_of_mul_le hW (by omega)
  have hd : t / W < lo / W + 2 := by
    apply Int.ediv_lt_of_lt_mul hW
    have : (lo / W + 2) * W = (lo / W + 1) * W + W := by ring
    omega
  omega

/-- Clock readings that span less than one window length fall into at most
two adjacent windows. -/
theorem tdiv_span (lo t W : Int) (hW : 0 < W) (h1 : lo ≤ t) (h2 : t < lo + W) :
    Int.tdiv t W = Int.tdiv lo W ∨ Int.tdiv t W = Int.tdiv lo W + 1 := by
  by_cases hlo : 0 ≤ lo
  · rw [Int.tdiv_eq_ediv (by omega) (le_of_lt hW), Int.tdiv_eq_ediv hlo (le_of_lt hW)]
    exact ediv_span lo t W hW h1 h2
  · have hlo1 : Int.tdiv lo W = -((-lo) / W) := by
      have h := Int.neg_tdiv (-lo) W
      rw [neg_neg] at h
      rw [h, Int.tdiv_eq_ediv (by omega) (le_of_lt hW)]
    by_cases ht : 0 ≤ t
    · rw [Int.tdiv_eq_zero_of_lt ht (by omega), hlo1,
        Int.ediv_eq_zero_of_lt (by omega) (by omega)]
      simp
    · have ht1 : Int.tdiv t W = -((-t) / W) := by
        have h := Int.neg_tdiv (-t) W
        rw [neg_neg] at h
        rw [h, Int.tdiv_eq_ediv (by omega) (le_of_lt hW)]
      rw [hlo1, ht1]
      have := ediv_span (-t) (-lo) W hW (by omega) (by omega)
      omega

namespace FixedWindowLimiter

/-- Calls of one user ID that fall into two adjacent windows, calls of other
user IDs in between, no cleanup: every admitted call of the user ID raises
the part of the two stored counts that lies below the limit. -/
theorem fw_two_windows (k : GoString) (j0 W : Int) (hW : 0 < W) :
    ∀ (steps : List FWStep) (fw : FixedWindowLimiter), fw.windowSeconds = W →
      (∀ s ∈ steps, s.isAllow = true) →
      (∀ t ∈ fwCallsOf k steps, Int.tdiv t W = j0 ∨ Int.tdiv t W = j0 + 1) →
      ∃ fw1 oks, fw.run steps = some (fw1, oks) ∧ fw1.limit = fw.limit ∧
        ((fwResultsFor k steps oks).count true : Int) +
            (min (fw.countOf k j0) fw.limit + min (fw.countOf k (j0 + 1)) fw.limit) ≤
          min (fw1.countOf k j0) fw.limit + min (fw1.countOf k (j0 + 1)) fw.limit := by
  intro steps
  induction steps with
  | nil =>
    intro fw hw _ _
    exact ⟨fw, [], rfl, rfl, by simp [fwResultsFor]⟩
  | cons s rest ih =>
    intro fw hw hs ht
    cases s with
    | cleanup t => exact absurd (hs _ (List.mem_cons_self _ _)) (by simp [FWStep.isAllow])
    | allow u t =>
      have hW0 : fw.windowSeconds ≠ 0 := by rw [hw]; exact ne_of_gt hW
      obtain ⟨fw1, ok, he, hok, hl, hw1, -, hcnt, -, -⟩ := allow_entries fw u t hW0
      rw [hw] at hok hcnt hw1
      have hm0 := allow_count_mono fw fw1 u t ok he k j0
      have hm1 := allow_count_mono fw fw1 u t ok he k (j0 + 1)
      rw [fwCallsOf_allow] at ht
      have hrest : ∀ t ∈ fwCallsOf k rest, Int.tdiv t W = j0 ∨ Int.tdiv t W = j0 + 1 := by
        intro t1 ht1
        apply ht
        split
        · exact List.mem_cons_of_mem _ ht1
        · exact ht1
      obtain ⟨fw2, oks, hrun, hl2, hle⟩ := ih fw1 hw1
        (fun s1 hs1 => hs s1 (List.mem_cons_of_mem _ hs1)) hrest
      refine ⟨fw2, ok :: oks, ?_, by rw [hl2, hl], ?_⟩
      · rw [run_allow_cons, he, Option.some_bind, hrun]
        rfl
      · rw [fwResultsFor_allow]
        rw [hl] at hle
        by_cases hk : u = k
        · rw [if_pos hk]
          rw [if_pos hk] at ht
          have hidx := ht t (List.mem_cons_self _ _)
          rw [hk] at hok hcnt
          cases ok with
          | false =>
            rw [List.count_cons_of_ne (by simp)]
            omega
          | true =>
            rw [List.count_cons_self]
            have hlt : fw.countOf k (Int.tdiv t W) < fw.limit := by simpa using hok.symm
            simp only [if_true] at hcnt
            push_cast
            rcases hidx with hi | hi
            · rw [hi] at hcnt hlt
              omega
            · rw [hi] at hcnt hlt
              omega
        · rw [if_neg hk]
          omega

/-- Stored counts are never negative in a state reached from a state without
negative counts. -/
theorem fw_counts_nonneg : ∀ (steps : List FWStep) (fw fw1 : FixedWindowLimiter)
    (oks : List Bool), (∀ key n, fw.requests key = some n → 0 ≤ n) →
    fw.run steps = some (fw1, oks) → ∀ key n, fw1.requests key = some n → 0 ≤ n := by
  intro steps
  induction steps with
  | nil =>
    intro fw fw1 oks h0 hrun
    obtain ⟨rfl, -⟩ := Prod.mk.inj (Option.some.inj hrun)
    exact h0
  | cons s rest ih =>
    intro fw fw1 oks h0 hrun
    cases s with
    | allow u t =>
      rw [run_allow_cons] at hrun
      cases hA : fw.AllowRequest u t with
      | none => rw [hA] at hrun; exact absurd hrun (by simp)
      | some p =>
        obtain ⟨fwa, ok⟩ := p
        rw [hA, Option.some_bind] at hrun
        cases hR : fwa.run rest with
        | none => rw [hR] at hrun; exact absurd hrun (by simp)
        | some q =>
          obtain ⟨fwb, oksb⟩ := q
          rw [hR] at hrun
          obtain ⟨rfl, -⟩ := Prod.mk.inj (Option.some.inj hrun)
          apply ih fwa _ oksb _ hR
          have hW : fw.windowSeconds ≠ 0 := by
            intro h0
            unfold AllowRequest at hA
            rw [if_pos h0] at hA
            exact absurd hA (by simp)
          obtain ⟨fw2, ok2, he, -, -, -, hr⟩ := allow_step fw u t hW
          rw [hA] at he
          obtain ⟨rfl, rfl⟩ := Prod.mk.inj (Option.some.inj he)
          intro key n hkey
          rw [hr] at hkey
          split at hkey
          · by_cases hk : key = sprintfKey u (Int.tdiv t fw.windowSeconds)
            · rw [hk, Function.update_same] at hkey
              have := Option.some.inj hkey
              have hc : 0 ≤ fw.countOf u (Int.tdiv t fw.windowSeconds) := by
                unfold countOf
                cases hq : fw.requests (sprintfKey u (Int.tdiv t fw.windowSeconds)) with
                | none => simp
                | some m => simpa using h0 _ m hq
              omega
            · rw [Function.update_noteq hk] at hkey
              exact h0 key n hkey
          · exact h0 key n hkey
    | cleanup t =>
      rw [run_cleanup_cons] at hrun
      apply ih _ fw1 oks _ hrun
      split
      · intro key n hkey
        unfold cleanupExpiredKeys at hkey
        simp only at hkey
        cases hq : fw.requests key with
        | none => rw [hq] at hkey; exact absurd hkey (by simp)
        | some m =>
          rw [hq] at hkey
          simp only at hkey
          split at hkey
          · exact absurd hkey (by simp)
          · have := Option.some.inj hkey
            have := h0 key m hq
            omega
      · exact h0

end FixedWindowLimiter

/-! ## Fixed window: results of two bursts in a row -/

theorem range_map_all_true (n : Nat) (c L : Int) (h : c + (n : Int) ≤ L) :
    (List.range n).map (fun (i : Nat) => decide (c + (i : Int) < L)) = List.replicate n true := by
  rw [List.eq_replicate_iff]
  refine ⟨by simp, ?_⟩
  intro b hb
  simp only [List.mem_map, List.mem_range] at hb
  obtain ⟨i, hi, rfl⟩ := hb
  simp only [decide_eq_true_eq]
  omega

theorem fwCallsOf_replicate (k : GoString) (t : Int) (n : Nat) :
    fwCallsOf k (List.replicate n (FWStep.allow k t)) = List.replicate n t := by
  induction n with
  | zero => rfl
  | succ n ih => rw [List.replicate_succ, FixedWindowLimiter.fwCallsOf_allow, if_pos rfl, ih,
      List.replicate_succ]

theorem fwResultsFor_replicate (k : GoString) (t : Int) : ∀ (n : Nat) (oks : List Bool),
    oks.length = n → fwResultsFor k (List.replicate n (FWStep.allow k t)) oks = oks := by
  intro n
  induction n with
  | zero =>
    intro oks h
    rw [List.length_eq_zero.mp h]
    rfl
  | succ n ih =>
    intro oks h
    cases oks with
    | nil => simp at h
    | cons ok oks =>
      rw [List.replicate_succ, FixedWindowLimiter.fwResultsFor_allow, if_pos rfl,
        ih oks (by simpa using h)]

namespace FixedWindowLimiter

/-- An execution of calls only returns one result per call. -/
theorem fw_run_length : ∀ (steps : List FWStep) (fw fw1 : FixedWindowLimiter) (oks : List Bool),
    (∀ s ∈ steps, s.isAllow = true) → fw.run steps = some (fw1, oks) →
    oks.length = steps.length := by
  intro steps
  induction steps with
  | nil =>
    intro fw fw1 oks _ hrun
    obtain ⟨-, rfl⟩ := Prod.mk.inj (Option.some.inj hrun)
    rfl
  | cons s rest ih =>
    intro fw fw1 oks hs hrun
    cases s with
    | cleanup t => exact absurd (hs _ (List.mem_cons_self _ _)) (by simp [FWStep.isAllow])
    | allow u t =>
      rw [run_allow_cons] at hrun
      cases hA : fw.AllowRequest u t with
      | none => rw [hA] at hrun; exact absurd hrun (by simp)
      | some p =>
        obtain ⟨fwa, ok⟩ := p
        rw [hA, Option.some_bind] at hrun
        cases hR : fwa.run rest with
        | none => rw [hR] at hrun; exact absurd hrun (by simp)
        | some q =>
          obtain ⟨fwb, oksb⟩ := q
          rw [hR] at hrun
          obtain ⟨-, rfl⟩ := Prod.mk.inj (Option.some.inj hrun)
          have := ih fwa fwb oksb (fun s1 hs1 => hs s1 (List.mem_cons_of_mem _ hs1)) hR
          simp [this]

/-- A burst of `n` calls of one user ID in the last second of a window followed
by `n` calls in the first second of the next window, `n` at most the limit,
on a limiter that has no entry for either window: all `2 n` are admitted. -/
theorem fw_edge (k : GoString) (W : Int) (n : Nat) (fw : FixedWindowLimiter) (hW : 2 ≤ W)
    (hw : fw.windowSeconds = W) (hn : (n : Int) ≤ fw.limit)
    (h0 : fw.requests (sprintfKey k 0) = none) (h1 : fw.requests (sprintfKey k 1) = none) :
    ∃ fw1, fw.run (List.replicate n (FWStep.allow k (W - 1)) ++
        List.replicate n (FWStep.allow k W)) = some (fw1, List.replicate (n + n) true) := by
  have hidx0 : Int.tdiv (W - 1) W = 0 := Int.tdiv_eq_zero_of_lt (by omega) (by omega)
  have hidx1 : Int.tdiv W W = 1 := Int.tdiv_self (by omega)
  have hA : ∀ s ∈ List.replicate n (FWStep.allow k (W - 1)),
      ∃ u t, s = FWStep.allow u t ∧ 0 ≤ t ∧ (u = k → Int.tdiv t W = 0) := by
    intro s hs
    rw [List.eq_of_mem_replicate hs]
    exact ⟨k, W - 1, rfl, by omega, fun _ => hidx0⟩
  have hB : ∀ s ∈ List.replicate n (FWStep.allow k W),
      ∃ u t, s = FWStep.allow u t ∧ 0 ≤ t ∧ (u = k → Int.tdiv t W = 1) := by
    intro s hs
    rw [List.eq_of_mem_replicate hs]
    exact ⟨k, W, rfl, by omega, fun _ => hidx1⟩
  obtain ⟨fwa, oksa, hrunA, hresA, hwa, hla, hfrA⟩ :=
    fw_burst k 0 W (by omega) (le_refl _) _ fw hw hA
  have hlenA := fw_run_length _ fw fwa oksa (by
    intro s hs
    rw [List.eq_of_mem_replicate hs]
    rfl) hrunA
  rw [List.length_replicate] at hlenA
  rw [fwResultsFor_replicate k _ n oksa hlenA, fwCallsOf_replicate, List.length_replicate] at hresA
  have hc0 : fw.countOf k 0 = 0 := by unfold countOf; rw [h0]; rfl
  rw [hc0, range_map_all_true n 0 fw.limit (by omega)] at hresA
  obtain ⟨fwb, oksb, hrunB, hresB, hwb, hlb, hfrB⟩ :=
    fw_burst k 1 W (by omega) (by norm_num) _ fwa hwa hB
  have hlenB := fw_run_length _ fwa fwb oksb (by
    intro s hs
    rw [List.eq_of_mem_replicate hs]
    rfl) hrunB
  rw [List.length_replicate] at hlenB
  rw [fwResultsFor_replicate k _ n oksb hlenB, fwCallsOf_replicate, List.length_replicate] at hresB
  have hc1 : fwa.countOf k 1 = 0 := by
    unfold countOf
    rw [hfrA 1 (by norm_num) (by norm_num), h1]
    rfl
  rw [hc1, hla, range_map_all_true n 0 fw.limit (by omega)] at hresB
  refine ⟨fwb, ?_⟩
  rw [fw_run_append, hrunA, Option.some_bind]
  simp only
  rw [hrunB, hresA, hresB, Option.map_some', List.replicate_add]

end FixedWindowLimiter

/-! ## Token bucket: the refill after a wait -/

theorem timeSub_of_range (t u : Int) (h0 : -9223372036854775808 ≤ t - u)
    (h1 : t - u ≤ 9223372036854775807) : timeSub t u = t - u := by
  unfold timeSub
  rw [if_neg (by omega), if_neg (by omega)]

theorem timeSub_ge (t u : Int) (h : 1000000000 ≤ t - u) : 1000000000 ≤ timeSub t u := by
  unfold timeSub
  split
  · norm_num
  · rw [if_neg (by omega)]
    exact h

namespace TokenBucketLimiter

theorem refill_last (tb : TokenBucketLimiter) (b : TokenBucket) (now : Int) :
    (tb.refill b now).lastRefilled = b.lastRefilled ∨ (tb.refill b now).lastRefilled = now := by
  unfold refill
  split
  · exact Or.inr rfl
  · exact Or.inl rfl

/-- Every stored `lastRefilled` is one of the earlier clock readings. -/
theorem lastRefilled_le_run (T : Int) : ∀ (steps : List TBStep) (tb : TokenBucketLimiter),
    (∀ k b, tb.users k = some b → b.lastRefilled ≤ T) →
    (∀ s ∈ steps, s.created ≤ T ∧ s.now ≤ T) →
    ∀ k b, (tb.run steps).1.users k = some b → b.lastRefilled ≤ T := by
  intro steps
  induction steps with
  | nil => intro tb h _; exact h
  | cons s rest ih =>
    intro tb h hs
    obtain ⟨hc, hn⟩ := hs s (List.mem_cons_self _ _)
    apply ih _ _ (fun s1 hs1 => hs s1 (List.mem_cons_of_mem _ hs1))
    intro k1 b hb
    rw [allow_users] at hb
    by_cases hk : k1 = s.userID
    · rw [if_pos hk] at hb
      have hbase : ((tb.users s.userID).getD ⟨tb.capacity, s.created⟩).lastRefilled ≤ T := by
        cases hu : tb.users s.userID with
        | none => simpa using hc
        | some b0 => simpa using h _ b0 hu
      have hre := refill_last tb ((tb.users s.userID).getD ⟨tb.capacity, s.created⟩) s.now
      have hb1 := Option.some.inj hb
      rw [← hb1]
      split
      · show (tb.refill ((tb.users s.userID).getD ⟨tb.capacity, s.created⟩) s.now).lastRefilled
          ≤ T
        omega
      · omega
    · rw [if_neg hk] at hb
      exact h k1 b hb

/-- A call at least one second after the last refill of its bucket is
admitted. -/
theorem allow_after_second (tb : TokenBucketLimiter) (hC : 1 ≤ tb.capacity)
    (hr : 1 ≤ tb.refillRate) (hno : tb.capacity + 9223372037 * tb.refillRate < 2 ^ 63)
    (h : ∀ k b, tb.users k = some b → 0 ≤ b.tokens ∧ b.tokens ≤ tb.capacity)
    (k : GoString) (c now T : Int)
    (hT : ∀ b, tb.users k = some b → b.lastRefilled ≤ T) (hnow : T + 1000000000 ≤ now) :
    (tb.AllowRequest k c now).2 = true := by
  rw [allow_ok]
  simp only [gt_iff_lt, decide_eq_true_eq]
  by_contra hneg
  cases hu : tb.users k with
  | none =>
    rw [hu] at hneg
    simp only [Option.getD_none] at hneg
    obtain ⟨-, -, h3⟩ := refill_spec tb hC (by omega) hno ⟨tb.capacity, c⟩ (by simp; omega)
      (by simp) now
    rw [h3 (by omega)] at hneg
    simp only at hneg
    omega
  | some b =>
    rw [hu] at hneg
    simp only [Option.getD_some] at hneg
    obtain ⟨hb0, hb1⟩ := h k b hu
    have hlast := hT b hu
    obtain ⟨-, -, h3⟩ := refill_spec tb hC (by omega) hno b hb0 hb1 now
    have heq := h3 (by omega)
    obtain ⟨hnt, -⟩ := newTokens_exact tb (9223372037 * tb.refillRate) (by omega) (le_refl _)
      (by linarith) b.lastRefilled now
    obtain ⟨-, hr1⟩ := timeSub_range now b.lastRefilled
    have hd := timeSub_ge now b.lastRefilled (by omega)
    have hs := wholeSeconds_ge (timeSub now b.lastRefilled) (by omega) hr1
    have hs1 : 1 ≤ (durationSeconds (timeSub now b.lastRefilled)).toInt := by omega
    have hpos : tb.newTokens b.lastRefilled now > 0 := by
      rw [hnt]
      have := mul_le_mul hs1 hr (by norm_num) (by omega)
      omega
    unfold refill at heq
    rw [if_pos hpos] at heq
    have := congrArg TokenBucket.lastRefilled heq
    simp only at this
    omega

end TokenBucketLimiter

/-! ## Token bucket: the budget of admitted calls -/

theorem wrap64_le (x : Int) (h : -2 ^ 63 ≤ x) : wrap64 x ≤ x := by
  unfold wrap64
  norm_num at h
  omega

theorem wrap64_ge (x : Int) : -2 ^ 63 ≤ wrap64 x := by
  unfold wrap64
  norm_num
  omega

namespace TokenBucketLimiter

/-- A refill adds at most `refillRate` tokens per whole second that
`lastRefilled` advances, as long as the bucket is younger than 2^23 s. -/
theorem refill_budget (tb : TokenBucketLimiter) (hC : 1 ≤ tb.capacity) (hr : 0 ≤ tb.refillRate)
    (b : TokenBucket) (t0 now : Int) (hb : -2 ^ 63 ≤ b.tokens) (h0 : t0 ≤ b.lastRefilled)
    (h1 : b.lastRefilled ≤ now) (hspan : now - t0 < 8388608000000000) :
    -2 ^ 63 ≤ (tb.refill b now).tokens ∧ t0 ≤ (tb.refill b now).lastRefilled ∧
      (tb.refill b now).lastRefilled ≤ now ∧
      max (tb.refill b now).tokens 0 -
          tb.refillRate * (((tb.refill b now).lastRefilled - t0) / 1000000000) ≤
        max b.tokens 0 - tb.refillRate * ((b.lastRefilled - t0) / 1000000000) := by
  unfold refill
  split
  · rename_i hpos
    simp only
    have hts : timeSub now b.lastRefilled = now - b.lastRefilled :=
      timeSub_of_range _ _ (by omega) (by omega)
    have hs : (durationSeconds (timeSub now b.lastRefilled)).toInt =
        (now - b.lastRefilled) / 1000000000 := by
      rw [hts]
      exact wholeSeconds_floor _ (by omega) (by omega)
    have hnt : tb.newTokens b.lastRefilled now =
        wrap64 ((now - b.lastRefilled) / 1000000000 * tb.refillRate) := by
      unfold newTokens
      rw [hs]
    have hs0 : 0 ≤ (now - b.lastRefilled) / 1000000000 := by omega
    have hsr : 0 ≤ (now - b.lastRefilled) / 1000000000 * tb.refillRate := mul_nonneg hs0 hr
    have hle := wrap64_le ((now - b.lastRefilled) / 1000000000 * tb.refillRate)
      (by norm_num; omega)
    rw [← hnt] at hle
    have hw1 := wrap64_le (b.tokens + tb.newTokens b.lastRefilled now) (by
      norm_num at hb ⊢
      omega)
    have hw2 := wrap64_ge (b.tokens + tb.newTokens b.lastRefilled now)
    have hQ : (b.lastRefilled - t0) / 1000000000 + (now - b.lastRefilled) / 1000000000 ≤
        (now - t0) / 1000000000 := by omega
    have hmul := mul_le_mul_of_nonneg_left hQ hr
    rw [mul_add, mul_comm tb.refillRate ((now - b.lastRefilled) / 1000000000)] at hmul
    generalize tb.refillRate * ((b.lastRefilled - t0) / 1000000000) = A at hmul ⊢
    generalize tb.refillRate * ((now - t0) / 1000000000) = B at hmul ⊢
    generalize (now - b.lastRefilled) / 1000000000 * tb.refillRate = P at hmul hle hsr
    generalize wrap64 (b.tokens + tb.newTokens b.lastRefilled now) = Y at hw1 hw2 ⊢
    norm_num at hb hw2 ⊢
    omega
  · refine ⟨hb, h0, h1, le_refl _⟩

/-- One call of a key: what it admits is paid from the budget of its bucket. -/
theorem kstep_budget (tb : TokenBucketLimiter) (hC : 1 ≤ tb.capacity) (hr : 0 ≤ tb.refillRate)
    (k : GoString) (c now t0 : Int) (b : TokenBucket)
    (hbk : (tb.users k).getD ⟨tb.capacity, c⟩ = b) (hb : -2 ^ 63 ≤ b.tokens)
    (h0 : t0 ≤ b.lastRefilled) (h1 : b.lastRefilled ≤ now)
    (hspan : now - t0 < 8388608000000000) :
    ∃ b2, (tb.AllowRequest k c now).1.users k = some b2 ∧ -2 ^ 63 ≤ b2.tokens ∧
      t0 ≤ b2.lastRefilled ∧ b2.lastRefilled ≤ now ∧
      (if (tb.AllowRequest k c now).2 = true then (1 : Int) else 0) + max b2.tokens 0 -
          tb.refillRate * ((b2.lastRefilled - t0) / 1000000000) ≤
        max b.tokens 0 - tb.refillRate * ((b.lastRefilled - t0) / 1000000000) := by
  obtain ⟨ha, hb0, hb1, hbud⟩ := refill_budget tb hC hr b t0 now hb h0 h1 hspan
  rw [allow_users, allow_ok, hbk, if_pos rfl]
  by_cases hpos : (tb.refill b now).tokens > 0
  · rw [if_pos hpos]
    refine ⟨_, rfl, ?_, hb0, hb1, ?_⟩
    · show -2 ^ 63 ≤ (tb.refill b now).tokens - 1
      norm_num
      omega
    · show (if decide ((tb.refill b now).tokens > 0) = true then (1 : Int) else 0) +
        max ((tb.refill b now).tokens - 1) 0 -
          tb.refillRate * (((tb.refill b now).lastRefilled - t0) / 1000000000) ≤ _
      rw [if_pos (by simpa using hpos)]
      generalize tb.refillRate * (((tb.refill b now).lastRefilled - t0) / 1000000000) = A
        at hbud ⊢
      omega
  · rw [if_neg hpos]
    refine ⟨_, rfl, ha, hb0, hb1, ?_⟩
    rw [if_neg (by simpa using hpos)]
    omega

theorem resultsFor_cons (k : GoString) (s : TBStep) (steps : List TBStep) (ok : Bool)
    (oks : List Bool) :
    resultsFor k (s :: steps) (ok :: oks) =
      if s.userID = k then ok :: resultsFor k steps oks else resultsFor k steps oks := rfl

theorem run_cons (tb : TokenBucketLimiter) (s : TBStep) (rest : List TBStep) :
    tb.run (s :: rest) =
      (((tb.AllowRequest s.userID s.created s.now).1.run rest).1,
        (tb.AllowRequest s.userID s.created s.now).2 ::
          ((tb.AllowRequest s.userID s.created s.now).1.run rest).2) := rfl

/-- From a state that holds the bucket of the key: the admitted calls of the
key are paid from what the bucket holds and what the remaining whole seconds
refill. -/
theorem budget_run (k : GoString) (t0 T C r : Int) (hC : 1 ≤ C) (hr : 0 ≤ r)
    (hspan : T - t0 < 8388608000000000) :
    ∀ (steps : List TBStep) (tb : TokenBucketLimiter) (b : TokenBucket) (lo : Int),
      tb.capacity = C → tb.refillRate = r → tb.users k = some b → -2 ^ 63 ≤ b.tokens →
      t0 ≤ b.lastRefilled → b.lastRefilled ≤ lo →
      (lo :: (tbReadings steps ++ [T])).Pairwise (· ≤ ·) →
      ((resultsFor k steps (tb.run steps).2).count true : Int) ≤
        max b.tokens 0 - r * ((b.lastRefilled - t0) / 1000000000) +
          r * ((T - t0) / 1000000000) := by
  intro steps
  induction steps with
  | nil =>
    intro tb b lo _ _ _ hb h0 h1 hp
    have hloT : lo ≤ T := (List.pairwise_cons.mp hp).1 T (by simp [tbReadings])
    have hQ : (b.lastRefilled - t0) / 1000000000 ≤ (T - t0) / 1000000000 := by omega
    have := mul_le_mul_of_nonneg_left hQ hr
    simp only [resultsFor, List.count_nil, Nat.cast_zero]
    omega
  | cons s rest ih =>
    intro tb b lo hcap hrate hu hb h0 h1 hp
    have hp1 : (lo :: s.created :: s.now :: (tbReadings rest ++ [T])).Pairwise (· ≤ ·) := hp
    have hlo_c : lo ≤ s.created := List.rel_of_pairwise_cons hp1 (by simp)
    have hlo_n : lo ≤ s.now := List.rel_of_pairwise_cons hp1 (by simp)
    have hp2 : (s.now :: (tbReadings rest ++ [T])).Pairwise (· ≤ ·) :=
      (List.pairwise_cons.mp (List.pairwise_cons.mp hp1).2).2
    have hnT : s.now ≤ T := List.rel_of_pairwise_cons hp2 (by simp)
    rw [run_cons, resultsFor_cons]
    by_cases hk : s.userID = k
    · rw [if_pos hk, hk]
      obtain ⟨b2, hu2, hb2, h02, h12, hbud⟩ := kstep_budget tb (by rw [hcap]; exact hC)
        (by rw [hrate]; exact hr) k s.created s.now t0 b (by rw [hu]; rfl) hb h0 (by omega)
        (by omega)
      have hih := ih (tb.AllowRequest k s.created s.now).1 b2 s.now
        (by rw [allow_capacity]; exact hcap) (by rw [allow_refillRate]; exact hrate) hu2 hb2
        h02 h12 hp2
      rw [hrate] at hbud
      generalize r * ((b2.lastRefilled - t0) / 1000000000) = A2 at hbud hih
      generalize r * ((b.lastRefilled - t0) / 1000000000) = A at hbud ⊢
      generalize r * ((T - t0) / 1000000000) = B at hih ⊢
      cases hok : (tb.AllowRequest k s.created s.now).2 with
      | true =>
        rw [hok] at hbud
        rw [List.count_cons_self]
        simp only [if_true] at hbud
        push_cast
        omega
      | false =>
        rw [hok] at hbud
        rw [List.count_cons_of_ne (by simp)]
        simp only [Bool.false_eq_true, if_false] at hbud
        omega
    · rw [if_neg hk]
      have hu2 : (tb.AllowRequest s.userID s.created s.now).1.users k = some b := by
        rw [allow_users, if_neg (fun h => hk h.symm)]
        exact hu
      exact ih _ b s.now (by rw [allow_capacity]; exact hcap)
        (by rw [allow_refillRate]; exact hrate) hu2 hb h0 (by omega) hp2

/-- From a state without a bucket of the key, the bucket being created at the
reading `t0`: the admitted calls of the key are at most the capacity plus the
refill rate for every whole second since `t0`. -/
theorem budget_fresh (k : GoString) (t0 T C r : Int) (hC : 1 ≤ C) (hr : 0 ≤ r)
    (hspan : T - t0 < 8388608000000000) :
    ∀ (steps : List TBStep) (tb : TokenBucketLimiter),
      tb.capacity = C → tb.refillRate = r → tb.users k = none →
      ((steps.filter (fun s => decide (s.userID = k))).head?).map TBStep.created = some t0 →
      (tbReadings steps ++ [T]).Pairwise (· ≤ ·) →
      ((resultsFor k steps (tb.run steps).2).count true : Int) ≤
        C + r * ((T - t0) / 1000000000) := by
  intro steps
  induction steps with
  | nil =>
    intro tb _ _ _ hfirst _
    simp at hfirst
  | cons s rest ih =>
    intro tb hcap hrate hu hfirst hp
    have hp1 : (s.created :: s.now :: (tbReadings rest ++ [T])).Pairwise (· ≤ ·) := hp
    have hcn : s.created ≤ s.now := List.rel_of_pairwise_cons hp1 (by simp)
    have hp2 : (s.now :: (tbReadings rest ++ [T])).Pairwise (· ≤ ·) :=
      (List.pairwise_cons.mp hp1).2
    have hnT : s.now ≤ T := List.rel_of_pairwise_cons hp2 (by simp)
    rw [run_cons, resultsFor_cons]
    by_cases hk : s.userID = k
    · rw [if_pos hk, hk]
      have hcr : s.created = t0 := by
        rw [List.filter_cons_of_pos (by simpa using hk)] at hfirst
        simpa using hfirst
      obtain ⟨b2, hu2, hb2, h02, h12, hbud⟩ := kstep_budget tb (by rw [hcap]; exact hC)
        (by rw [hrate]; exact hr) k s.created s.now t0 ⟨C, t0⟩
        (by rw [hu, hcap, hcr]; rfl) (by simp only; norm_num; omega) (le_refl _)
        (by simp only; omega) (by omega)
      have hih := budget_run k t0 T C r hC hr hspan rest
        (tb.AllowRequest k s.created s.now).1 b2 s.now
        (by rw [allow_capacity]; exact hcap) (by rw [allow_refillRate]; exact hrate) hu2 hb2
        h02 h12 hp2
      rw [hrate] at hbud
      simp only [sub_self, Int.zero_ediv, mul_zero, sub_zero] at hbud
      generalize r * ((b2.lastRefilled - t0) / 1000000000) = A2 at hbud hih
      generalize r * ((T - t0) / 1000000000) = B at hih ⊢
      cases hok : (tb.AllowRequest k s.created s.now).2 with
      | true =>
        rw [hok] at hbud
        rw [List.count_cons_self]
        simp only [if_true] at hbud
        push_cast
        omega
      | false =>
        rw [hok] at hbud
        rw [List.count_cons_of_ne (by simp)]
        simp only [Bool.false_eq_true, if_false] at hbud
        omega
    · rw [if_neg hk]
      have hu2 : (tb.AllowRequest s.userID s.created s.now).1.users k = none := by
        rw [allow_users, if_neg (fun h => hk h.symm)]
        exact hu
      rw [List.filter_cons_of_neg (by simpa using hk)] at hfirst
      exact ih _ (by rw [allow_capacity]; exact hcap)
        (by rw [allow_refillRate]; exact hrate) hu2 hfirst (List.pairwise_cons.mp hp2).2

end TokenBucketLimiter

/-! ## Token bucket: two bursts half a year apart -/

namespace TokenBucketLimiter

theorem tb_run_append (a b : List TBStep) : ∀ (tb : TokenBucketLimiter),
    tb.run (a ++ b) = (((tb.run a).1.run b).1, (tb.run a).2 ++ ((tb.run a).1.run b).2) := by
  induction a with
  | nil => intro tb; rfl
  | cons s rest ih =>
    intro tb
    rw [List.cons_append, run_cons, run_cons, ih]
    rfl

/-- Calls of one key within a second of the last refill: the state they
leave. -/
theorem drain_state (k : GoString) (t0 c t : Int) (h0 : t0 ≤ t) (h1 : t < t0 + 1000000000) :
    ∀ (m : Nat) (tb : TokenBucketLimiter) (n : Int),
      tb.users k = some ⟨n, t0⟩ → 0 ≤ n →
      (tb.run (List.replicate m ⟨k, c, t⟩)).1.users k = some ⟨max (n - (m : Int)) 0, t0⟩ ∧
        (tb.run (List.replicate m ⟨k, c, t⟩)).1.capacity = tb.capacity ∧
        (tb.run (List.replicate m ⟨k, c, t⟩)).1.refillRate = tb.refillRate := by
  intro m
  induction m with
  | zero =>
    intro tb n hu hn
    refine ⟨?_, rfl, rfl⟩
    show tb.users k = _
    rw [hu]
    simp only [Nat.cast_zero, sub_zero]
    rw [max_eq_left hn]
  | succ m ih =>
    intro tb n hu hn
    rw [List.replicate_succ, run_cons]
    simp only
    have hre : tb.refill ⟨n, t0⟩ t = ⟨n, t0⟩ := refill_same tb ⟨n, t0⟩ t h0 h1
    have hu1 := allow_users tb k k c t
    rw [hu, if_pos rfl] at hu1
    simp only [Option.getD_some, hre] at hu1
    by_cases hpos : n > 0
    · rw [if_pos hpos] at hu1
      obtain ⟨ha, hb, hc⟩ := ih (tb.AllowRequest k c t).1 (n - 1) hu1 (by omega)
      refine ⟨?_, by rw [hb, allow_capacity], by rw [hc, allow_refillRate]⟩
      rw [ha]
      congr 2
      push_cast
      omega
    · rw [if_neg hpos] at hu1
      obtain ⟨ha, hb, hc⟩ := ih (tb.AllowRequest k c t).1 n hu1 hn
      refine ⟨?_, by rw [hb, allow_capacity], by rw [hc, allow_refillRate]⟩
      rw [ha]
      congr 2
      push_cast
      omega

theorem resultsFor_all (k : GoString) : ∀ (steps : List TBStep) (oks : List Bool),
    (∀ s ∈ steps, s.userID = k) → oks.length = steps.length → resultsFor k steps oks = oks := by
  intro steps
  induction steps with
  | nil =>
    intro oks _ hl
    rw [List.length_eq_zero.mp hl]
    rfl
  | cons s rest ih =>
    intro oks hk hl
    cases oks with
    | nil => simp at hl
    | cons ok oks =>
      rw [resultsFor_cons, if_pos (hk s (List.mem_cons_self _ _)),
        ih oks (fun s1 hs1 => hk s1 (List.mem_cons_of_mem _ hs1)) (by simpa using hl)]

theorem tb_run_length : ∀ (steps : List TBStep) (tb : TokenBucketLimiter),
    (tb.run steps).2.length = steps.length := by
  intro steps
  induction steps with
  | nil => intro tb; rfl
  | cons s rest ih =>
    intro tb
    rw [run_cons, List.length_cons, List.length_cons, ih]

theorem filter_replicate_key (k : GoString) (c t : Int) (n : Nat) :
    (List.replicate n (⟨k, c, t⟩ : TBStep)).filter (fun s => decide (s.userID = k)) =
      List.replicate n ⟨k, c, t⟩ := by
  rw [List.filter_eq_self]
  intro s hs
  rw [List.eq_of_mem_replicate hs]
  exact decide_eq_true rfl

/-- A fresh bucket of capacity `n ≥ 1` admits a burst of `n` calls. -/
theorem first_burst (k : GoString) (C : Int) (n : Nat) (hCn : C = (n : Int)) (hn : 1 ≤ n) :
    ((NewTokenBucketLimiter C 1).run (List.replicate n ⟨k, 0, 0⟩)).2 =
      List.replicate n true := by
  have h := burst_mixed k 0 (List.replicate n ⟨k, 0, 0⟩) (NewTokenBucketLimiter C 1) rfl
    (by show 1 ≤ C; omega) (by
      intro s hs _
      rw [List.eq_of_mem_replicate hs]
      exact ⟨le_refl _, by norm_num⟩) (by
      intro s hs
      rw [filter_replicate_key] at hs
      cases n with
      | zero => omega
      | succ m =>
        rw [List.replicate_succ, List.head?_cons] at hs
        rw [← Option.some.inj hs])
  rw [resultsFor_all k _ _ (fun s hs => by rw [List.eq_of_mem_replicate hs])
    (tb_run_length _ _), filter_replicate_key, List.length_replicate] at h
  rw [h]
  have hcap : (NewTokenBucketLimiter C 1).capacity = C := rfl
  rw [hcap, hCn]
  have := range_map_all_true n 0 (n : Int) (by omega)
  simp only [zero_add] at this
  exact this

theorem run_replicate_succ (tb : TokenBucketLimiter) (k : GoString) (c t : Int) (m : Nat) :
    tb.run (List.replicate (m + 1) ⟨k, c, t⟩) =
      (((tb.AllowRequest k c t).1.run (List.replicate m ⟨k, c, t⟩)).1,
        (tb.AllowRequest k c t).2 :: ((tb.AllowRequest k c t).1.run
          (List.replicate m ⟨k, c, t⟩)).2) := rfl

/-- The state a burst of `n` calls leaves of a fresh bucket of capacity `n`:
no tokens, and `lastRefilled` still the time of creation. -/
theorem first_burst_state (k : GoString) (C : Int) (n : Nat) (hCn : C = (n : Int))
    (hn : 1 ≤ n) :
    ((NewTokenBucketLimiter C 1).run (List.replicate n ⟨k, 0, 0⟩)).1.users k = some ⟨0, 0⟩ ∧
      ((NewTokenBucketLimiter C 1).run (List.replicate n ⟨k, 0, 0⟩)).1.capacity = C ∧
      ((NewTokenBucketLimiter C 1).run (List.replicate n ⟨k, 0, 0⟩)).1.refillRate = 1 := by
  refine ⟨?_, run_capacity _ _, run_refillRate _ _⟩
  cases n with
  | zero => omega
  | succ m =>
    have hre : (NewTokenBucketLimiter C 1).refill ⟨C, 0⟩ 0 = ⟨C, 0⟩ :=
      refill_same _ ⟨C, 0⟩ 0 (le_refl _) (by norm_num)
    have hu1 := allow_users (NewTokenBucketLimiter C 1) k k 0 0
    rw [if_pos rfl] at hu1
    have hnone : (NewTokenBucketLimiter C 1).users k = none := rfl
    have hcap : (NewTokenBucketLimiter C 1).capacity = C := rfl
    rw [hnone, Option.getD_none, hcap, hre] at hu1
    have hpos : (TokenBucket.mk C 0).tokens > 0 := by
      show C > 0
      omega
    rw [if_pos hpos] at hu1
    have hu2 : ((NewTokenBucketLimiter C 1).AllowRequest k 0 0).1.users k =
        some ⟨C - 1, 0⟩ := hu1
    have h01 : (0 : Int) < 0 + 1000000000 := by norm_num
    have hC1 : 0 ≤ C - 1 := by omega
    obtain ⟨ha, -, -⟩ := drain_state k 0 0 0 (le_refl _) h01 m
      ((NewTokenBucketLimiter C 1).AllowRequest k 0 0).1 (C - 1) hu2 hC1
    rw [run_replicate_succ, ha]
    have : max (C - 1 - (m : Int)) 0 = 0 := by
      push_cast at hCn
      omega
    rw [this]

/-- A burst that empties a fresh bucket of capacity `n` and a second burst of
`n` calls after a wait that `Seconds()` reports as at least `n` whole
seconds, refill rate 1: all `2 n` calls are admitted. -/
theorem double_burst (k : GoString) (C : Int) (n : Nat) (t s : Int) (hCn : C = (n : Int))
    (hn : 1 ≤ n) (hs : (durationSeconds (timeSub t 0)).toInt = s) (hsn : (n : Int) ≤ s)
    (hs2 : s < 2 ^ 63) :
    ((NewTokenBucketLimiter C 1).run
      (List.replicate n ⟨k, 0, 0⟩ ++ List.replicate n ⟨k, t, t⟩)).2 =
      List.replicate (n + n) true := by
  obtain ⟨hu, hcap, hrate⟩ := first_burst_state k C n hCn hn
  have hsecond := refill_amount k 0 t s n
    ((NewTokenBucketLimiter C 1).run (List.replicate n ⟨k, 0, 0⟩)).1
    (by rw [hcap]; omega) hu hs (by omega) (by rw [hrate]; norm_num) (by rw [hrate]; omega)
  rw [tb_run_append, first_burst k C n hCn hn, hsecond, hcap, hrate, List.replicate_add]
  have := range_map_all_true n 0 (min C (s * 1)) (by
    rw [mul_one]
    omega)
  simp only [zero_add] at this
  rw [this]

end TokenBucketLimiter

/-! ## Sliding window counter: the estimate against the limit -/

theorem F64.counterWeight_num_nonneg (W e : Int) (hW : 1 ≤ W) (he : e < W) :
    0 ≤ (counterWeight W e).num := by
  unfold counterWeight F64.div
  apply F64.roundRat_num_nonneg
  have h1 := F64.ofInt_num_nonneg (W - e) (by omega)
  have h2 := F64.ofInt_pos W hW
  rw [Int.sign_eq_one_of_pos h2]
  have h3 : (0 : Int) ≤ ((F64.ofInt W).den : Int) := by positivity
  positivity

theorem F64.mul_ofInt_num_nonneg (p : Int) (w : F64) (hp : 0 ≤ p) (hw : 0 ≤ w.num) :
    0 ≤ (F64.mul (F64.ofInt p) w).num := by
  unfold F64.mul
  apply F64.roundRat_num_nonneg
  have := F64.ofInt_num_nonneg p hp
  positivity

theorem F64.mul_ofInt_le (p : Int) (w : F64) (M j : Nat) (hp0 : 0 ≤ p) (hp1 : p < 2 ^ 53)
    (hw0 : 0 ≤ w.num) (hM : M < 2 ^ 53) (h : p * w.num * 2 ^ j ≤ (M : Int) * (w.den : Int)) :
    (F64.mul (F64.ofInt p) w).num * 2 ^ j ≤
      (M : Int) * ((F64.mul (F64.ofInt p) w).den : Int) := by
  have hx := F64.ofInt_exact p hp0 hp1
  have hT : (0 : Int) < ((F64.ofInt p).den : Int) := by exact_mod_cast F64.den_pos _
  unfold F64.mul
  rw [hx]
  generalize (F64.ofInt p).den = T at hT ⊢
  have hnn : 0 ≤ p * (T : Int) * w.num := by positivity
  apply F64.roundRat_le _ _ _ _ hnn (Nat.mul_pos (by exact_mod_cast hT) (F64.den_pos w)) hM
  push_cast
  have := mul_le_mul_of_nonneg_right h (le_of_lt hT)
  linarith

theorem F64.add_zero_le (m : F64) (M j : Nat) (hm : 0 ≤ m.num) (hM : M < 2 ^ 53)
    (h : m.num * 2 ^ j ≤ (M : Int) * (m.den : Int)) :
    (F64.add m ⟨0, 0⟩).num * 2 ^ j ≤ (M : Int) * ((F64.add m ⟨0, 0⟩).den : Int) := by
  unfold F64.add
  have hn : (⟨0, 0⟩ : F64).num = 0 := by decide
  have hd : (⟨0, 0⟩ : F64).den = 1 := by decide
  rw [hn, hd]
  simp only [Nat.cast_one, mul_one, zero_mul, add_zero]
  exact F64.roundRat_le _ _ _ _ hm (F64.den_pos m) hM h

theorem F64.add_ofInt_right_ge (m : F64) (c : Int) (hm : 0 ≤ m.num) (hc0 : 0 ≤ c)
    (hc1 : c < 2 ^ 53) :
    c * ((F64.add m (F64.ofInt c)).den : Int) ≤ (F64.add m (F64.ofInt c)).num := by
  have hx := F64.ofInt_exact c hc0 hc1
  have hT : (0 : Int) < ((F64.ofInt c).den : Int) := by exact_mod_cast F64.den_pos _
  have hD : (0 : Int) < (m.den : Int) := by exact_mod_cast F64.den_pos _
  have hcn : ((c.toNat : Nat) : Int) = c := Int.toNat_of_nonneg hc0
  have hM : c.toNat < 2 ^ 53 := by
    have : ((c.toNat : Nat) : Int) < ((2 ^ 53 : Nat) : Int) := by
      rw [hcn]; exact_mod_cast hc1
    exact_mod_cast this
  unfold F64.add
  rw [hx]
  generalize (F64.ofInt c).den = T at hT ⊢
  have hnn : 0 ≤ m.num * (T : Int) + c * (T : Int) * (m.den : Int) := by positivity
  have h := F64.roundRat_ge _ (m.den * T) c.toNat 0 hnn
    (Nat.mul_pos (F64.den_pos m) (by exact_mod_cast hT)) hM (by
      rw [hcn]
      push_cast
      have : 0 ≤ m.num * (T : Int) := by positivity
      simp only [pow_zero, mul_one]
      linarith)
  rw [hcn] at h
  simpa using h

/-- A current count that has reached the limit is rejected, whatever the
previous window holds. -/
theorem estimate_ge_current (p c L W e : Int) (hp : 0 ≤ p) (hc : L ≤ c) (hc1 : c < 2 ^ 53)
    (hL : 0 ≤ L) (hW : 1 ≤ W) (he : e < W) :
    F64.ge (estimatedCount p c W e) (F64.ofInt L) = true := by
  have hw := F64.counterWeight_num_nonneg W e hW he
  have hm := F64.mul_ofInt_num_nonneg p (counterWeight W e) hp hw
  have hest := F64.add_ofInt_right_ge _ c hm (by omega) hc1
  have hl := F64.ofInt_exact L hL (by omega)
  have hE : estimatedCount p c W e =
      F64.add (F64.mul (F64.ofInt p) (counterWeight W e)) (F64.ofInt c) := rfl
  rw [hE]
  generalize F64.add (F64.mul (F64.ofInt p) (counterWeight W e)) (F64.ofInt c) = E at hest
  have hEd : (0 : Int) < (E.den : Int) := by exact_mod_cast F64.den_pos _
  have hLd : (0 : Int) < ((F64.ofInt L).den : Int) := by exact_mod_cast F64.den_pos _
  unfold F64.ge
  rw [hl, decide_eq_true_eq]
  have h1 : L * (E.den : Int) ≤ E.num := by
    have := mul_le_mul_of_nonneg_right hc (le_of_lt hEd)
    linarith
  have := mul_le_mul_of_nonneg_right h1 (le_of_lt hLd)
  linarith

/-- For a limit below 2^53 there is a binary64 value below the limit and at
least `(1 − 2^-44)` times the limit. -/
theorem margin_exp (L : Nat) (h1 : 1 ≤ L) (h2 : L < 2 ^ 53) :
    ∃ j : Nat, 2 ^ 44 ≤ L * 2 ^ j ∧ L * 2 ^ j ≤ 2 ^ 53 := by
  by_cases h : 2 ^ 44 ≤ L
  · exact ⟨0, by simpa using h, by simpa using le_of_lt h2⟩
  · obtain ⟨ha, hb⟩ := ilog2_spec L h1
    have hlg : ilog2 L < 44 := by
      by_contra hge
      have : 2 ^ 44 ≤ 2 ^ ilog2 L := Nat.pow_le_pow_right (by norm_num) (by omega)
      omega
    refine ⟨44 - ilog2 L, ?_, ?_⟩
    · calc 2 ^ 44 = 2 ^ ilog2 L * 2 ^ (44 - ilog2 L) := by
            rw [← pow_add]; congr 1; omega
        _ ≤ L * 2 ^ (44 - ilog2 L) := Nat.mul_le_mul_right _ ha
    · calc L * 2 ^ (44 - ilog2 L) ≤ 2 ^ (ilog2 L + 1) * 2 ^ (44 - ilog2 L) :=
            Nat.mul_le_mul_right _ (le_of_lt hb)
        _ = 2 ^ 45 := by rw [← pow_add]; congr 1; omega
        _ ≤ 2 ^ 53 := by norm_num

/-- With nothing in the current window and part of the current window
elapsed, a previous count of at most the limit is admitted. -/
theorem estimate_margin (p L W e : Int) (hp0 : 0 ≤ p) (hpL : p ≤ L) (hL : 1 ≤ L)
    (hL1 : L < 2 ^ 53) (he : 1 ≤ e) (heW : e < W) (hW : W ≤ 2 ^ 44) :
    F64.ge (estimatedCount p 0 W e) (F64.ofInt L) = false := by
  have hw0 := F64.counterWeight_num_nonneg W e (by omega) heW
  have hw1 : (counterWeight W e).num * 2 ^ 44 ≤
      ((2 ^ 44 - 1 : Nat) : Int) * ((counterWeight W e).den : Int) := by
    unfold counterWeight
    apply F64.div_ofInt_le (W - e) W _ 44 (by omega) (by norm_num at hW ⊢; omega) (by omega)
      (by norm_num at hW ⊢; omega) (by norm_num)
    norm_num at hW ⊢
    omega
  have hE : estimatedCount p 0 W e =
      F64.add (F64.mul (F64.ofInt p) (counterWeight W e)) (F64.ofInt 0) := rfl
  rw [hE, F64.ofInt_zero]
  generalize counterWeight W e = w at hw0 hw1
  have hwd : (0 : Int) < (w.den : Int) := by exact_mod_cast F64.den_pos _
  have hLn : ((L.toNat : Nat) : Int) = L := Int.toNat_of_nonneg (by omega)
  obtain ⟨j, hj1, hj2⟩ := margin_exp L.toNat (by omega) (by
    have : ((L.toNat : Nat) : Int) < ((2 ^ 53 : Nat) : Int) := by
      rw [hLn]; exact_mod_cast hL1
    exact_mod_cast this)
  have hK1 : (2 : Int) ^ 44 ≤ L * 2 ^ j := by
    have : (((2 : Nat) ^ 44 : Nat) : Int) ≤ ((L.toNat * 2 ^ j : Nat) : Int) := by
      exact_mod_cast hj1
    push_cast at this
    rw [hLn] at this
    exact this
  have hMpos : 1 ≤ L.toNat * 2 ^ j := le_trans (by norm_num) hj1
  have hMcast : (((L.toNat * 2 ^ j - 1 : Nat)) : Int) = L * 2 ^ j - 1 := by
    rw [Nat.cast_sub hMpos]
    push_cast
    rw [hLn]
  have hM : L.toNat * 2 ^ j - 1 < 2 ^ 53 := by omega
  have hbound : p * w.num * 2 ^ j ≤ ((L.toNat * 2 ^ j - 1 : Nat) : Int) * (w.den : Int) := by
    rw [hMcast]
    have h1 : p * w.num ≤ L * w.num := mul_le_mul_of_nonneg_right hpL hw0
    have h2 : p * w.num * 2 ^ j ≤ L * w.num * 2 ^ j :=
      mul_le_mul_of_nonneg_right h1 (by positivity)
    have hK0 : (0 : Int) ≤ L * 2 ^ j := by positivity
    have h3 := mul_le_mul_of_nonneg_left hw1 hK0
    have h4 : (L * 2 ^ j) * (2 ^ 44 - 1) * (w.den : Int) ≤
        (L * 2 ^ j - 1) * 2 ^ 44 * (w.den : Int) := by
      apply mul_le_mul_of_nonneg_right _ (le_of_lt hwd)
      nlinarith
    have h5 : (L * w.num * 2 ^ j) * 2 ^ 44 ≤ ((L * 2 ^ j - 1) * (w.den : Int)) * 2 ^ 44 := by
      push_cast at h3
      norm_num at h3 h4 ⊢
      linarith
    have h6 := le_of_mul_le_mul_right h5 (by positivity : (0 : Int) < 2 ^ 44)
    exact le_trans h2 h6
  have hm0 := F64.mul_ofInt_num_nonneg p w hp0 hw0
  have hm := F64.mul_ofInt_le p w _ j hp0 (by omega) hw0 hM hbound
  have hest := F64.add_zero_le _ _ j hm0 hM hm
  rw [hMcast] at hest
  generalize F64.add (F64.mul (F64.ofInt p) w) ⟨0, 0⟩ = E at hest
  have hEd : (0 : Int) < (E.den : Int) := by exact_mod_cast F64.den_pos _
  have hLd : (0 : Int) < ((F64.ofInt L).den : Int) := by exact_mod_cast F64.den_pos _
  have hl := F64.ofInt_exact L (by omega) hL1
  unfold F64.ge
  rw [hl, decide_eq_false_iff_not, not_le]
  have hpow : (0 : Int) < 2 ^ j := by positivity
  have h7 : E.num * 2 ^ j < L * (E.den : Int) * 2 ^ j := by
    have : (L * 2 ^ j - 1) * (E.den : Int) < L * 2 ^ j * (E.den : Int) := by
      apply mul_lt_mul_of_pos_right _ hEd
      omega
    calc E.num * 2 ^ j ≤ (L * 2 ^ j - 1) * (E.den : Int) := hest
      _ < L * 2 ^ j * (E.den : Int) := this
      _ = L * (E.den : Int) * 2 ^ j := by ring
  have h8 : E.num < L * (E.den : Int) := lt_of_mul_lt_mul_right h7 (le_of_lt hpow)
  have := mul_lt_mul_of_pos_right h8 hLd
  linarith

/-! ## Sliding window counter: what a window still counts -/

namespace SlidingWindowCounter

theorem counted_weaken {swc : SlidingWindowCounter} {t1 t2 : GoString → List Int}
    (h : swc.Counted t1) (hsub : ∀ k x, x ∈ t1 k → x ∈ t2 k) : swc.Counted t2 := by
  intro k idx
  obtain ⟨h0, h1, h2⟩ := h k idx
  refine ⟨h0, h1, fun hne => ?_⟩
  obtain ⟨x, hx, hxi⟩ := h2 hne
  exact ⟨x, hsub k x hx, hxi⟩

theorem counted_allow {swc swc1 : SlidingWindowCounter} {times : GoString → List Int}
    (h : swc.Counted times) (hW : 1 ≤ durationMilliseconds swc.window)
    (hL1 : swc.limit < 2 ^ 53) (hL0 : 0 ≤ swc.limit) (u : GoString) (t : Int) (ok : Bool)
    (he : swc.AllowRequest u t = some (swc1, ok)) :
    swc1.limit = swc.limit ∧ swc1.window = swc.window ∧
      swc1.Counted (fun k => times k ++ callsOf k [SWStep.allow u t]) := by
  obtain ⟨s1, hs, hl, hw, hmap, -, -⟩ := allow_spec swc u t (by omega)
  rw [he] at hs
  obtain ⟨rfl, -⟩ := Prod.mk.inj (Option.some.inj hs)
  refine ⟨hl, hw, ?_⟩
  intro k idx
  rw [hmap, hl, hw]
  obtain ⟨h0, h1, h2⟩ := h k idx
  by_cases hk : k = u
  · rw [if_pos hk]
    subst hk
    have hcalls : callsOf k [SWStep.allow k t] = [t] := by
      rw [SlidingWindowLog.callsOf_cons_allow, if_pos rfl]
      rfl
    by_cases hge : F64.ge (swc.estimate k t) (F64.ofInt swc.limit) = true
    · rw [if_pos hge]
      refine ⟨h0, h1, fun hne => ?_⟩
      obtain ⟨x, hx, hxi⟩ := h2 hne
      exact ⟨x, List.mem_append_left _ hx, hxi⟩
    · rw [if_neg hge, counterGet_set]
      by_cases hidx : idx = Int.tdiv t (durationMilliseconds swc.window)
      · rw [if_pos hidx]
        obtain ⟨hc0, hc1, -⟩ := h k (Int.tdiv t (durationMilliseconds swc.window))
        obtain ⟨hp0, -, -⟩ := h k (Int.tdiv t (durationMilliseconds swc.window) - 1)
        have hcur : swc.currentCount k t < swc.limit := by
          by_contra hnot
          apply hge
          unfold currentCount at hnot
          unfold estimate currentCount previousCount
          exact estimate_ge_current _ _ _ _ _ hp0 (by omega) (by omega) hL0 hW
            (Int.tmod_lt_of_pos t (by omega))
        unfold currentCount at hcur ⊢
        refine ⟨by omega, by omega, fun _ => ⟨t, ?_, hidx.symm⟩⟩
        show t ∈ times k ++ callsOf k [SWStep.allow k t]
        rw [hcalls]
        simp
      · rw [if_neg hidx]
        refine ⟨h0, h1, fun hne => ?_⟩
        obtain ⟨x, hx, hxi⟩ := h2 hne
        exact ⟨x, List.mem_append_left _ hx, hxi⟩
  · rw [if_neg hk]
    refine ⟨h0, h1, fun hne => ?_⟩
    obtain ⟨x, hx, hxi⟩ := h2 hne
    exact ⟨x, List.mem_append_left _ hx, hxi⟩

theorem counted_cleanup {swc swc1 : SlidingWindowCounter} {times : GoString → List Int}
    (h : swc.Counted times) (hW : 1 ≤ durationMilliseconds swc.window) (t : Int)
    (he : swc.cleanupOldCounters t = some swc1) :
    swc1.limit = swc.limit ∧ swc1.window = swc.window ∧ swc1.Counted times := by
  obtain ⟨s1, hs, hl, hw, hmap⟩ := cleanup_spec swc t (by omega)
  rw [he] at hs
  obtain rfl := Option.some.inj hs
  refine ⟨hl, hw, ?_⟩
  intro k idx
  rw [hmap, hl, hw, counterGet_filter]
  obtain ⟨h0, h1, h2⟩ := h k idx
  split
  · exact ⟨le_refl _, by omega, fun hne => absurd rfl hne⟩
  · exact ⟨h0, h1, h2⟩

/-- The invariant holds along every execution, and the execution returns. -/
theorem counted_run : ∀ (steps : List SWStep) (swc : SlidingWindowCounter)
    (times : GoString → List Int), 1 ≤ durationMilliseconds swc.window →
    0 ≤ swc.limit → swc.limit < 2 ^ 53 → swc.Counted times →
    ∃ swc1 calls, swc.run steps = some (swc1, calls) ∧ swc1.limit = swc.limit ∧
      swc1.window = swc.window ∧ swc1.Counted (fun k => times k ++ callsOf k steps) := by
  intro steps
  induction steps with
  | nil =>
    intro swc times _ _ _ h
    refine ⟨swc, [], rfl, rfl, rfl, counted_weaken h (fun k x hx => List.mem_append_left _ hx)⟩
  | cons s rest ih =>
    intro swc times hW hL0 hL1 h
    cases s with
    | allow u t =>
      obtain ⟨s1, hs, -⟩ := allow_spec swc u t (by omega)
      obtain ⟨hl, hw, hc⟩ := counted_allow h hW hL1 hL0 u t _ hs
      obtain ⟨s2, calls, hrun, hl2, hw2, hc2⟩ := ih s1 _ (by rw [hw]; exact hW)
        (by rw [hl]; exact hL0) (by rw [hl]; exact hL1) hc
      refine ⟨s2, Call.mk u t (!F64.ge (swc.estimate u t) (F64.ofInt swc.limit)) :: calls, ?_,
        by rw [hl2, hl], by rw [hw2, hw], ?_⟩
      · show (match swc.AllowRequest u t with
          | none => none
          | some (swc1, ok) =>
            match SlidingWindowCounter.run swc1 rest with
            | none => none
            | some (swc2, calls) => some (swc2, Call.mk u t ok :: calls)) = _
        rw [hs]
        simp only
        rw [hrun]
      · apply counted_weaken hc2
        intro k x hx
        rw [SlidingWindowLog.callsOf_cons_allow]
        rw [SlidingWindowLog.callsOf_cons_allow] at hx
        simp only [List.mem_append] at hx ⊢
        by_cases hk : u = k
        · rw [if_pos hk] at hx ⊢
          rcases hx with (hx | hx) | hx
          · exact Or.inl hx
          · have hnil : callsOf k ([] : List SWStep) = [] := rfl
            rw [hnil] at hx
            exact Or.inr (List.mem_cons.mpr (Or.inl (List.mem_singleton.mp hx)))
          · exact Or.inr (List.mem_cons_of_mem _ hx)
        · rw [if_neg hk] at hx ⊢
          rcases hx with (hx | hx) | hx
          · exact Or.inl hx
          · have hnil : callsOf k ([] : List SWStep) = [] := rfl
            rw [hnil] at hx
            exact absurd hx (List.not_mem_nil _)
          · exact Or.inr hx
    | cleanup t =>
      obtain ⟨s1, hs, -⟩ := cleanup_spec swc t (by omega)
      obtain ⟨hl, hw, hc⟩ := counted_cleanup h hW t hs
      obtain ⟨s2, calls, hrun, hl2, hw2, hc2⟩ := ih s1 _ (by rw [hw]; exact hW)
        (by rw [hl]; exact hL0) (by rw [hl]; exact hL1) hc
      refine ⟨s2, calls, ?_, by rw [hl2, hl], by rw [hw2, hw], ?_⟩
      · show (match swc.cleanupOldCounters t with
          | none => none
          | some swc1 => SlidingWindowCounter.run swc1 rest) = _
        rw [hs]
        exact hrun
      · apply counted_weaken hc2
        intro k x hx
        rw [SlidingWindowLog.callsOf_cons_cleanup]
        exact hx

/-- A call later than one window length after every earlier call of its key
is admitted. -/
theorem allow_after_window (swc : SlidingWindowCounter) (times : GoString → List Int)
    (k : GoString) (t : Int) (h : swc.Counted times)
    (hW : 1 ≤ durationMilliseconds swc.window)
    (hWmax : durationMilliseconds swc.window ≤ 2 ^ 44)
    (hL : 1 ≤ swc.limit) (hL1 : swc.limit < 2 ^ 53)
    (hearlier : ∀ x ∈ times k, 0 ≤ x ∧ x < t - durationMilliseconds swc.window) :
    F64.ge (swc.estimate k t) (F64.ofInt swc.limit) = false := by
  unfold estimate currentCount previousCount
  generalize hWd : durationMilliseconds swc.window = W at hW hWmax hearlier h
  have hcount := h
  unfold Counted at hcount
  rw [hWd] at hcount
  obtain ⟨hc0, -, hcw⟩ := hcount k (Int.tdiv t W)
  obtain ⟨hp0, hp1, hpw⟩ := hcount k (Int.tdiv t W - 1)
  have hc : counterGet (swc.mapOf k) (Int.tdiv t W) = 0 := by
    by_contra hne
    obtain ⟨x, hx, hxi⟩ := hcw hne
    obtain ⟨hx0, hx1⟩ := hearlier x hx
    have ht0 : 0 ≤ t - W := by omega
    rw [Int.tdiv_eq_ediv hx0 (by omega), Int.tdiv_eq_ediv (by omega) (by omega)] at hxi
    have h1 : x / W ≤ (t - W) / W := Int.ediv_le_ediv (by omega) (by omega)
    have h2 : (t - W + 1 * W) / W = (t - W) / W + 1 :=
      Int.add_mul_ediv_right _ _ (by omega)
    rw [show t - W + 1 * W = t by ring] at h2
    omega
  rw [hc]
  by_cases hp : counterGet (swc.mapOf k) (Int.tdiv t W - 1) = 0
  · rw [hp, estimate_no_previous 0 swc.limit W _ (le_refl _) (by norm_num) (by omega) hL1]
    simp only [decide_eq_false_iff_not, not_le]
    omega
  · obtain ⟨x, hx, hxi⟩ := hpw hp
    obtain ⟨hx0, hx1⟩ := hearlier x hx
    have ht0 : 0 ≤ t := by omega
    have he0 : 0 ≤ Int.tmod t W := Int.tmod_nonneg W ht0
    have heW : Int.tmod t W < W := Int.tmod_lt_of_pos t (by omega)
    have he1 : 1 ≤ Int.tmod t W := by
      by_contra hlt
      have hez : Int.tmod t W = 0 := by omega
      rw [Int.tmod_eq_emod ht0 (by omega)] at hez
      rw [Int.tdiv_eq_ediv hx0 (by omega), Int.tdiv_eq_ediv ht0 (by omega)] at hxi
      have hdiv := Int.emod_add_ediv t W
      rw [hez, zero_add] at hdiv
      have hlt2 : x < (t / W - 1) * W := by
        have : (t / W - 1) * W = W * (t / W) - W := by ring
        omega
      have := Int.ediv_lt_of_lt_mul (by omega : 0 < W) hlt2
      omega
    exact estimate_margin _ _ _ _ hp0 hp1 hL hL1 he1 heW hWmax

end SlidingWindowCounter

/-! ## Fixed window: executions that agree on one user ID -/

namespace FixedWindowLimiter

/-- Two states that agree on the entries of one user ID return the same
results to that user ID along every sequence of calls without cleanup. -/
theorem fw_agree (v : GoString) (W : Int) (hW : 0 < W) :
    ∀ (rest : List FWStep) (fa fb : FixedWindowLimiter),
      fa.windowSeconds = W → fb.windowSeconds = W → fa.limit = fb.limit →
      (∀ j, 0 ≤ j → fa.requests (sprintfKey v j) = fb.requests (sprintfKey v j)) →
      (∀ s ∈ rest, ∃ u t, s = FWStep.allow u t ∧ 0 ≤ t) →
      ∃ fa1 oa fb1 ob, fa.run rest = some (fa1, oa) ∧ fb.run rest = some (fb1, ob) ∧
        fwResultsFor v rest oa = fwResultsFor v rest ob := by
  intro rest
  induction rest with
  | nil =>
    intro fa fb _ _ _ _ _
    exact ⟨fa, [], fb, [], rfl, rfl, rfl⟩
  | cons s rest ih =>
    intro fa fb hwa hwb hl hag hs
    obtain ⟨w, t, rfl, ht⟩ := hs s (List.mem_cons_self _ _)
    have hidx : 0 ≤ Int.tdiv t W := Int.tdiv_nonneg ht (le_of_lt hW)
    obtain ⟨a1, oka, hea, hoka, hla, hwa1, hfra, -, hseta, hreja⟩ :=
      allow_entries fa w t (by rw [hwa]; exact ne_of_gt hW)
    obtain ⟨b1, okb, heb, hokb, hlb, hwb1, hfrb, -, hsetb, hrejb⟩ :=
      allow_entries fb w t (by rw [hwb]; exact ne_of_gt hW)
    rw [hwa] at hoka hfra hseta hwa1
    rw [hwb] at hokb hfrb hsetb hwb1
    have hnext : (∀ j, 0 ≤ j → a1.requests (sprintfKey v j) = b1.requests (sprintfKey v j)) ∧
        (w = v → oka = okb) := by
      by_cases hk : w = v
      · subst hk
        have hcnt : fa.countOf w (Int.tdiv t W) = fb.countOf w (Int.tdiv t W) := by
          unfold countOf
          rw [hag _ hidx]
        have hok : oka = okb := by rw [hoka, hokb, hcnt, hl]
        refine ⟨?_, fun _ => hok⟩
        intro j hj
        cases hoa : oka with
        | true =>
          have hob : okb = true := by rw [← hok]; exact hoa
          by_cases hkey : sprintfKey w j = sprintfKey w (Int.tdiv t W)
          · rw [hkey, hseta hoa, hsetb hob, hcnt]
          · rw [hfra _ hkey, hfrb _ hkey]
            exact hag j hj
        | false =>
          have hob : okb = false := by rw [← hok]; exact hoa
          rw [hreja hoa, hrejb hob]
          exact hag j hj
      · refine ⟨?_, fun h => absurd h hk⟩
        intro j hj
        have hne : sprintfKey v j ≠ sprintfKey w (Int.tdiv t W) :=
          fun hkey => hk (sprintfKey_inj v w j _ hj hidx hkey).1.symm
        rw [hfra _ hne, hfrb _ hne]
        exact hag j hj
    obtain ⟨a2, oa, b2, ob, hra, hrb, hres⟩ := ih a1 b1 hwa1 hwb1 (by rw [hla, hlb, hl])
      hnext.1 (fun s1 hs1 => hs s1 (List.mem_cons_of_mem _ hs1))
    refine ⟨a2, oka :: oa, b2, okb :: ob, ?_, ?_, ?_⟩
    · rw [run_allow_cons, hea, Option.some_bind, hra]
      rfl
    · rw [run_allow_cons, heb, Option.some_bind, hrb]
      rfl
    · rw [fwResultsFor_allow, fwResultsFor_allow]
      by_cases hk : w = v
      · rw [if_pos hk, if_pos hk, hres, hnext.2 hk]
      · rw [if_neg hk, if_neg hk, hres]

end FixedWindowLimiter

/-! ## Further claims on the token bucket -/

/-- C11, counterexample: capacity 1, refill rate 2 per second. The call at 0 s
takes the token, the call at 0.1 s is rejected, and the call at 0.6 s, half a
second (`1 / refillRate`) after the rejected one, is rejected as well: the
elapsed 0.6 s truncate to 0 whole seconds. -/
theorem tokenBucket_subsecond_wait :
    ((NewTokenBucketLimiter 1 2).run
      [⟨['a'], 0, 0⟩, ⟨['a'], 100000000, 100000000⟩, ⟨['a'], 600000000, 600000000⟩]).2 =
      [true, false, false] := by
  decide

/-- C11, amended. Token bucket refill after a wait: for every capacity
`C ≥ 1` and refill rate `r ≥ 1` with `C + 9223372037 * r < 2 ^ 63`, and every
key, an `AllowRequest` call made at least one whole second after every earlier
clock reading (so at least one second after the call that found the bucket
empty and returned false) returns true. -/
theorem tokenBucket_refill_after_second (C r : Int) (hC : 1 ≤ C) (hr : 1 ≤ r)
    (hno : C + 9223372037 * r < 2 ^ 63) (steps : List TBStep) (k : GoString) (T c now : Int)
    (hT : ∀ s ∈ steps, s.created ≤ T ∧ s.now ≤ T) (hnow : T + 1000000000 ≤ now) :
    (((NewTokenBucketLimiter C r).run steps).1.AllowRequest k c now).2 = true := by
  apply TokenBucketLimiter.allow_after_second _
    (by rw [TokenBucketLimiter.run_capacity]; exact hC)
    (by rw [TokenBucketLimiter.run_refillRate]; exact hr)
    (by rw [TokenBucketLimiter.run_capacity, TokenBucketLimiter.run_refillRate]; exact hno)
    _ k c now T _ hnow
  · rw [TokenBucketLimiter.run_capacity]
    exact TokenBucketLimiter.bounded_run (NewTokenBucketLimiter C r) hC
      (show (0 : Int) ≤ r by omega) hno
      (by intro k b h; simp [NewTokenBucketLimiter] at h) steps
  · intro b hb
    exact TokenBucketLimiter.lastRefilled_le_run T steps (NewTokenBucketLimiter C r)
      (by intro k b h; simp [NewTokenBucketLimiter] at h) hT k b hb

/-- Witness of C11: capacity 2, rate 1; three calls at 0 s (the third is
rejected), then a call 2 s later. -/
theorem tokenBucket_refill_after_second_witness :
    ((NewTokenBucketLimiter 2 1).run [⟨['a'], 0, 0⟩, ⟨['a'], 0, 0⟩, ⟨['a'], 0, 0⟩]).2 =
        [true, true, false] ∧
      (((NewTokenBucketLimiter 2 1).run
        [⟨['a'], 0, 0⟩, ⟨['a'], 0, 0⟩, ⟨['a'], 0, 0⟩]).1.AllowRequest ['a']
          2000000000 2000000000).2 = true :=
  ⟨by decide,
    tokenBucket_refill_after_second 2 1 (by decide) (by decide) (by decide)
      [⟨['a'], 0, 0⟩, ⟨['a'], 0, 0⟩, ⟨['a'], 0, 0⟩] ['a'] 0 2000000000 2000000000
      (by decide) (by decide)⟩

/-! ## Further claims on the sliding window counter -/

/-- C12, counterexample: limit 2, window 3 s. Two calls at 1700000001000 ms,
the first millisecond of an aligned window, are admitted; the call exactly one
window later, at 1700000004000 ms, is the first millisecond of the next
window: the weight of the previous window is 1, the estimate is 2, and the
call is rejected although every earlier call was made at a time `≤ t − W`. -/
theorem slidingCounter_window_boundary :
    ((NewSlidingWindowCounter 2 3000000000).run
        [SWStep.allow ['a'] 1700000001000, SWStep.allow ['a'] 1700000001000,
          SWStep.allow ['a'] 1700000004000]).map (fun r => okFor ['a'] r.2) =
        some [true, true, false] ∧
      (1700000001000 : Int) ≤ 1700000004000 - durationMilliseconds 3000000000 := by
  decide

/-- C12, amended. Sliding window counter forgets after one window: for every
limit `L` with `1 ≤ L < 2^53`, window of at least 1 ms and key, after any
calls (of any keys) and cleanup runs, if every earlier `AllowRequest` call for
the key was made at a clock value `≥ 0` and strictly before `t − W`, the call
at `t` returns true. -/
theorem slidingCounter_forgets (L Wd : Int) (hL : 1 ≤ L) (hL1 : L < 2 ^ 53)
    (hW : 1 ≤ durationMilliseconds Wd) (hWd : Wd ≤ 9223372036854775807)
    (steps : List SWStep) (k : GoString) (t : Int)
    (hearlier : ∀ x ∈ callsOf k steps, 0 ≤ x ∧ x < t - durationMilliseconds Wd) :
    ∃ swc calls swc1, (NewSlidingWindowCounter L Wd).run steps = some (swc, calls) ∧
      swc.AllowRequest k t = some (swc1, true) := by
  have hinit : (NewSlidingWindowCounter L Wd).Counted (fun _ => []) := by
    intro k idx
    have : counterGet ((NewSlidingWindowCounter L Wd).mapOf k) idx = 0 := rfl
    rw [this]
    exact ⟨le_refl _, by show (0 : Int) ≤ L; omega, fun h => absurd rfl h⟩
  obtain ⟨swc, calls, hrun, hl, hw, hc⟩ := SlidingWindowCounter.counted_run steps
    (NewSlidingWindowCounter L Wd) (fun _ => []) hW (by show (0 : Int) ≤ L; omega) hL1 hinit
  have hl1 : swc.limit = L := hl
  have hw1 : swc.window = Wd := hw
  have hmax : durationMilliseconds Wd ≤ 2 ^ 44 := by
    have := tdiv_mono 1000000 Wd 9223372036854775807 (by norm_num) hWd
    have he : Int.tdiv 9223372036854775807 1000000 = 9223372036854 := by decide
    unfold durationMilliseconds
    rw [he] at this
    norm_num
    omega
  obtain ⟨swc1, hs, -⟩ := SlidingWindowCounter.allow_spec swc k t (by rw [hw1]; omega)
  have hge := SlidingWindowCounter.allow_after_window swc _ k t hc (by rw [hw1]; exact hW)
    (by rw [hw1]; exact hmax) (by rw [hl1]; exact hL) (by rw [hl1]; exact hL1) (by
      intro x hx
      rw [hw1]
      exact hearlier x (by simpa using hx))
  rw [hge] at hs
  exact ⟨swc, calls, swc1, hrun, hs⟩

/-- Witness of C12: limit 2, window 3 s; three calls in the first millisecond
of a window, then a call 3001 ms later. -/
theorem slidingCounter_forgets_witness :
    ∃ swc calls swc1, (NewSlidingWindowCounter 2 3000000000).run
        [SWStep.allow ['a'] 1700000001000, SWStep.allow ['a'] 1700000001000,
          SWStep.cleanup 1700000001010, SWStep.allow ['a'] 1700000001000] =
          some (swc, calls) ∧
      swc.AllowRequest ['a'] 1700000004001 = some (swc1, true) :=
  slidingCounter_forgets 2 3000000000 (by decide) (by decide) (by decide) (by decide) _ ['a']
    1700000004001 (by decide)

/-! ## Totality of `AllowRequest` -/

/-- C13, failing inputs. A fixed window limiter built with limit 1 and a
window of 500 ms has `int64(window.Seconds()) = 0`, and a sliding window
counter built with limit 1 and a window of 500 µs has
`window.Milliseconds() = 0`: in both the first `AllowRequest` call divides by
zero and returns no boolean. -/
theorem allowRequest_divides_by_zero :
    (NewFixedWindowLimiter 1 500000000).windowSeconds = 0 ∧
      ((NewFixedWindowLimiter 1 500000000).AllowRequest ['a'] 1700000000).isNone = true ∧
      durationMilliseconds (NewSlidingWindowCounter 1 500000).window = 0 ∧
      ((NewSlidingWindowCounter 1 500000).AllowRequest ['a'] 1700000000000).isNone = true := by
  decide

/-! ## Further claims on the fixed window -/

/-- C15. Fixed window decision step: for every state, limit, whole-second
window `W ≥ 1 s`, key and clock value `now ≥ 0`, with `n` the stored count of
the composite key of the key and window `now / W` (0 when no entry exists),
`AllowRequest` returns, and returns true iff `n < L`; when it returns true it
raises exactly that composite key's count to `n + 1` and leaves every other
entry unchanged; when it returns false it leaves the map unchanged; with
`L ≥ 1` a call in a window that has no entry returns true; and, with no
cleanup in between and other keys' calls allowed in between, of the calls of
the key in one window that starts with no entry exactly the first `L` return
true. -/
theorem fixedWindow_decision_step (fw : FixedWindowLimiter) (W : Int) (k : GoString) (now : Int)
    (hW : 1 ≤ W) (hmax : W ≤ 9223372036) (hwin : fw.window = W * 1000000000)
    (hnow : 0 ≤ now) :
    (∃ fw1 ok, fw.AllowRequest k now = some (fw1, ok) ∧
        (ok = true ↔ fw.countOf k (Int.tdiv now W) < fw.limit) ∧
        (ok = true →
          fw1.requests (sprintfKey k (Int.tdiv now W)) =
              some (fw.countOf k (Int.tdiv now W) + 1) ∧
            ∀ key, key ≠ sprintfKey k (Int.tdiv now W) → fw1.requests key = fw.requests key) ∧
        (ok = false → fw1.requests = fw.requests) ∧
        (1 ≤ fw.limit → fw.requests (sprintfKey k (Int.tdiv now W)) = none → ok = true)) ∧
      (∀ steps : List FWStep,
        fw.requests (sprintfKey k (Int.tdiv now W)) = none →
        (∀ s ∈ steps, ∃ u t, s = FWStep.allow u t ∧ 0 ≤ t ∧
          (u = k → Int.tdiv t W = Int.tdiv now W)) →
        ∃ fw1 oks, fw.run steps = some (fw1, oks) ∧
          fwResultsFor k steps oks =
            (List.range (fwCallsOf k steps).length).map
              (fun (i : Nat) => decide ((i : Int) < fw.limit))) := by
  have hw : fw.windowSeconds = W := by
    unfold FixedWindowLimiter.windowSeconds
    rw [hwin]
    exact wholeSeconds_exact W (by omega) (by norm_num; omega)
  constructor
  · obtain ⟨fw1, ok, he, hok, -, -, hfr, -, hset, hrej⟩ :=
      FixedWindowLimiter.allow_entries fw k now (by rw [hw]; omega)
    rw [hw] at hok hfr hset
    refine ⟨fw1, ok, he, ?_, fun h => ⟨hset h, hfr⟩, hrej, ?_⟩
    · rw [hok]
      simp
    · intro hL hnone
      rw [hok]
      simp only [decide_eq_true_eq, FixedWindowLimiter.countOf, hnone, Option.getD_none]
      omega
  · intro steps hnone hs
    obtain ⟨fw1, oks, hrun, hres, -, -, -⟩ :=
      FixedWindowLimiter.fw_burst k (Int.tdiv now W) W (by omega)
        (Int.tdiv_nonneg hnow (by omega)) steps fw hw hs
    refine ⟨fw1, oks, hrun, ?_⟩
    rw [hres]
    simp only [FixedWindowLimiter.countOf, hnone, Option.getD_none, zero_add]

/-- Witness of C15: limit 2, window 60 s, clock 125 s: three calls of one key
and one of another in window 2. -/
theorem fixedWindow_decision_step_witness :
    (1 : Int) ≤ 60 ∧ (0 : Int) ≤ 125 ∧
      ∃ fw1 oks, (NewFixedWindowLimiter 2 60000000000).run
          [FWStep.allow ['a'] 125, FWStep.allow ['b'] 126, FWStep.allow ['a'] 130,
            FWStep.allow ['a'] 179] = some (fw1, oks) ∧
        fwResultsFor ['a'] [FWStep.allow ['a'] 125, FWStep.allow ['b'] 126,
            FWStep.allow ['a'] 130, FWStep.allow ['a'] 179] oks =
          (List.range (fwCallsOf ['a'] [FWStep.allow ['a'] 125, FWStep.allow ['b'] 126,
            FWStep.allow ['a'] 130, FWStep.allow ['a'] 179]).length).map
              (fun (i : Nat) => decide ((i : Int) < 2)) :=
  ⟨by decide, by decide,
    (fixedWindow_decision_step (NewFixedWindowLimiter 2 60000000000) 60 ['a'] 125 (by decide)
      (by decide) rfl (by decide)).2 _ rfl (by
        intro s hs
        simp only [List.mem_cons, List.mem_singleton, List.not_mem_nil, or_false] at hs
        rcases hs with rfl | rfl | rfl | rfl
        · exact ⟨_, _, rfl, by decide, fun _ => by decide⟩
        · exact ⟨_, _, rfl, by decide, fun h => absurd h (by decide)⟩
        · exact ⟨_, _, rfl, by decide, fun _ => by decide⟩
        · exact ⟨_, _, rfl, by decide, fun _ => by decide⟩)⟩

/-- C16, counterexample: capacity 16777217, refill rate 1 per second. The
bucket is created at 0 and emptied by 16777217 calls at that time; the next
calls come 16777216.999999999 s later, an elapsed time that `Seconds()` rounds
to 16777217.0, so 16777217 tokens are added and 16777217 more calls are
admitted. The 33554434 admitted calls exceed
`C + r * floor(t − t0) = 16777217 + 16777216`. -/
theorem tokenBucket_long_gap :
    (durationSeconds (timeSub 16777216999999999 0)).toInt = 16777217 ∧
      ((NewTokenBucketLimiter 16777217 1).run
        (List.replicate 16777217 ⟨['a'], 0, 0⟩ ++
          List.replicate 16777217 ⟨['a'], 16777216999999999, 16777216999999999⟩)).2 =
        List.replicate (16777217 + 16777217) true ∧
      (16777217 : Int) + 1 * ((16777216999999999 - 0) / 1000000000) < 16777217 + 16777217 := by
  have hs : (durationSeconds (timeSub 16777216999999999 0)).toInt = 16777217 := by decide
  exact ⟨hs, TokenBucketLimiter.double_burst ['a'] 16777217 16777217 16777216999999999 16777217
    (by norm_num) (by norm_num) hs (by norm_num) (by norm_num), by decide⟩

/-- C16, amended. Token bucket long-run bound: for every capacity `C ≥ 1`,
refill rate `r ≥ 0` and key, and every sequence of calls (of any keys) at
non-decreasing clock readings, with the key's bucket created at the reading
`t0`: if `t − t0` is below 2^23 s (8388608 s, about 97 days, where
`Seconds()` is exact to the whole second), the number of true results of the
key up to time `t` is at most `C + r * floor(t − t0)`, the difference taken in
seconds. -/
theorem tokenBucket_long_run (C r : Int) (hC : 1 ≤ C) (hr : 0 ≤ r) (k : GoString) (t0 T : Int)
    (steps : List TBStep)
    (hfirst : ((steps.filter (fun s => decide (s.userID = k))).head?).map TBStep.created =
      some t0)
    (hclock : (tbReadings steps ++ [T]).Pairwise (· ≤ ·))
    (hspan : T - t0 < 8388608000000000) :
    ((resultsFor k steps ((NewTokenBucketLimiter C r).run steps).2).count true : Int) ≤
      C + r * ((T - t0) / 1000000000) :=
  TokenBucketLimiter.budget_fresh k t0 T C r hC hr hspan steps (NewTokenBucketLimiter C r)
    rfl rfl rfl hfirst hclock

/-- Witness of C16: capacity 2, rate 1; three calls of the key at 0 s, one call
of another key, and three calls of the key at 2.5 s: four are admitted, and
`2 + 1 * floor(2.5) = 4`. -/
theorem tokenBucket_long_run_witness :
    ((resultsFor ['a']
        [⟨['a'], 0, 0⟩, ⟨['a'], 0, 0⟩, ⟨['a'], 0, 0⟩, ⟨['b'], 1000000000, 1000000000⟩,
          ⟨['a'], 2500000000, 2500000000⟩, ⟨['a'], 2500000000, 2500000000⟩,
          ⟨['a'], 2500000000, 2500000000⟩]
        ((NewTokenBucketLimiter 2 1).run
          [⟨['a'], 0, 0⟩, ⟨['a'], 0, 0⟩, ⟨['a'], 0, 0⟩, ⟨['b'], 1000000000, 1000000000⟩,
            ⟨['a'], 2500000000, 2500000000⟩, ⟨['a'], 2500000000, 2500000000⟩,
            ⟨['a'], 2500000000, 2500000000⟩]).2).count true : Int) ≤
      2 + 1 * ((2500000000 - 0) / 1000000000) :=
  tokenBucket_long_run 2 1 (by decide) (by decide) ['a'] 0 2500000000 _ (by decide)
    (by decide) (by decide)

/-- C17, counterexample: window 3000 ms and clock 6000 ms. The elapsed
fraction is 0 and the weight of the previous window is exactly 1, which is not
below 1. -/
theorem slidingCounter_weight_one :
    Int.tmod 6000 3000 = 0 ∧
      counterWeight 3000 (Int.tmod 6000 3000) = F64.ofInt 1 ∧
      F64.ge (counterWeight 3000 (Int.tmod 6000 3000)) (F64.ofInt 1) = true := by
  decide

/-- C17, amended. Sliding window counter weight range: for every clock value
`now ≥ 0` and window size `W` of at least 1 ms (and at most 9223372036854 ms,
the largest value of `Duration.Milliseconds`), with
`elapsed = now mod W`, the weight `(W − elapsed) / W` that `AllowRequest`
multiplies the previous window's count with lies in the half-open range
(0, 1]: it is positive and at most 1, and it is exactly 1 if and only
if `elapsed = 0`. -/
theorem slidingCounter_weight_range (now W : Int) (hnow : 0 ≤ now) (hW : 1 ≤ W)
    (hmax : W ≤ 9223372036854) :
    (∀ p c, estimatedCount p c W (Int.tmod now W) =
        F64.add (F64.mul (F64.ofInt p) (counterWeight W (Int.tmod now W))) (F64.ofInt c)) ∧
      0 < (counterWeight W (Int.tmod now W)).num ∧
      (counterWeight W (Int.tmod now W)).num ≤ (counterWeight W (Int.tmod now W)).den ∧
      (Int.tmod now W = 0 ↔
        (counterWeight W (Int.tmod now W)).num = (counterWeight W (Int.tmod now W)).den) := by
  have he : 0 ≤ Int.tmod now W := Int.tmod_nonneg W hnow
  have heW : Int.tmod now W < W := Int.tmod_lt_of_pos now (by omega)
  obtain ⟨h1, h2, h3, h4⟩ := counterWeight_range W (Int.tmod now W) he heW
    (by norm_num; omega)
  refine ⟨fun p c => rfl, h1, h2, h3, ?_⟩
  intro heq
  by_contra hne
  have := h4 hne
  rw [heq] at this
  have hd : (0 : Int) < ((counterWeight W (Int.tmod now W)).den : Int) := by
    exact_mod_cast F64.den_pos _
  norm_num at this
  omega

/-- Witness of C17: window 3000 ms, clock 7000 ms. -/
theorem slidingCounter_weight_range_witness :
    (0 : Int) ≤ 7000 ∧ (1 : Int) ≤ 3000 ∧
      0 < (counterWeight 3000 (Int.tmod 7000 3000)).num ∧
      (counterWeight 3000 (Int.tmod 7000 3000)).num ≤
        (counterWeight 3000 (Int.tmod 7000 3000)).den :=
  ⟨by decide, by decide,
    (slidingCounter_weight_range 7000 3000 (by decide) (by decide) (by decide)).2.1,
    (slidingCounter_weight_range 7000 3000 (by decide) (by decide) (by decide)).2.2.1⟩

/-! ## Further claims on the sliding engines -/

/-- C18, counterexample: limit 2, window 10 s, two calls of one key in the
same millisecond. Both are admitted and the stored log is `[0, 0]`, which is
not strictly ascending. -/
theorem slidingWindowLog_equal_timestamps :
    ((NewSlidingWindowLog 2 10000000000).run
        [SWStep.allow ['a'] 0, SWStep.allow ['a'] 0]).1.logOf ['a'] = [0, 0] ∧
      ¬ (((NewSlidingWindowLog 2 10000000000).run
        [SWStep.allow ['a'] 0, SWStep.allow ['a'] 0]).1.logOf ['a']).Pairwise (· < ·) := by
  decide

/-- C18, amended. Sliding window log ordering: for every limit, window and
sequence of `AllowRequest` and `cleanupOldRequests` steps under a
non-decreasing millisecond clock, in every reachable state each key's stored
timestamp sequence is ascending: no timestamp is larger than a later one
(equal neighbours occur when a key is admitted twice in one millisecond). -/
theorem slidingWindowLog_ascending (L Wd : Int) (steps : List SWStep) (k : GoString)
    (hmono : (steps.map SWStep.time).Pairwise (· ≤ ·)) :
    (((NewSlidingWindowLog L Wd).run steps).1.logOf k).Pairwise (· ≤ ·) := by
  cases steps using List.reverseRecOn with
  | nil => simp [SlidingWindowLog.run, NewSlidingWindowLog, SlidingWindowLog.logOf]
  | append_singleton pre s =>
    have h := SlidingWindowLog.reach L Wd (pre ++ [s]) s.time (by
      rw [List.pairwise_append]
      refine ⟨hmono, by simp, ?_⟩
      intro a ha b hb
      simp only [List.mem_singleton] at hb
      subst hb
      rw [List.map_append, List.map_singleton] at ha hmono
      rw [List.pairwise_append] at hmono
      rcases List.mem_append.mp ha with ha | ha
      · exact hmono.2.2 a ha _ (by simp)
      · simp only [List.mem_singleton] at ha
        omega)
    exact (h k).1

/-- Witness of C18: limit 2, window 10 s, calls at 0, 0 and 7 ms with a
cleanup run in between. -/
theorem slidingWindowLog_ascending_witness :
    (((NewSlidingWindowLog 2 10000000000).run
      [SWStep.allow ['a'] 0, SWStep.allow ['a'] 0, SWStep.cleanup 3,
        SWStep.allow ['a'] 7]).1.logOf ['a']).Pairwise (· ≤ ·) :=
  slidingWindowLog_ascending 2 10000000000 _ ['a'] (by decide)

/-- C19. Fixed window edge burst: for every limit `L ≥ 1` and whole-second
window `W ≥ 2 s`, with no cleanup run in between: (a) for every key, `L`
calls in the last second of window 0 followed by `L` calls in the first
second of window 1, call times that span one second, are all admitted, `2 L`
in total; (b) in every reachable state, for every sequence of calls whose
times for one key span less than `W` seconds (calls of other keys allowed in
between), at most `2 L` of the key's calls return true. -/
theorem fixedWindow_edge_burst (L W : Int) (hL : 1 ≤ L) (hW : 2 ≤ W) (hmax : W ≤ 9223372036) :
    (∀ k : GoString,
        Int.tdiv (W - 1) W = 0 ∧ Int.tdiv W W = 1 ∧
        ∃ fw1, (NewFixedWindowLimiter L (W * 1000000000)).run
            (List.replicate L.toNat (FWStep.allow k (W - 1)) ++
              List.replicate L.toNat (FWStep.allow k W)) =
          some (fw1, List.replicate (L.toNat + L.toNat) true)) ∧
      (∀ (pre : List FWStep) (fw : FixedWindowLimiter) (oks0 : List Bool) (k : GoString)
          (steps : List FWStep) (lo : Int),
        (NewFixedWindowLimiter L (W * 1000000000)).run pre = some (fw, oks0) →
        (∀ s ∈ steps, s.isAllow = true) →
        (∀ t ∈ fwCallsOf k steps, lo ≤ t ∧ t < lo + W) →
        ∃ fw1 oks, fw.run steps = some (fw1, oks) ∧
          ((fwResultsFor k steps oks).count true : Int) ≤ 2 * L) := by
  have hw0 : (NewFixedWindowLimiter L (W * 1000000000)).windowSeconds = W :=
    wholeSeconds_exact W (by omega) (by norm_num; omega)
  constructor
  · intro k
    refine ⟨Int.tdiv_eq_zero_of_lt (by omega) (by omega), Int.tdiv_self (by omega), ?_⟩
    exact FixedWindowLimiter.fw_edge k W L.toNat _ hW hw0
      (by rw [Int.toNat_of_nonneg (by omega)]; exact le_refl _) rfl rfl
  · intro pre fw oks0 k steps lo hpre hs ht
    have hnn := FixedWindowLimiter.fw_counts_nonneg pre _ fw oks0
      (fun key n h => absurd h (by simp [NewFixedWindowLimiter])) hpre
    have hinv : ∀ (steps : List FWStep) (a b : FixedWindowLimiter) (oks : List Bool),
        a.run steps = some (b, oks) → b.windowSeconds = a.windowSeconds ∧ b.limit = a.limit := by
      intro steps
      induction steps with
      | nil =>
        intro a b oks h
        obtain ⟨rfl, -⟩ := Prod.mk.inj (Option.some.inj h)
        exact ⟨rfl, rfl⟩
      | cons s rest ih =>
        intro a b oks h
        cases s with
        | allow u t =>
          rw [FixedWindowLimiter.run_allow_cons] at h
          cases hA : a.AllowRequest u t with
          | none => rw [hA] at h; exact absurd h (by simp)
          | some p =>
            obtain ⟨a1, ok⟩ := p
            rw [hA, Option.some_bind] at h
            cases hR : a1.run rest with
            | none => rw [hR] at h; exact absurd h (by simp)
            | some q =>
              obtain ⟨b1, oksb⟩ := q
              rw [hR] at h
              obtain ⟨rfl, -⟩ := Prod.mk.inj (Option.some.inj h)
              have hWa : a.windowSeconds ≠ 0 := by
                intro h0
                unfold FixedWindowLimiter.AllowRequest at hA
                rw [if_pos h0] at hA
                exact absurd hA (by simp)
              obtain ⟨a2, ok2, he, -, hl, hws, -⟩ := FixedWindowLimiter.allow_entries a u t hWa
              rw [hA] at he
              obtain ⟨rfl, rfl⟩ := Prod.mk.inj (Option.some.inj he)
              obtain ⟨h1, h2⟩ := ih a1 _ oksb hR
              exact ⟨by rw [h1, hws], by rw [h2, hl]⟩
        | cleanup t =>
          rw [FixedWindowLimiter.run_cleanup_cons] at h
          obtain ⟨h1, h2⟩ := ih _ b oks h
          refine ⟨?_, ?_⟩
          · rw [h1]
            split <;> rfl
          · rw [h2]
            split <;> rfl
    obtain ⟨hwf, hlf⟩ := hinv pre _ fw oks0 hpre
    rw [hw0] at hwf
    have hlf1 : fw.limit = L := hlf
    obtain ⟨fw1, oks, hrun, -, hle⟩ :=
      FixedWindowLimiter.fw_two_windows k (Int.tdiv lo W) W (by omega) steps fw hwf hs
        (fun t htm => tdiv_span lo t W (by omega) (ht t htm).1 (ht t htm).2)
    refine ⟨fw1, oks, hrun, ?_⟩
    have hc : ∀ j, 0 ≤ fw.countOf k j := by
      intro j
      unfold FixedWindowLimiter.countOf
      cases hq : fw.requests (sprintfKey k j) with
      | none => simp
      | some m => simpa using hnn _ m hq
    have := hc (Int.tdiv lo W)
    have := hc (Int.tdiv lo W + 1)
    rw [hlf1] at hle
    omega

/-- Witness of C19: limit 2 and a window of 60 s; the calls at 59, 59, 60 and
60 s are all admitted. -/
theorem fixedWindow_edge_burst_witness :
    (1 : Int) ≤ 2 ∧ (2 : Int) ≤ 60 ∧
      ∃ fw1, (NewFixedWindowLimiter 2 (60 * 1000000000)).run
          (List.replicate (2 : Int).toNat (FWStep.allow ['a'] (60 - 1)) ++
            List.replicate (2 : Int).toNat (FWStep.allow ['a'] 60)) =
        some (fw1, List.replicate ((2 : Int).toNat + (2 : Int).toNat) true) :=
  ⟨by decide, by decide,
    ((fixedWindow_edge_burst 2 60 (by decide) (by decide) (by decide)).1 ['a']).2.2⟩

/-- Key isolation of the `AllowRequest` step itself: for every whole-second
window `W ≥ 1 s` and clock values `≥ 0`, the composite key
`Sprintf("%s-%d", userID, now / W)` determines the user ID and the window
index, whatever characters the user IDs contain; an `AllowRequest` call for
one user ID changes no stored count of a different user ID, and as long as no
cleanup pass runs in between, the result of every later `AllowRequest` call
of a different user ID is the same as without it. -/
theorem fixedWindow_step_isolation (fw : FixedWindowLimiter) (W : Int) (u v : GoString)
    (now1 now2 : Int) (hW : 1 ≤ W) (hmax : W ≤ 9223372036)
    (hwin : fw.window = W * 1000000000) (h1 : 0 ≤ now1) (h2 : 0 ≤ now2) :
    (sprintfKey u (Int.tdiv now1 W) = sprintfKey v (Int.tdiv now2 W) →
        u = v ∧ Int.tdiv now1 W = Int.tdiv now2 W) ∧
      (u ≠ v → ∃ fw1 ok1, fw.AllowRequest u now1 = some (fw1, ok1) ∧
        (∀ t, 0 ≤ t → fw1.requests (sprintfKey v (Int.tdiv t W)) =
          fw.requests (sprintfKey v (Int.tdiv t W))) ∧
        (fw1.AllowRequest v now2).map Prod.snd = (fw.AllowRequest v now2).map Prod.snd ∧
        ∀ rest : List FWStep, (∀ s ∈ rest, ∃ w t, s = FWStep.allow w t ∧ 0 ≤ t) →
          ∃ fa oa fb ob, fw.run (FWStep.allow u now1 :: rest) = some (fa, ok1 :: oa) ∧
            fw.run rest = some (fb, ob) ∧
            fwResultsFor v (FWStep.allow u now1 :: rest) (ok1 :: oa) =
              fwResultsFor v rest ob) := by
  have hw : fw.windowSeconds = W := by
    unfold FixedWindowLimiter.windowSeconds
    rw [hwin]
    exact wholeSeconds_exact W (by omega) (by norm_num; omega)
  have hidx : ∀ t : Int, 0 ≤ t → 0 ≤ Int.tdiv t W := fun t ht => Int.tdiv_nonneg ht (by omega)
  refine ⟨fun h => sprintfKey_inj u v _ _ (hidx _ h1) (hidx _ h2) h, ?_⟩
  intro huv
  obtain ⟨fw1, ok, he, -, hl, hw1, -, -, -, -⟩ :=
    FixedWindowLimiter.allow_entries fw u now1 (by rw [hw]; omega)
  have hsame : ∀ j, 0 ≤ j → fw1.requests (sprintfKey v j) = fw.requests (sprintfKey v j) :=
    fun j hj => FixedWindowLimiter.allow_other fw fw1 u v now1 ok (by rw [hw]; omega) h1 huv he
      j hj
  refine ⟨fw1, ok, he, fun t ht => hsame _ (hidx t ht), ?_, ?_⟩
  · obtain ⟨a, oka, hea, hoka, -⟩ :=
      FixedWindowLimiter.allow_entries fw v now2 (by rw [hw]; omega)
    obtain ⟨b, okb, heb, hokb, -⟩ :=
      FixedWindowLimiter.allow_entries fw1 v now2 (by rw [hw1, hw]; omega)
    rw [hea, heb, Option.map_some', Option.map_some', hoka, hokb, hw1, hl]
    unfold FixedWindowLimiter.countOf
    rw [hw, hsame _ (hidx _ h2)]
  · intro rest hrest
    obtain ⟨fa, oa, fb, ob, hra, hrb, hres⟩ := FixedWindowLimiter.fw_agree v W (by omega) rest
      fw1 fw (by rw [hw1, hw]) hw hl hsame hrest
    refine ⟨fa, oa, fb, ob, ?_, hrb, ?_⟩
    · rw [FixedWindowLimiter.run_allow_cons, he, Option.some_bind, hra]
      rfl
    · rw [FixedWindowLimiter.fwResultsFor_allow, if_neg huv, hres]

/-- C20, failing input: limit 1, window 60 s, user IDs `x-1700000000` and `u`.
The call of `x-1700000000` at 1700000050 s is admitted and the cleanup pass it
starts keeps its entry (the pass scans the piece `1700000000` of the key as
the window time). Then `u` calls at 1700000061 s, in the same window; the
cleanup pass that this call starts deletes the entry of `x-1700000000`, and
the call of `x-1700000000` at 1700000062 s, still in the same window, is
admitted. Without the call of `u` no pass is started and that call is
rejected. The same at clock values 61, 62 and 63 s with the user ID `a`. -/
theorem fixedWindow_isolation_broken_by_cleanup :
    ((NewFixedWindowLimiter 1 60000000000).run
        [FWStep.allow ['x', '-', '1', '7', '0', '0', '0', '0', '0', '0', '0', '0'] 1700000050,
          FWStep.cleanup 1700000050, FWStep.allow ['u'] 1700000061,
          FWStep.cleanup 1700000061,
          FWStep.allow ['x', '-', '1', '7', '0', '0', '0', '0', '0', '0', '0', '0']
            1700000062]).map Prod.snd = some [true, true, true] ∧
      ((NewFixedWindowLimiter 1 60000000000).run
        [FWStep.allow ['x', '-', '1', '7', '0', '0', '0', '0', '0', '0', '0', '0'] 1700000050,
          FWStep.cleanup 1700000050, FWStep.cleanup 1700000061,
          FWStep.allow ['x', '-', '1', '7', '0', '0', '0', '0', '0', '0', '0', '0']
            1700000062]).map Prod.snd = some [true, false] ∧
      Int.tdiv 1700000050 60 = Int.tdiv 1700000062 60 ∧
      ((NewFixedWindowLimiter 1 60000000000).run
        [FWStep.allow ['a'] 61, FWStep.cleanup 61, FWStep.allow ['u'] 62, FWStep.cleanup 62,
          FWStep.allow ['a'] 63]).map Prod.snd = some [true, true, true] ∧
      ((NewFixedWindowLimiter 1 60000000000).run
        [FWStep.allow ['a'] 61, FWStep.cleanup 61, FWStep.cleanup 62,
          FWStep.allow ['a'] 63]).map Prod.snd = some [true, false] := by
  decide

end RateLimiter
